import Mathlib

/-!
Verification of minter-go-ledger: HID framing, APDU exchange and status decoding

A shallow embedding of `hid.go` (the `hidFramer` and `apduFramer` types), of
`types.go` (addresses and signatures) and of the commands of `minter.go`
(`NanoS.Exchange`, `GetVersion`, `GetAddress`, `SignHash`), followed by theorems
about them.

Conventions of the embedding

* A byte is a `Fin 256`; `uint16` values are natural numbers kept below `65536`
  by an explicit `% 65536` wherever the Go code can overflow.
* The Go field `hidFramer.rw` is a reference to the opened device.  The device is
  modelled as a deterministic state machine `ReadWriter σ`, and the referenced
  device state is threaded explicitly through every function as a `Wire σ`: the
  device state together with the record of all calls made on the device so far.
* A Go function either returns, or panics; loops are modelled with fuel, so a
  third outcome `hang` stands for fuel exhaustion.  Every outcome carries the
  `Wire` reached.
* A Go function that returns `(value, error)` returns the pair
  `(value, Option Err)`; a `nil` slice is the empty list.
* A Go string is the list of its bytes; `hex.EncodeToString`, `hex.DecodeString`
  and `io.ReadFull` of the Go library are modelled from their documentation.
* The printing done when `DEBUG` is set does not change any result and is left
  out.
-/

namespace MinterLedger

/-! ## Bytes, arrays and errors -/

/-- One byte. -/
abbrev Byte := Fin 256

/-- Go conversion `byte(n)` (also `uint8(n)`): the low 8 bits. -/
def byteOf (n : Nat) : Byte := ⟨n % 256, Nat.mod_lt n (by decide)⟩

/-- Go `binary.BigEndian.Uint16` on the two bytes `b0, b1`. -/
def uint16BE (b0 b1 : Byte) : Nat := b0.val * 256 + b1.val

/-- Go builtin `copy(dst, src)` on slices: the new contents of `dst`.  The number
of bytes copied is `min dst.length src.length`. -/
def goCopy (dst src : List Byte) : List Byte :=
  let n := min dst.length src.length
  src.take n ++ dst.drop n

/-- Go `binary.BigEndian.PutUint16(b[off:off+2], v)` for a `uint16` value `v`. -/
def putUint16 (b : List Byte) (off : Nat) (v : Nat) : List Byte :=
  (b.set off (byteOf (v / 256))).set (off + 1) (byteOf v)

/-- A Go array `[n]byte`. -/
abbrev Arr (n : Nat) := { l : List Byte // l.length = n }

/-- The array of `n` zero bytes (the Go zero value). -/
def Arr.zero (n : Nat) : Arr n := ⟨List.replicate n 0, by simp⟩

/-- Go `copy(a[:], src)`. -/
def Arr.copyFrom {n : Nat} (a : Arr n) (src : List Byte) : Arr n :=
  ⟨goCopy a.1 src, by
    have h := a.2
    simp only [goCopy, List.length_append, List.length_take, List.length_drop]
    omega⟩

/-- Go `a[i]` for an index inside the array. -/
def Arr.idx {n : Nat} (a : Arr n) (i : Nat) : Byte := a.1.getD i 0

/-- Go error values that occur in the program.  `eof` and `unexpectedEOF` are
`io.EOF` and `io.ErrUnexpectedEOF`; `other id` is any further error value a
device may return; the rest are the errors created in `hid.go`, `minter.go` and
`types.go`. -/
inductive Err where
  | eof
  | unexpectedEOF
  | other (id : Nat)
  | badChannelID (channelID : Nat)
  | badCommandTag (commandTag : Nat)
  | badSequenceNumber (seq expected : Nat)
  | missingStatusCode
  | errUserRejected
  | errInvalidParam
  | ErrCode (code : Nat)
  | versionWrongLength
  | invalidSignatureLength
  | invalidAddressLength
  | couldNotUnmarshal
  deriving DecidableEq, Repr

/-! ## The device (`io.ReadWriter`) -/

/-- A device: `Write s record` is the call `rw.Write(record)` in device state `s`
and gives the new state, the returned count and the returned error;
`Read s cap` is the call `rw.Read(p)` with `len(p) = cap` and gives the new
state, the bytes stored in `p[0:n]` (so the returned count `n` is their number)
and the returned error. -/
structure ReadWriter (σ : Type) where
  Write : σ → List Byte → σ × Nat × Option Err
  Read : σ → Nat → σ × List Byte × Option Err

/-- One call made on the device, with what it returned. -/
inductive IOEvent where
  | write (record : List Byte) (n : Nat) (err : Option Err)
  | read (data : List Byte) (err : Option Err)
  deriving DecidableEq, Repr

/-- The device a framer refers to: its state and the calls made on it so far. -/
structure Wire (σ : Type) where
  st : σ
  trace : List IOEvent

/-- The call `hf.rw.Write(record)`. -/
def Wire.Write {σ : Type} (T : ReadWriter σ) (w : Wire σ) (record : List Byte) :
    Wire σ × Nat × Option Err :=
  let r := T.Write w.st record
  (⟨r.1, w.trace ++ [IOEvent.write record r.2.1 r.2.2]⟩, r.2.1, r.2.2)

/-- The call `hf.rw.Read(p)` with `len(p) = cap`. -/
def Wire.Read {σ : Type} (T : ReadWriter σ) (w : Wire σ) (cap : Nat) :
    Wire σ × List Byte × Option Err :=
  let r := T.Read w.st cap
  (⟨r.1, w.trace ++ [IOEvent.read r.2.1 r.2.2]⟩, r.2.1, r.2.2)

/-- How a Go call ends. -/
inductive Outcome (σ α : Type) where
  | ret (w : Wire σ) (a : α)
  | panics (w : Wire σ) (msg : String)
  | hang (w : Wire σ)

/-- The device as the call left it. -/
def Outcome.wire {σ α : Type} : Outcome σ α → Wire σ
  | .ret w _ => w
  | .panics w _ => w
  | .hang w => w

/-! ## `hidFramer` -/

/-- Go `hidFramer` without its `rw` field (see `Wire`). -/
structure hidFramer where
  seq : Nat
  buf : Arr 64
  pos : Nat

/-- Go `hidFramer.Reset`. -/
def hidFramer.Reset (hf : hidFramer) : hidFramer := { hf with seq := 0 }

/-- The `for buf.Len() > 0` loop of `hidFramer.Write`; `plen` is `len(p)`,
`buf` the unread part of the `bytes.Buffer`, `seq` the local `uint16` counter and
`chunk` the 64-byte scratch slice. -/
def hidFramer.writeLoop {σ : Type} (T : ReadWriter σ) (plen : Nat) :
    Nat → Wire σ → List Byte → Nat → List Byte → Outcome σ (Nat × Option Err)
  | 0, w, buf, _, _ => if buf.length > 0 then .hang w else .ret w (plen, none)
  | fuel + 1, w, buf, seq, chunk =>
    if buf.length > 0 then
      let chunk1 := putUint16 chunk 3 seq
      -- n, _ := buf.Read(chunk[5:])
      let n := min (chunk1.drop 5).length buf.length
      let chunk2 := chunk1.take 5 ++ goCopy (chunk1.drop 5) buf
      let r := w.Write T (chunk2.take (5 + n))
      match r.2.2 with
      | some e => .ret r.1 (r.2.1, some e)
      | none => hidFramer.writeLoop T plen fuel r.1 (buf.drop n) ((seq + 1) % 65536) chunk2
    else .ret w (plen, none)

/-- Go `hidFramer.Write`.  The receiver is only used for `hf.rw`, so the framer
itself is unchanged and not returned.  Every turn of the loop takes at least one
byte from the buffer, so its length is enough fuel. -/
def hidFramer.Write {σ : Type} (T : ReadWriter σ) (w : Wire σ) (_hf : hidFramer)
    (p : List Byte) : Outcome σ (Nat × Option Err) :=
  let chunk := putUint16 (List.replicate 64 0) 0 0x0101
  let chunk := chunk.set 2 0x05
  let buf := [byteOf ((p.length % 65536) / 256), byteOf (p.length % 65536)] ++ p
  hidFramer.writeLoop T p.length buf.length w buf 0 chunk

/-- Go `hidFramer.Read` with `len(p) = plen`: the new framer, the bytes stored in
`p[0:n]` and the error. -/
def hidFramer.Read {σ : Type} (T : ReadWriter σ) (w : Wire σ) (hf : hidFramer)
    (plen : Nat) : Outcome σ (hidFramer × List Byte × Option Err) :=
  if hf.seq > 0 ∧ hf.pos ≠ 64 then
    if hf.pos > 64 then .panics w "slice bounds out of range"
    else
      let out := (hf.buf.1.drop hf.pos).take plen
      .ret w ({ hf with pos := hf.pos + out.length }, out, none)
  else
    let r := w.Read T 64
    let hf1 : hidFramer := { hf with buf := hf.buf.copyFrom r.2.1 }
    match r.2.2 with
    | some e => .ret r.1 (hf1, [], some e)
    | none =>
      if r.2.1.length ≠ 64 then .panics r.1 "read less than 64 bytes from HID"
      else
        let channelID := uint16BE (hf1.buf.idx 0) (hf1.buf.idx 1)
        let commandTag := hf1.buf.idx 2
        let seq := uint16BE (hf1.buf.idx 3) (hf1.buf.idx 4)
        if channelID ≠ 0x0101 then .ret r.1 (hf1, [], some (.badChannelID channelID))
        else if commandTag.val ≠ 0x05 then
          .ret r.1 (hf1, [], some (.badCommandTag commandTag.val))
        else if seq ≠ hf1.seq then
          .ret r.1 (hf1, [], some (.badSequenceNumber seq hf1.seq))
        else
          let out := (hf1.buf.1.drop 5).take plen
          .ret r.1 ({ hf1 with seq := (hf1.seq + 1) % 65536, pos := 5 + out.length }, out, none)

/-- The loop of Go `io.ReadAtLeast(r, buf, min)` with `min = len(buf) = len` and
`r` the framer: `acc` holds the `n` bytes read so far, `err` the last error. -/
def readFullLoop {σ : Type} (T : ReadWriter σ) (len : Nat) :
    Nat → Wire σ → hidFramer → List Byte → Option Err →
      Outcome σ (hidFramer × List Byte × Option Err)
  | fuel, w, hf, acc, err =>
    if acc.length < len ∧ err = none then
      match fuel with
      | 0 => .hang w
      | fuel + 1 =>
        match hf.Read T w (len - acc.length) with
        | .panics w1 m => .panics w1 m
        | .hang w1 => .hang w1
        | .ret w1 (hf1, out, err1) => readFullLoop T len fuel w1 hf1 (acc ++ out) err1
    else if acc.length ≥ len then .ret w (hf, acc, none)
    else if acc.length > 0 ∧ err = some .eof then .ret w (hf, acc, some .unexpectedEOF)
    else .ret w (hf, acc, err)

/-- Go `io.ReadFull(hf, buf)` with `len(buf) = len`: the new framer, the bytes
stored in `buf[0:n]` and the error. -/
def ReadFull {σ : Type} (T : ReadWriter σ) (w : Wire σ) (hf : hidFramer) (len : Nat) :
    Outcome σ (hidFramer × List Byte × Option Err) :=
  readFullLoop T len (len + 1) w hf [] none

/-! ## `apduFramer` -/

/-- Go `APDU`. -/
structure APDU where
  CLA : Byte
  INS : Byte
  P1 : Byte
  P2 : Byte
  Payload : List Byte

/-- Go `apduFramer`. -/
structure apduFramer where
  hf : hidFramer
  buf : Arr 2

/-- The slice `data` built in `apduFramer.Exchange`. -/
def APDU.data (apdu : APDU) : List Byte :=
  [apdu.CLA, apdu.INS, apdu.P1, apdu.P2, byteOf apdu.Payload.length] ++ apdu.Payload

/-- Go `apduFramer.Exchange`. -/
def apduFramer.Exchange {σ : Type} (T : ReadWriter σ) (w : Wire σ) (af : apduFramer)
    (apdu : APDU) : Outcome σ (apduFramer × List Byte × Option Err) :=
  if apdu.Payload.length > 255 then .panics w "APDU payload cannot exceed 255 bytes"
  else
    let hf0 := af.hf.Reset
    match hf0.Write T w apdu.data with
    | .panics w1 m => .panics w1 m
    | .hang w1 => .hang w1
    | .ret w1 (_, some e) => .ret w1 ({ af with hf := hf0 }, [], some e)
    | .ret w1 (_, none) =>
      -- read APDU length
      match ReadFull T w1 hf0 2 with
      | .panics w2 m => .panics w2 m
      | .hang w2 => .hang w2
      | .ret w2 (hf1, got, some e) =>
        .ret w2 ({ hf := hf1, buf := af.buf.copyFrom got }, [], some e)
      | .ret w2 (hf1, got, none) =>
        let buf1 := af.buf.copyFrom got
        -- read APDU payload
        let respLen := uint16BE (buf1.idx 0) (buf1.idx 1)
        match ReadFull T w2 hf1 respLen with
        | .panics w3 m => .panics w3 m
        | .hang w3 => .hang w3
        | .ret w3 (hf2, got2, err) =>
          .ret w3 ({ hf := { hf2 with pos := 0 }, buf := buf1 },
            goCopy (List.replicate respLen 0) got2, err)

/-! ## `NanoS.Exchange` -/

/-- Go `NanoS`; the `ptr` field (the raw device handle, used only to close the
device) is left out. -/
structure NanoS where
  device : apduFramer

/-- A Go byte slice as a caller can use it: `arr` is the backing storage from the
start of the slice to its capacity, `len` its length. -/
structure Slice where
  arr : List Byte
  len : Nat
  deriving DecidableEq, Repr

/-- The bytes of the slice, `s[0:len(s)]`. -/
def Slice.bytes (s : Slice) : List Byte := s.arr.take s.len

/-- The `nil` slice. -/
def Slice.nil : Slice := ⟨[], 0⟩

/-- Go `NanoS.Exchange`. -/
def NanoS.Exchange {σ : Type} (T : ReadWriter σ) (w : Wire σ) (n : NanoS)
    (cmd p1 p2 : Byte) (data : List Byte) : Outcome σ (NanoS × Slice × Option Err) :=
  match n.device.Exchange T w { CLA := 0xe0, INS := cmd, P1 := p1, P2 := p2, Payload := data } with
  | .panics w1 m => .panics w1 m
  | .hang w1 => .hang w1
  | .ret w1 (af, _, some e) => .ret w1 (⟨af⟩, Slice.nil, some e)
  | .ret w1 (af, resp, none) =>
    if resp.length < 2 then .ret w1 (⟨af⟩, Slice.nil, some .missingStatusCode)
    else
      let code := uint16BE (resp.getD (resp.length - 2) 0) (resp.getD (resp.length - 1) 0)
      let body : Slice := ⟨resp, resp.length - 2⟩
      if code = 0x9000 then .ret w1 (⟨af⟩, body, none)
      else if code = 0x6985 then .ret w1 (⟨af⟩, body, some .errUserRejected)
      else if code = 0x6b01 then .ret w1 (⟨af⟩, body, some .errInvalidParam)
      else .ret w1 (⟨af⟩, body, some (.ErrCode code))

/-! ## `types.go` -/

/-- A Go string: its bytes. -/
abbrev GoString := List Byte

/-- The bytes of an ASCII text. -/
def ascii (s : String) : GoString := s.toList.map (fun c => byteOf c.toNat)

/-- The table `hextable` of Go `encoding/hex`. -/
def hextable : List Byte := ascii "0123456789abcdef"

/-- Go `hex.EncodeToString`: two lower-case hexadecimal digits for every byte. -/
def hexEncode (src : List Byte) : GoString :=
  src.flatMap (fun v => [hextable.getD (v.val / 16) 0, hextable.getD (v.val % 16) 0])

/-- Go `fromHexChar` of `encoding/hex`: the value of a hexadecimal digit. -/
def fromHexChar (c : Byte) : Option Nat :=
  if 48 ≤ c.val ∧ c.val ≤ 57 then some (c.val - 48)
  else if 97 ≤ c.val ∧ c.val ≤ 102 then some (c.val - 97 + 10)
  else if 65 ≤ c.val ∧ c.val ≤ 70 then some (c.val - 65 + 10)
  else none

/-- Go `hex.DecodeString`; `none` stands for any of its errors (a byte that is not
a hexadecimal digit, or an odd length). -/
def hexDecode : List Byte → Option (List Byte)
  | [] => some []
  | [_] => none
  | p :: q :: rest =>
    match fromHexChar p, fromHexChar q with
    | some a, some b => (hexDecode rest).map (fun l => byteOf (a * 16 + b) :: l)
    | _, _ => none

/-- Go `MinterAddress`. -/
structure MinterAddress where
  buf : Arr 20

/-- Go `MinterAddress.ToString`. -/
def MinterAddress.ToString (ref : MinterAddress) : GoString :=
  ascii "Mx" ++ hexEncode ref.buf.1

/-- Go `MinterAddress.LoadString`: the address afterwards and the error.  The error
built from the error of `hex.DecodeString` is `couldNotUnmarshal`, whatever its
text. -/
def MinterAddress.LoadString (ref : MinterAddress) (s : GoString) :
    MinterAddress × Option Err :=
  if s.length ≠ 40 ∨ s.length ≠ 42 then (ref, some .invalidAddressLength)
  else
    let tmp := if s.length = 42 then s.drop 2 else s
    match hexDecode tmp with
    | none => (ref, some .couldNotUnmarshal)
    | some hBytes => ({ buf := ref.buf.copyFrom hBytes }, none)

/-- Go `MinterSignature`. -/
structure MinterSignature where
  r : Arr 32
  s : Arr 32
  v : Arr 1

/-- Go `NewSignature`: the pointer returned (`none` for `nil`) and the error. -/
def NewSignature (response : List Byte) : Option MinterSignature × Option Err :=
  if response.length ≠ 65 then (none, some .invalidSignatureLength)
  else
    let res : MinterSignature := { r := Arr.zero 32, s := Arr.zero 32, v := Arr.zero 1 }
    let res := { res with r := res.r.copyFrom (response.take 32) }
    let res := { res with s := res.s.copyFrom ((response.drop 32).take 32) }
    -- res.v[0] = response[64]
    let res := { res with v := res.v.copyFrom [response.getD 64 0] }
    (some res, none)

/-- Go `MinterSignature.ToString`. -/
def MinterSignature.ToString (ref : MinterSignature) : GoString :=
  hexEncode ref.r.1 ++ hexEncode ref.s.1 ++ hexEncode ref.v.1

/-! ## The commands of `minter.go` -/

/-- Go `binary.LittleEndian.PutUint32` on a fresh 4-byte slice, for a `uint32`
value `v`. -/
def le32 (v : Nat) : List Byte :=
  [byteOf v, byteOf (v / 256), byteOf (v / 65536), byteOf (v / 16777216)]

/-- Go `NanoS.GetVersion` (`cmdGetVersion = 0x01`). -/
def NanoS.GetVersion {σ : Type} (T : ReadWriter σ) (w : Wire σ) (n : NanoS) :
    Outcome σ (NanoS × GoString × Option Err) :=
  match n.Exchange T w 0x01 0 0 [] with
  | .panics w1 m => .panics w1 m
  | .hang w1 => .hang w1
  | .ret w1 (n1, _, some e) => .ret w1 (n1, [], some e)
  | .ret w1 (n1, resp, none) =>
    if resp.len ≠ 3 then .ret w1 (n1, [], some .versionWrongLength)
    else
      .ret w1 (n1, ascii ("v" ++ Nat.repr (resp.arr.getD 0 0).val ++ "."
        ++ Nat.repr (resp.arr.getD 1 0).val ++ "." ++ Nat.repr (resp.arr.getD 2 0).val), none)

/-- Go `NanoS.GetAddress` (`cmdGetAddress = 0x01 << 1`).  The slice expression
`resp[0:20]` is checked against the capacity of `resp`, not its length. -/
def NanoS.GetAddress {σ : Type} (T : ReadWriter σ) (w : Wire σ) (n : NanoS)
    (deriveIndex : Nat) (silent : Bool) : Outcome σ (NanoS × MinterAddress × Option Err) :=
  let encIndex := le32 deriveIndex
  let param1 : Byte := if silent then 1 else 0
  match n.Exchange T w 0x02 param1 0 encIndex with
  | .panics w1 m => .panics w1 m
  | .hang w1 => .hang w1
  | .ret w1 (n1, _, some e) => .ret w1 (n1, { buf := Arr.zero 20 }, some e)
  | .ret w1 (n1, resp, none) =>
    if 20 > resp.arr.length then .panics w1 "slice bounds out of range"
    else .ret w1 (n1, { buf := (Arr.zero 20).copyFrom (resp.arr.take 20) }, none)

/-- Go `NanoS.SignHash` (`cmdSignHash = 0x01 << 2`). -/
def NanoS.SignHash {σ : Type} (T : ReadWriter σ) (w : Wire σ) (n : NanoS)
    (hash : Arr 32) (deriveIndex : Nat) (silent : Bool) :
    Outcome σ (NanoS × Option MinterSignature × Option Err) :=
  let encIndex := le32 deriveIndex
  let param1 : Byte := if silent then 1 else 0
  match n.Exchange T w 0x04 param1 0 (encIndex ++ hash.1) with
  | .panics w1 m => .panics w1 m
  | .hang w1 => .hang w1
  | .ret w1 (n1, _, some e) => .ret w1 (n1, none, some e)
  | .ret w1 (n1, resp, none) =>
    match NewSignature resp.bytes with
    | (_, some e) => .ret w1 (n1, none, some e)
    | (sig, none) => .ret w1 (n1, sig, none)

/-! ## Vocabulary of the statements -/

/-- The 5-byte header of the packet number `seq`: channel id `0x0101`, command
tag `0x05`, then `seq` as a big-endian `uint16`. -/
def header (seq : Nat) : List Byte := [0x01, 0x01, 0x05, byteOf (seq / 256), byteOf seq]

/-- The channel id of a packet: bytes 0-1, big-endian. -/
def channelIDOf (p : List Byte) : Nat := uint16BE (p.getD 0 0) (p.getD 1 0)

/-- The command tag of a packet: byte 2. -/
def commandTagOf (p : List Byte) : Nat := (p.getD 2 0).val

/-- The sequence number of a packet: bytes 3-4, big-endian. -/
def seqOf (p : List Byte) : Nat := uint16BE (p.getD 3 0) (p.getD 4 0)

/-- The records of the write calls in a trace, in order. -/
def writesOf : List IOEvent → List (List Byte)
  | [] => []
  | .write r _ _ :: es => r :: writesOf es
  | .read _ _ :: es => writesOf es

/-- The data of the read calls in a trace, in order. -/
def readsOf : List IOEvent → List (List Byte)
  | [] => []
  | .write _ _ _ :: es => readsOf es
  | .read d _ :: es => d :: readsOf es

/-- The calls made on the device between `w` and the later `w1`. -/
def Wire.since {σ : Type} (w1 w : Wire σ) : List IOEvent := w1.trace.drop w.trace.length

/-- Every write call on the device returns a `nil` error. -/
def WritesSucceed {σ : Type} (T : ReadWriter σ) : Prop := ∀ s r, (T.Write s r).2.2 = none

/-- From state `s` on, the successive 64-byte reads of the device return the
packets `pkts`, each with a `nil` error. -/
def ReadsYield {σ : Type} (T : ReadWriter σ) : σ → List (List Byte) → Prop
  | _, [] => True
  | s, p :: ps => (T.Read s 64).2 = (p, none) ∧ ReadsYield T (T.Read s 64).1 ps

/-- The packets are 64 bytes long and carry the headers number `seq`, `seq + 1`, ... -/
def Framed : Nat → List (List Byte) → Prop
  | _, [] => True
  | seq, p :: ps => p.length = 64 ∧ p.take 5 = header seq ∧ Framed (seq + 1) ps

/-- The bytes after the 5-byte headers of the records, concatenated. -/
def payloads (pkts : List (List Byte)) : List Byte := (pkts.map (List.drop 5)).flatten

/-- Every packet is 64 bytes long and starts with the record of the same rank. -/
def Padded : List (List Byte) → List (List Byte) → Prop
  | [], [] => True
  | r :: rs, p :: ps => p.length = 64 ∧ p.take r.length = r ∧ Padded rs ps
  | _, _ => False

instance ReadsYield.dec {σ : Type} (T : ReadWriter σ) :
    (s : σ) → (pkts : List (List Byte)) → Decidable (ReadsYield T s pkts)
  | _, [] => isTrue trivial
  | s, p :: ps =>
    have := ReadsYield.dec T (T.Read s 64).1 ps
    inferInstanceAs (Decidable ((T.Read s 64).2 = (p, none) ∧ ReadsYield T (T.Read s 64).1 ps))

instance Framed.dec : (seq : Nat) → (pkts : List (List Byte)) → Decidable (Framed seq pkts)
  | _, [] => isTrue trivial
  | seq, p :: ps =>
    have := Framed.dec (seq + 1) ps
    inferInstanceAs (Decidable (p.length = 64 ∧ p.take 5 = header seq ∧ Framed (seq + 1) ps))

instance Padded.dec : (rs ps : List (List Byte)) → Decidable (Padded rs ps)
  | [], [] => isTrue trivial
  | [], _ :: _ => isFalse (fun h => h)
  | _ :: _, [] => isFalse (fun h => h)
  | r :: rs, p :: ps =>
    have := Padded.dec rs ps
    inferInstanceAs (Decidable (p.length = 64 ∧ p.take r.length = r ∧ Padded rs ps))

/-- The records the loop of `hidFramer.Write` builds from the buffer `buf`,
starting with sequence number `seq`. -/
def frames : Nat → Nat → List Byte → List (List Byte)
  | 0, _, _ => []
  | fuel + 1, seq, buf =>
    if buf.length > 0 then
      (header seq ++ buf.take 59) :: frames fuel ((seq + 1) % 65536) (buf.drop 59)
    else []

/-- The buffer `hidFramer.Write` frames for the message `p`: the length prefix
`uint16(len(p))` and the message. -/
def prefixed (p : List Byte) : List Byte :=
  [byteOf ((p.length % 65536) / 256), byteOf (p.length % 65536)] ++ p

/-- Hand the records to the device one after the other, stopping at the first
error, as the loop of `hidFramer.Write` does. -/
def sendAll {σ : Type} (T : ReadWriter σ) (plen : Nat) :
    Wire σ → List (List Byte) → Outcome σ (Nat × Option Err)
  | w, [] => .ret w (plen, none)
  | w, r :: rs =>
    match (w.Write T r).2.2 with
    | some e => .ret (w.Write T r).1 ((w.Write T r).2.1, some e)
    | none => sendAll T plen (w.Write T r).1 rs

/-- A sequence of `io.ReadFull` calls on the framer with buffers of the given
lengths, stopping at the first error: the bytes each call stored. -/
def readFulls {σ : Type} (T : ReadWriter σ) :
    Wire σ → hidFramer → List Nat → Outcome σ (hidFramer × List (List Byte) × Option Err)
  | w, hf, [] => .ret w (hf, [], none)
  | w, hf, k :: ks =>
    match ReadFull T w hf k with
    | .panics w1 m => .panics w1 m
    | .hang w1 => .hang w1
    | .ret w1 (hf1, got, some e) => .ret w1 (hf1, [got], some e)
    | .ret w1 (hf1, got, none) =>
      match readFulls T w1 hf1 ks with
      | .panics w2 m => .panics w2 m
      | .hang w2 => .hang w2
      | .ret w2 (hf2, gots, err) => .ret w2 (hf2, got :: gots, err)

/-- The unread payload bytes buffered in the framer. -/
def hidFramer.pending (hf : hidFramer) : List Byte :=
  if hf.seq > 0 ∧ hf.pos ≠ 64 then hf.buf.1.drop hf.pos else []

/-- The framer and the device agree: the device is about to deliver the packets
`pkts`, numbered from the sequence number the framer expects, the 16-bit counter
does not wrap while they are read, and the read position is inside the buffer. -/
def Synced {σ : Type} (T : ReadWriter σ) (w : Wire σ) (hf : hidFramer)
    (pkts : List (List Byte)) : Prop :=
  (hf.seq > 0 → hf.pos ≤ 64) ∧ ReadsYield T w.st pkts ∧ Framed hf.seq pkts ∧
    hf.seq + pkts.length < 65536 ∧ hf.pending.length ≤ 59

/-- The error a call on the device returned. -/
def IOEvent.err : IOEvent → Option Err
  | .write _ _ e => e
  | .read _ e => e

/-- The count a write call on the device returned (for a read, the number of bytes
it delivered). -/
def IOEvent.count : IOEvent → Nat
  | .write _ n _ => n
  | .read d _ => d.length

/-- A write call that accepted fewer bytes than the record handed to it. -/
def IOEvent.isShortWrite : IOEvent → Bool
  | .write r n _ => decide (n < r.length)
  | .read _ _ => false

/-- The error `hidFramer.Read` returns for what a read call on the device returned
(the data `d` and the error `err`) when the framer expects the packet number
`seq`: the error of the device, or else the framing error of a 64-byte packet;
`none` when `hidFramer.Read` returns no error. -/
def readErr (seq : Nat) (d : List Byte) (err : Option Err) : Option Err :=
  match err with
  | some e => some e
  | none =>
    if d.length ≠ 64 then none
    else if channelIDOf d ≠ 0x0101 then some (.badChannelID (channelIDOf d))
    else if commandTagOf d ≠ 0x05 then some (.badCommandTag (commandTagOf d))
    else if seqOf d ≠ seq then some (.badSequenceNumber (seqOf d) seq)
    else none

/-- The number of read calls among the calls `evs`. -/
def readCount (evs : List IOEvent) : Nat := (readsOf evs).length

/-- The transport or framing error that a call on the device gives rise to, when
`k` read calls were made before it since the framer was `Reset`. -/
def IOEvent.fault (k : Nat) : IOEvent → Option Err
  | .write _ _ e => e
  | .read d e => readErr (k % 65536) d e

/-- What `io.ReadFull` returns for the error `e` of `hidFramer.Read` when `k` read
calls were made before the failing one in this exchange: `io.EOF` becomes
`io.ErrUnexpectedEOF` once bytes of the response were read. -/
def asReturned (k : Nat) (e : Err) : Err :=
  if e = .eof ∧ 0 < k then .unexpectedEOF else e

/-- None of the calls `evs` gives rise to an error, `k` read calls having been
made before them. -/
def Fine : Nat → List IOEvent → Prop
  | _, [] => True
  | k, x :: rest => x.fault k = none ∧ Fine (k + readCount [x]) rest

/-- The error a Go call returned, if it returned one. -/
def Outcome.errOf {σ α β : Type} : Outcome σ (α × β × Option Err) → Option Err
  | .ret _ a => a.2.2
  | .panics _ _ => none
  | .hang _ => none

/-- The calls `evs`, made after `k` earlier read calls, and the outcome `o` fit
together: either no call gave rise to an error and no error is returned, or only
the last call did and its error is returned as `asReturned` says. -/
def Run {σ α β : Type} (k : Nat) (evs : List IOEvent) (o : Outcome σ (α × β × Option Err)) :
    Prop :=
  (Fine k evs ∧ o.errOf = none) ∨
    ∃ pre x e, evs = pre ++ [x] ∧ Fine k pre ∧ x.fault (k + readCount pre) = some e ∧
      o.errOf = some (asReturned (k + readCount pre) e)

/-! ## Devices used in the examples -/

/-- A device that accepts only the first 3 bytes of every record and reports no
error (it breaks the contract of `io.Writer`); its reads return `io.EOF`. -/
def shortWriter : ReadWriter Unit where
  Write _ r := ((), min 3 r.length, none)
  Read _ _ := ((), [], some .eof)


/-- A device that accepts every record and answers the reads, in order, from a
fixed list of packets; once the list is used up a read returns `io.EOF`. -/
def scripted : ReadWriter (List (List Byte)) where
  Write s r := (s, r.length, none)
  Read s _ :=
    match s with
    | [] => ([], [], some .eof)
    | p :: ps => (ps, p, none)

/-- A loop-back device: every record written is queued, padded with zero bytes to
64 bytes, and the reads hand the queued packets back in order. -/
def loopback : ReadWriter (List (List Byte)) where
  Write s r := (s ++ [r ++ List.replicate (64 - r.length) 0], r.length, none)
  Read s _ :=
    match s with
    | [] => ([], [], some .eof)
    | p :: ps => (ps, p, none)

/-- The 64-byte packet number `seq` carrying `bytes`, padded with zero bytes. -/
def packet (seq : Nat) (bytes : List Byte) : List Byte :=
  header seq ++ bytes ++ List.replicate (59 - bytes.length) 0

/-- A fresh framer (the Go zero value). -/
def hidFramer.fresh : hidFramer := { seq := 0, buf := Arr.zero 64, pos := 0 }

/-- A fresh APDU framer. -/
def apduFramer.fresh : apduFramer := { hf := hidFramer.fresh, buf := Arr.zero 2 }

/-- The states that a framer and its device, starting from a fresh framer and the
device `w0`, reach by calls of `Reset`, `Write` and `Read` that return. -/
inductive Reachable {σ : Type} (T : ReadWriter σ) (w0 : Wire σ) : Wire σ → hidFramer → Prop
  | fresh : Reachable T w0 w0 hidFramer.fresh
  | reset {w : Wire σ} {hf : hidFramer} : Reachable T w0 w hf → Reachable T w0 w hf.Reset
  | write {w w1 : Wire σ} {hf : hidFramer} {r : Nat × Option Err} (p : List Byte) :
      Reachable T w0 w hf → hidFramer.Write T w hf p = .ret w1 r → Reachable T w0 w1 hf
  | read {w w1 : Wire σ} {hf hf1 : hidFramer} {out : List Byte} {err : Option Err}
      (plen : Nat) :
      Reachable T w0 w hf → hidFramer.Read T w hf plen = .ret w1 (hf1, out, err) →
      Reachable T w0 w1 hf1

/-- What a Go call returned without the state of the receiver it left behind. -/
def Outcome.result {σ α β γ : Type} : Outcome σ (α × β × γ) → Outcome σ (β × γ)
  | .ret w a => .ret w a.2
  | .panics w m => .panics w m
  | .hang w => .hang w



/-! ## The write side: `hidFramer.Write` hands over the records `frames` -/

theorem five_cons (l : List Byte) (h : 5 ≤ l.length) :
    ∃ a0 a1 a2 a3 a4 rest, l = a0 :: a1 :: a2 :: a3 :: a4 :: rest := by
  match l, h with
  | a0 :: a1 :: a2 :: a3 :: a4 :: rest, _ => exact ⟨a0, a1, a2, a3, a4, rest, rfl⟩

theorem chunk_step (chunk buf : List Byte) (seq : Nat) (hl : chunk.length = 64)
    (h3 : chunk.take 3 = [0x01, 0x01, 0x05]) :
    let chunk1 := putUint16 chunk 3 seq
    let n := min (chunk1.drop 5).length buf.length
    let chunk2 := chunk1.take 5 ++ goCopy (chunk1.drop 5) buf
    chunk2.take (5 + n) = header seq ++ buf.take 59 ∧ buf.drop n = buf.drop 59 ∧
      chunk2.length = 64 ∧ chunk2.take 3 = [0x01, 0x01, 0x05] := by
  obtain ⟨a0, a1, a2, a3, a4, rest, rfl⟩ := five_cons chunk (by omega)
  simp only [List.take_succ_cons, List.take_zero, List.cons.injEq, and_true] at h3
  obtain ⟨rfl, rfl, rfl⟩ := h3
  have hr : rest.length = 59 := by simpa using hl
  simp only [putUint16, List.set_cons_succ, List.set_cons_zero, List.drop_succ_cons, List.drop_zero,
    List.take_succ_cons, List.take_zero, goCopy, hr, header]
  refine ⟨?_, ?_, ?_, ?_⟩
  · rcases Nat.le_total 59 buf.length with h | h
    · simp [Nat.min_eq_left h, Nat.add_comm 5 59, List.take_append_eq_append_take, hr]
    · simp [Nat.min_eq_right h, Nat.add_comm 5, List.take_append_eq_append_take, hr,
        List.take_of_length_le h]
  · rcases Nat.le_total 59 buf.length with h | h
    · simp [Nat.min_eq_left h]
    · simp [Nat.min_eq_right h, List.drop_of_length_le h]
  · simp [hr]
  · rfl

theorem writeLoop_eq_sendAll {σ : Type} (T : ReadWriter σ) (plen : Nat) :
    ∀ (fuel : Nat) (w : Wire σ) (buf : List Byte) (seq : Nat) (chunk : List Byte),
      chunk.length = 64 → chunk.take 3 = [0x01, 0x01, 0x05] → buf.length ≤ fuel →
      hidFramer.writeLoop T plen fuel w buf seq chunk = sendAll T plen w (frames fuel seq buf) := by
  intro fuel
  induction fuel with
  | zero =>
    intro w buf seq chunk _ _ hb
    have : buf.length = 0 := by omega
    simp [hidFramer.writeLoop, frames, sendAll, this]
  | succ fuel ih =>
    intro w buf seq chunk hl h3 hb
    by_cases h0 : buf.length > 0
    · obtain ⟨e1, e2, e3, e4⟩ := chunk_step chunk buf seq hl h3
      have hd : (buf.drop 59).length ≤ fuel := by
        simp only [List.length_drop]; omega
      simp only [hidFramer.writeLoop, h0, ↓reduceIte, frames, sendAll, e1, e2]
      cases hw : (w.Write T (header seq ++ List.take 59 buf)).2.2 with
      | some e => rfl
      | none => exact ih _ _ _ _ e3 e4 hd
    · simp [hidFramer.writeLoop, frames, sendAll, h0]

theorem Write_eq_sendAll {σ : Type} (T : ReadWriter σ) (w : Wire σ) (hf : hidFramer)
    (p : List Byte) :
    hidFramer.Write T w hf p
      = sendAll T p.length w (frames (prefixed p).length 0 (prefixed p)) := by
  unfold hidFramer.Write
  exact writeLoop_eq_sendAll T p.length _ w _ 0 _ (by simp [putUint16]) (by simp [putUint16]; decide) (Nat.le_refl _)

theorem frames_length : ∀ (fuel seq : Nat) (buf : List Byte), buf.length ≤ fuel →
    (frames fuel seq buf).length = (buf.length + 58) / 59 := by
  intro fuel
  induction fuel with
  | zero =>
    intro seq buf hb
    have : buf.length = 0 := by omega
    simp [frames, this]
  | succ fuel ih =>
    intro seq buf hb
    by_cases h0 : buf.length > 0
    · have hd : (buf.drop 59).length ≤ fuel := by
        simp only [List.length_drop]; omega
      simp only [frames, h0, ↓reduceIte, List.length_cons, ih _ _ hd, List.length_drop]
      omega
    · have : buf.length = 0 := by omega
      simp [frames, this]

theorem frames_getElem : ∀ (fuel seq : Nat) (buf : List Byte) (i : Nat), buf.length ≤ fuel →
    seq + i < 65536 → i < (buf.length + 58) / 59 →
    (frames fuel seq buf)[i]? = some (header (seq + i) ++ (buf.drop (59 * i)).take 59) := by
  intro fuel
  induction fuel with
  | zero =>
    intro seq buf i hb _ hi
    omega
  | succ fuel ih =>
    intro seq buf i hb hs hi
    have h0 : buf.length > 0 := by omega
    have hd : (buf.drop 59).length ≤ fuel := by
      simp only [List.length_drop]; omega
    simp only [frames, h0, ↓reduceIte]
    cases i with
    | zero => simp
    | succ i =>
      have hm : (seq + 1) % 65536 = seq + 1 := Nat.mod_eq_of_lt (by omega)
      have hi2 : i < ((buf.drop 59).length + 58) / 59 := by
        simp only [List.length_drop]; omega
      rw [List.getElem?_cons_succ, hm, ih _ _ i hd (by omega) hi2, List.drop_drop]
      have e1 : seq + 1 + i = seq + (i + 1) := by omega
      have e2 : 59 + 59 * i = 59 * (i + 1) := by omega
      rw [e1, e2]

theorem payloads_frames : ∀ (fuel seq : Nat) (buf : List Byte), buf.length ≤ fuel →
    payloads (frames fuel seq buf) = buf := by
  intro fuel
  induction fuel with
  | zero =>
    intro seq buf hb
    have : buf = [] := List.length_eq_zero.mp (by omega)
    simp [frames, payloads, this]
  | succ fuel ih =>
    intro seq buf hb
    by_cases h0 : buf.length > 0
    · have hd : (buf.drop 59).length ≤ fuel := by
        simp only [List.length_drop]; omega
      have := ih ((seq + 1) % 65536) _ hd
      simp only [payloads] at this
      simp [frames, h0, payloads, this, header]
    · have : buf = [] := List.length_eq_zero.mp (by omega)
      simp [frames, payloads, this]

theorem since_append {σ : Type} (w w1 : Wire σ) (evs : List IOEvent)
    (h : w1.trace = w.trace ++ evs) : w1.since w = evs := by
  simp [Wire.since, h]

theorem writesOf_append (a b : List IOEvent) : writesOf (a ++ b) = writesOf a ++ writesOf b := by
  induction a with
  | nil => rfl
  | cons e es ih => cases e <;> simp [writesOf, ih]

theorem readsOf_append (a b : List IOEvent) : readsOf (a ++ b) = readsOf a ++ readsOf b := by
  induction a with
  | nil => rfl
  | cons e es ih => cases e <;> simp [readsOf, ih]

/-- What `sendAll` does: it returns, only write calls are made, and when no error
is returned every record was handed over. -/
theorem sendAll_spec {σ : Type} (T : ReadWriter σ) (plen : Nat) :
    ∀ (recs : List (List Byte)) (w : Wire σ),
      ∃ w1 n err evs, sendAll T plen w recs = .ret w1 (n, err) ∧ w1.trace = w.trace ++ evs ∧
        readsOf evs = [] ∧ evs.length = (writesOf evs).length ∧
        (err = none → n = plen ∧ writesOf evs = recs) ∧ (WritesSucceed T → err = none) := by
  intro recs
  induction recs with
  | nil =>
    intro w
    exact ⟨w, plen, none, [], rfl, by simp, rfl, rfl, fun _ => ⟨rfl, rfl⟩, fun _ => rfl⟩
  | cons r rs ih =>
    intro w
    cases hw : (w.Write T r).2.2 with
    | some e =>
      refine ⟨(w.Write T r).1, (w.Write T r).2.1, some e,
        [IOEvent.write r (T.Write w.st r).2.1 (T.Write w.st r).2.2], ?_, rfl, rfl, rfl, ?_, ?_⟩
      · simp only [sendAll, hw]
      · intro h; cases h
      · intro hT
        have := hT w.st r
        simp only [Wire.Write] at hw
        rw [this] at hw; cases hw
    | none =>
      obtain ⟨w1, n, err, evs, h1, h2, h3, h4, h5, h6⟩ := ih (w.Write T r).1
      refine ⟨w1, n, err, IOEvent.write r (T.Write w.st r).2.1 (T.Write w.st r).2.2 :: evs,
        ?_, ?_, ?_, ?_, ?_, h6⟩
      · simp only [sendAll, hw, h1]
      · rw [h2]; simp [Wire.Write]
      · simpa [readsOf] using h3
      · simp [writesOf, h4]
      · intro he
        obtain ⟨a, b⟩ := h5 he
        exact ⟨a, by simp [writesOf, b]⟩

/-! ## The read side: `hidFramer.Read` and `io.ReadFull` deliver the byte stream -/

theorem pending_eq (hf : hidFramer) (h0 : hf.seq > 0) :
    hf.pending = hf.buf.1.drop hf.pos := by
  unfold hidFramer.pending
  by_cases h : hf.pos = 64
  · have := hf.buf.2
    simp [h, List.drop_of_length_le, this]
  · simp [h0, h]

theorem uint16BE_byteOf (n : Nat) (h : n < 65536) :
    uint16BE (byteOf (n / 256)) (byteOf n) = n := by
  simp only [uint16BE, byteOf]
  omega

theorem payloads_cons (p : List Byte) (ps : List (List Byte)) :
    payloads (p :: ps) = p.drop 5 ++ payloads ps := by
  simp [payloads]

theorem Read_drain {σ : Type} (T : ReadWriter σ) (w : Wire σ) (hf : hidFramer) (plen : Nat)
    (h0 : hf.seq > 0) (h64 : hf.pos < 64) :
    hidFramer.Read T w hf plen
      = .ret w ({ hf with pos := hf.pos + ((hf.buf.1.drop hf.pos).take plen).length },
          (hf.buf.1.drop hf.pos).take plen, none) := by
  have h1 : hf.pos ≠ 64 := by omega
  have h2 : ¬ hf.pos > 64 := by omega
  simp only [hidFramer.Read, h0, h1, h2, ne_eq, not_false_eq_true, and_self, ↓reduceIte]

theorem Read_packet {σ : Type} (T : ReadWriter σ) (w : Wire σ) (hf : hidFramer) (plen : Nat)
    (p : List Byte) (hgo : ¬ (hf.seq > 0 ∧ hf.pos ≠ 64)) (hr : (T.Read w.st 64).2 = (p, none))
    (hl : p.length = 64) (hh : p.take 5 = header hf.seq) (hs : hf.seq < 65536) :
    hidFramer.Read T w hf plen
      = .ret ⟨(T.Read w.st 64).1, w.trace ++ [IOEvent.read p none]⟩
          ({ seq := (hf.seq + 1) % 65536, buf := ⟨p, hl⟩, pos := 5 + ((p.drop 5).take plen).length },
            (p.drop 5).take plen, none) := by
  have hd : (T.Read w.st 64).2.1 = p := by rw [hr]
  have he : (T.Read w.st 64).2.2 = none := by rw [hr]
  have hc : hf.buf.copyFrom p = ⟨p, hl⟩ := by
    apply Subtype.ext
    have := hf.buf.2
    simp [Arr.copyFrom, goCopy, hl, this, List.take_of_length_le, List.drop_of_length_le]
  obtain ⟨a0, a1, a2, a3, a4, rest, rfl⟩ := five_cons p (by omega)
  simp only [header, List.take_succ_cons, List.take_zero, List.cons.injEq, and_true] at hh
  obtain ⟨rfl, rfl, rfl, rfl, rfl⟩ := hh
  have hq := uint16BE_byteOf hf.seq hs
  simp only [hidFramer.Read, hgo, ↓reduceIte, Wire.Read, hd, he, hc, Arr.idx, hl]
  have hq2 : (byteOf (hf.seq / 256)).val * 256 + (byteOf hf.seq).val = hf.seq := hq
  have h5 : ((5 : Byte) : Nat) = 5 := rfl
  simp [hq2, h5, uint16BE]

theorem take_append_drop_take_length (L : List Byte) (n : Nat) :
    L.take n ++ L.drop (L.take n).length = L := by
  rcases Nat.le_total n L.length with h | h
  · rw [List.length_take, Nat.min_eq_left h, List.take_append_drop]
  · rw [List.take_of_length_le h, List.drop_of_length_le (Nat.le_refl _), List.append_nil]

/-- One call of `hidFramer.Read` with a non-empty buffer on a synced framer that
still has bytes to deliver: it returns a non-empty prefix of the byte stream. -/
theorem Read_step {σ : Type} (T : ReadWriter σ) (w : Wire σ) (hf : hidFramer)
    (pkts : List (List Byte)) (plen : Nat) (hs : Synced T w hf pkts) (hp : 0 < plen)
    (hne : hf.pending ++ payloads pkts ≠ []) :
    ∃ w1 hf1 out used pkts1, hidFramer.Read T w hf plen = .ret w1 (hf1, out, none) ∧
      out ≠ [] ∧ out.length ≤ plen ∧
      hf.pending ++ payloads pkts = out ++ (hf1.pending ++ payloads pkts1) ∧
      Synced T w1 hf1 pkts1 ∧ pkts = used ++ pkts1 ∧
      w1.trace = w.trace ++ used.map (fun p => IOEvent.read p none) ∧
      hf1.pending.length ≤ 58 ∧ 0 < hf1.seq := by
  obtain ⟨hpos, hry, hfr, hroom, hpend⟩ := hs
  have hbl := hf.buf.2
  by_cases hgo : hf.seq > 0 ∧ hf.pos ≠ 64
  · obtain ⟨h0, h64⟩ := hgo
    have hlt : hf.pos < 64 := by have := hpos h0; omega
    have hpe := pending_eq hf h0
    rw [hpe, List.length_drop] at hpend
    have hol : ((hf.buf.1.drop hf.pos).take plen).length = min plen (64 - hf.pos) := by
      simp [hbl]
    have hpe2 : ∀ k, (hidFramer.mk hf.seq hf.buf k).pending = hf.buf.1.drop k :=
      fun k => pending_eq _ h0
    refine ⟨w, _, _, [], pkts, Read_drain T w hf plen h0 hlt, ?_, ?_, ?_, ?_, rfl, by simp, ?_, h0⟩
    · intro h
      have := congrArg List.length h
      rw [hol] at this
      simp at this
      omega
    · rw [hol]; omega
    · rw [hpe, hpe2]
      rw [← List.append_assoc, ← List.drop_drop, take_append_drop_take_length]
    · refine ⟨fun _ => ?_, hry, hfr, hroom, ?_⟩
      · simp only; rw [hol]; omega
      · rw [hpe2]
        simp only [List.length_drop]
        omega
    · rw [hpe2]
      simp only [List.length_drop]
      rw [hol]; omega
  · have hpe : hf.pending = [] := by simp [hidFramer.pending, hgo]
    rw [hpe, List.nil_append] at hne
    cases pkts with
    | nil => exact absurd rfl hne
    | cons p ps =>
      obtain ⟨hr, hry2⟩ := hry
      obtain ⟨hl, hh, hfr2⟩ := hfr
      simp only [List.length_cons] at hroom
      have hm : (hf.seq + 1) % 65536 = hf.seq + 1 := Nat.mod_eq_of_lt (by omega)
      have hol : ((p.drop 5).take plen).length = min plen 59 := by
        simp [hl]
      have hR := Read_packet T w hf plen p hgo hr hl hh (by omega)
      rw [hm] at hR
      have hpe1 : ∀ k, (hidFramer.mk (hf.seq + 1) ⟨p, hl⟩ k).pending = p.drop k := by
        intro k
        exact pending_eq _ (Nat.succ_pos _)
      refine ⟨_, _, _, [p], ps, hR, ?_, ?_, ?_, ?_, rfl, by simp, ?_, Nat.succ_pos _⟩
      · intro h
        have := congrArg List.length h
        rw [hol] at this
        simp at this
        omega
      · rw [hol]; omega
      · rw [hpe, List.nil_append, payloads_cons, hpe1, ← List.append_assoc]
        congr 1
        rw [← List.drop_drop, take_append_drop_take_length]
      · refine ⟨fun _ => ?_, hry2, hfr2, by simp only; omega, ?_⟩
        · simp only; rw [hol]; omega
        · rw [hpe1]; simp only [List.length_drop]; omega
      · rw [hpe1]; simp only [List.length_drop]; rw [hol]; omega

theorem take_split (acc out S : List Byte) (len : Nat) (hol : out.length ≤ len - acc.length) :
    acc ++ out ++ S.take (len - (acc ++ out).length) = acc ++ (out ++ S).take (len - acc.length) := by
  rw [List.take_append_eq_append_take, List.take_of_length_le hol, List.append_assoc,
    List.length_append, Nat.sub_add_eq]

theorem drop_split (acc out S : List Byte) (len : Nat) (hol : out.length ≤ len - acc.length) :
    (out ++ S).drop (len - acc.length) = S.drop (len - (acc ++ out).length) := by
  rw [List.drop_append_eq_append_drop, List.drop_of_length_le hol, List.nil_append,
    List.length_append, Nat.sub_add_eq]

/-- The loop of `io.ReadFull` on a synced framer whose byte stream still holds the
bytes wanted: it returns them, with `nil` error, for any fuel at least the number
of bytes still wanted. -/
theorem readFullLoop_spec {σ : Type} (T : ReadWriter σ) (len : Nat) :
    ∀ (fuel : Nat) (w : Wire σ) (hf : hidFramer) (acc : List Byte) (pkts : List (List Byte)),
      Synced T w hf pkts → acc.length ≤ len →
      len - acc.length ≤ (hf.pending ++ payloads pkts).length → len - acc.length ≤ fuel →
      ∃ w1 hf1 used pkts1,
        readFullLoop T len fuel w hf acc none
          = .ret w1 (hf1, acc ++ (hf.pending ++ payloads pkts).take (len - acc.length), none) ∧
        (hf.pending ++ payloads pkts).drop (len - acc.length) = hf1.pending ++ payloads pkts1 ∧
        Synced T w1 hf1 pkts1 ∧ pkts = used ++ pkts1 ∧
        w1.trace = w.trace ++ used.map (fun p => IOEvent.read p none) ∧
        ((hf.pending.length ≤ 58 ∧ 0 < hf.seq) ∨ 0 < len - acc.length →
          hf1.pending.length ≤ 58 ∧ 0 < hf1.seq) := by
  intro fuel
  induction fuel with
  | zero =>
    intro w hf acc pkts hs ha hS hf0
    have h0 : len - acc.length = 0 := by omega
    have h1 : ¬ acc.length < len := by omega
    have h2 : acc.length ≥ len := by omega
    refine ⟨w, hf, [], pkts, ?_, ?_, hs, rfl, by simp, fun h => h.elim id (fun h => by omega)⟩
    · rw [readFullLoop]
      simp [h1, h2, h0]
    · rw [h0, List.drop_zero]
  | succ fuel ih =>
    intro w hf acc pkts hs ha hS hfu
    by_cases hdone : len - acc.length = 0
    · have h1 : ¬ acc.length < len := by omega
      have h2 : acc.length ≥ len := by omega
      refine ⟨w, hf, [], pkts, ?_, ?_, hs, rfl, by simp, fun h => h.elim id (fun h => by omega)⟩
      · rw [readFullLoop]
        simp [h1, h2, hdone]
      · rw [hdone, List.drop_zero]
    · have hlt : acc.length < len := by omega
      have hne : hf.pending ++ payloads pkts ≠ [] := by
        intro h; rw [h] at hS; simp at hS; omega
      obtain ⟨w1, hf1, out, used, pkts1, hR, hon, hol, hsplit, hs1, hu, ht, hp58, hseq⟩ :=
        Read_step T w hf pkts (len - acc.length) hs (by omega) hne
      have hopos : 0 < out.length := List.length_pos.mpr hon
      have hS1 : len - (acc ++ out).length ≤ (hf1.pending ++ payloads pkts1).length := by
        have := congrArg List.length hsplit
        simp only [List.length_append] at this hS ⊢
        omega
      obtain ⟨w2, hf2, used2, pkts2, hR2, hd2, hs2, hu2, ht2, hP⟩ :=
        ih w1 hf1 (acc ++ out) pkts1 hs1 (by simp only [List.length_append]; omega) hS1
          (by simp only [List.length_append]; omega)
      refine ⟨w2, hf2, used ++ used2, pkts2, ?_, ?_, hs2, ?_, ?_, fun _ => ?_⟩
      · rw [readFullLoop]
        simp only [hlt, true_and, ↓reduceIte, hR, hR2]
        rw [hsplit, take_split acc out _ len hol]
      · rw [← hd2, hsplit, drop_split acc out _ len hol]
      · rw [hu, hu2, List.append_assoc]
      · rw [ht2, ht, List.map_append, List.append_assoc]
      · exact hP (Or.inl ⟨hp58, hseq⟩)

/-- Go `io.ReadFull` on a synced framer whose byte stream holds at least `len`
more bytes returns exactly the next `len` bytes of the stream, with `nil` error,
and reads from the device only the packets it needs. -/
theorem ReadFull_spec {σ : Type} (T : ReadWriter σ) (len : Nat) (w : Wire σ) (hf : hidFramer)
    (pkts : List (List Byte)) (hs : Synced T w hf pkts)
    (hS : len ≤ (hf.pending ++ payloads pkts).length) :
    ∃ w1 hf1 used pkts1,
      ReadFull T w hf len = .ret w1 (hf1, (hf.pending ++ payloads pkts).take len, none) ∧
      (hf.pending ++ payloads pkts).drop len = hf1.pending ++ payloads pkts1 ∧
      Synced T w1 hf1 pkts1 ∧ pkts = used ++ pkts1 ∧
      w1.trace = w.trace ++ used.map (fun p => IOEvent.read p none) ∧
      ((hf.pending.length ≤ 58 ∧ 0 < hf.seq) ∨ 0 < len →
        hf1.pending.length ≤ 58 ∧ 0 < hf1.seq) := by
  have := readFullLoop_spec T len (len + 1) w hf [] pkts hs (Nat.zero_le _) (by simpa using hS)
    (by simp)
  simpa [ReadFull] using this

/-- A sequence of `io.ReadFull` calls on a synced framer delivers the byte stream
cut into pieces of the lengths asked for. -/
theorem readFulls_spec {σ : Type} (T : ReadWriter σ) :
    ∀ (sizes : List Nat) (w : Wire σ) (hf : hidFramer) (pkts : List (List Byte)),
      Synced T w hf pkts → sizes.sum ≤ (hf.pending ++ payloads pkts).length →
      ∃ w1 hf1 outs used pkts1,
        readFulls T w hf sizes = .ret w1 (hf1, outs, none) ∧
        outs.flatten = (hf.pending ++ payloads pkts).take sizes.sum ∧
        outs.map List.length = sizes ∧
        Synced T w1 hf1 pkts1 ∧ pkts = used ++ pkts1 ∧
        w1.trace = w.trace ++ used.map (fun p => IOEvent.read p none) := by
  intro sizes
  induction sizes with
  | nil =>
    intro w hf pkts hs _
    exact ⟨w, hf, [], [], pkts, rfl, by simp, rfl, hs, rfl, by simp⟩
  | cons k ks ih =>
    intro w hf pkts hs hS
    simp only [List.sum_cons] at hS
    obtain ⟨w1, hf1, used, pkts1, hR, hd, hs1, hu, ht, _⟩ :=
      ReadFull_spec T k w hf pkts hs (by omega)
    have hS1 : ks.sum ≤ (hf1.pending ++ payloads pkts1).length := by
      rw [← hd, List.length_drop]; omega
    obtain ⟨w2, hf2, outs, used2, pkts2, hR2, hfl, hlen, hs2, hu2, ht2⟩ := ih w1 hf1 pkts1 hs1 hS1
    refine ⟨w2, hf2, (hf.pending ++ payloads pkts).take k :: outs, used ++ used2, pkts2, ?_, ?_, ?_, hs2, ?_, ?_⟩
    · simp only [readFulls, hR, hR2]
    · rw [List.flatten_cons, hfl, ← hd, List.sum_cons, List.take_add]
    · rw [List.map_cons, hlen, List.length_take, Nat.min_eq_left (by omega)]
    · rw [hu, hu2, List.append_assoc]
    · rw [ht2, ht, List.map_append, List.append_assoc]

theorem payloads_length : ∀ (pkts : List (List Byte)) (seq : Nat), Framed seq pkts →
    (payloads pkts).length = 59 * pkts.length := by
  intro pkts
  induction pkts with
  | nil => intro _ _; rfl
  | cons p ps ih =>
    intro seq h
    obtain ⟨hl, _, hf⟩ := h
    rw [payloads_cons, List.length_append, ih _ hf, List.length_drop, hl, List.length_cons]
    omega

theorem payloads_append (a b : List (List Byte)) : payloads (a ++ b) = payloads a ++ payloads b := by
  simp [payloads]

theorem Framed_append : ∀ (a b : List (List Byte)) (seq : Nat), Framed seq (a ++ b) →
    Framed seq a ∧ Framed (seq + a.length) b := by
  intro a
  induction a with
  | nil => intro b seq h; exact ⟨trivial, by simpa using h⟩
  | cons p ps ih =>
    intro b seq h
    obtain ⟨hl, hh, hf⟩ := h
    obtain ⟨h1, h2⟩ := ih b _ hf
    refine ⟨⟨hl, hh, h1⟩, ?_⟩
    have e : seq + (p :: ps).length = seq + 1 + ps.length := by simp; omega
    rw [e]; exact h2

theorem ReadsYield_append {σ : Type} (T : ReadWriter σ) : ∀ (a b : List (List Byte)) (s : σ),
    ReadsYield T s (a ++ b) → ReadsYield T s a := by
  intro a
  induction a with
  | nil => intro _ _ _; trivial
  | cons p ps ih =>
    intro b s h
    exact ⟨h.1, ih b _ h.2⟩

/-- Packets that pad the records of `frames` carry the right headers, and their
payload bytes start with the framed buffer. -/
theorem Padded_frames : ∀ (fuel seq : Nat) (buf : List Byte) (pkts : List (List Byte)),
    buf.length ≤ fuel → seq + (buf.length + 58) / 59 < 65536 →
    Padded (frames fuel seq buf) pkts →
    Framed seq pkts ∧ (payloads pkts).take buf.length = buf ∧
      pkts.length = (buf.length + 58) / 59 := by
  intro fuel
  induction fuel with
  | zero =>
    intro seq buf pkts hb _ hp
    have hn : buf = [] := List.length_eq_zero.mp (by omega)
    subst hn
    cases pkts with
    | nil => exact ⟨trivial, rfl, rfl⟩
    | cons p ps => simp [frames, Padded] at hp
  | succ fuel ih =>
    intro seq buf pkts hb hs hp
    by_cases h0 : buf.length > 0
    · simp only [frames, h0, ↓reduceIte] at hp
      cases pkts with
      | nil => simp [Padded] at hp
      | cons p ps =>
        obtain ⟨hl, ht, hrest⟩ := hp
        have hd : (buf.drop 59).length ≤ fuel := by
          simp only [List.length_drop]; omega
        have hm : (seq + 1) % 65536 = seq + 1 := Nat.mod_eq_of_lt (by omega)
        rw [hm] at hrest
        obtain ⟨hF, hT, hL⟩ := ih (seq + 1) (buf.drop 59) ps hd
          (by simp only [List.length_drop]; omega) hrest
        obtain ⟨a0, a1, a2, a3, a4, rest, rfl⟩ := five_cons p (by omega)
        have hrl : rest.length = 59 := by simpa using hl
        have hlen5 : (header seq ++ List.take 59 buf).length = 5 + min 59 buf.length := by
          simp [header]; omega
        rw [hlen5] at ht
        have ht2 : a0 :: a1 :: a2 :: a3 :: a4 :: rest.take (min 59 buf.length)
            = header seq ++ buf.take 59 := by
          rw [← ht, Nat.add_comm 5]
          rfl
        simp only [header, List.cons_append, List.nil_append, List.cons.injEq] at ht2
        obtain ⟨rfl, rfl, rfl, rfl, rfl, hrest2⟩ := ht2
        have htr : rest.take buf.length = buf.take 59 := by
          rw [← hrest2]
          rcases Nat.le_total 59 buf.length with h | h
          · rw [Nat.min_eq_left h, List.take_of_length_le (by omega), List.take_of_length_le (by omega)]
          · rw [Nat.min_eq_right h]
        refine ⟨⟨hl, rfl, hF⟩, ?_, ?_⟩
        · rw [payloads_cons]
          simp only [List.drop_succ_cons, List.drop_zero]
          rw [List.take_append_eq_append_take, htr, hrl]
          simp only [List.length_drop] at hT
          rw [hT, List.take_append_drop]
        · simp only [List.length_cons, hL, List.length_drop]
          omega
    · have hn : buf = [] := List.length_eq_zero.mp (by omega)
      subst hn
      cases pkts with
      | nil => exact ⟨trivial, rfl, rfl⟩
      | cons p ps => simp [frames, Padded] at hp

theorem Write_spec {σ : Type} (T : ReadWriter σ) (w : Wire σ) (hf : hidFramer) (p : List Byte) :
    ∃ w1 n err evs, hidFramer.Write T w hf p = .ret w1 (n, err) ∧ w1.trace = w.trace ++ evs ∧
      readsOf evs = [] ∧ evs.length = (writesOf evs).length ∧
      (err = none → n = p.length ∧
        writesOf evs = frames (prefixed p).length 0 (prefixed p)) ∧
      (WritesSucceed T → err = none) := by
  rw [Write_eq_sendAll]
  exact sendAll_spec T p.length _ w

theorem prefixed_length (p : List Byte) : (prefixed p).length = p.length + 2 := by
  simp [prefixed]

theorem prefixed_small (p : List Byte) (h : p.length ≤ 65535) :
    prefixed p = [byteOf (p.length / 256), byteOf p.length] ++ p := by
  rw [prefixed, Nat.mod_eq_of_lt (by omega)]

theorem Synced_reset {σ : Type} (T : ReadWriter σ) (w : Wire σ) (hf : hidFramer)
    (pkts : List (List Byte)) (hr : ReadsYield T w.st pkts) (hf0 : Framed 0 pkts)
    (hlen : pkts.length < 65536) : Synced T w hf.Reset pkts := by
  refine ⟨fun h => ?_, hr, hf0, ?_, ?_⟩
  · simp [hidFramer.Reset] at h
  · simpa [hidFramer.Reset] using hlen
  · simp [hidFramer.pending, hidFramer.Reset]

theorem pending_reset (hf : hidFramer) : hf.Reset.pending = [] := by
  simp [hidFramer.pending, hidFramer.Reset]


/-- A call of `hidFramer.Read` makes at most one call on the device, a read. -/
theorem Read_trace {σ : Type} (T : ReadWriter σ) (w : Wire σ) (hf : hidFramer) (plen : Nat) :
    ∃ evs, (hidFramer.Read T w hf plen).wire.trace = w.trace ++ evs ∧ writesOf evs = [] ∧
      evs.length ≤ 1 := by
  unfold hidFramer.Read
  by_cases hgo : hf.seq > 0 ∧ hf.pos ≠ 64
  · by_cases h64 : hf.pos > 64
    · exact ⟨[], by simp [hgo, h64, Outcome.wire], rfl, by simp⟩
    · exact ⟨[], by simp [hgo, h64, Outcome.wire], rfl, by simp⟩
  · refine ⟨[IOEvent.read (T.Read w.st 64).2.1 (T.Read w.st 64).2.2], ?_, rfl, by simp⟩
    simp only [hgo, ↓reduceIte]
    have hw : (w.Read T 64).1.trace
        = w.trace ++ [IOEvent.read (T.Read w.st 64).2.1 (T.Read w.st 64).2.2] := rfl
    rw [← hw]
    split
    · rfl
    · split_ifs <;> rfl

/-- The loop of `io.ReadFull` only reads from the device. -/
theorem readFullLoop_trace {σ : Type} (T : ReadWriter σ) (len : Nat) :
    ∀ (fuel : Nat) (w : Wire σ) (hf : hidFramer) (acc : List Byte) (err : Option Err),
      ∃ evs, (readFullLoop T len fuel w hf acc err).wire.trace = w.trace ++ evs ∧
        writesOf evs = [] := by
  intro fuel
  induction fuel with
  | zero =>
    intro w hf acc err
    refine ⟨[], ?_, rfl⟩
    rw [readFullLoop]
    split_ifs <;> simp [Outcome.wire]
  | succ fuel ih =>
    intro w hf acc err
    rw [readFullLoop]
    by_cases hc : acc.length < len ∧ err = none
    · simp only [hc, and_self, ↓reduceIte]
      obtain ⟨e1, h1, h2, _⟩ := Read_trace T w hf (len - acc.length)
      cases hR : hidFramer.Read T w hf (len - acc.length) with
      | panics w1 m =>
        rw [hR] at h1
        exact ⟨e1, h1, h2⟩
      | hang w1 =>
        rw [hR] at h1
        exact ⟨e1, h1, h2⟩
      | ret w1 a =>
        obtain ⟨hf1, out, err1⟩ := a
        rw [hR] at h1
        simp only [Outcome.wire] at h1
        obtain ⟨e2, h3, h4⟩ := ih w1 hf1 (acc ++ out) err1
        refine ⟨e1 ++ e2, ?_, ?_⟩
        · simp only [h3, h1, List.append_assoc]
        · rw [writesOf_append, h2, h4]; rfl
    · refine ⟨[], ?_, rfl⟩
      simp only [hc, ↓reduceIte]
      split_ifs <;> simp [Outcome.wire]

theorem ReadFull_trace {σ : Type} (T : ReadWriter σ) (w : Wire σ) (hf : hidFramer) (len : Nat) :
    ∃ evs, (ReadFull T w hf len).wire.trace = w.trace ++ evs ∧ writesOf evs = [] :=
  readFullLoop_trace T len (len + 1) w hf [] none

/-! ## `apduFramer.Exchange` -/

/-- The calls `apduFramer.Exchange` makes on the device: first the write calls of
`hidFramer.Write`, then read calls only, and none once a write has failed. -/
theorem Exchange_trace {σ : Type} (T : ReadWriter σ) (w : Wire σ) (af : apduFramer)
    (apdu : APDU) (hn : apdu.Payload.length ≤ 255) :
    ∃ w0 n err evW, hidFramer.Write T w af.hf.Reset apdu.data = .ret w0 (n, err) ∧
      w0.trace = w.trace ++ evW ∧ readsOf evW = [] ∧
      (err = none → writesOf evW = frames (prefixed apdu.data).length 0 (prefixed apdu.data)) ∧
      (WritesSucceed T → err = none) ∧
      ∃ evR, (af.Exchange T w apdu).wire.trace = w0.trace ++ evR ∧ writesOf evR = [] ∧
        (err ≠ none → evR = []) := by
  obtain ⟨w0, n, err, evW, hW, htr, hr, _, hok, hsucc⟩ := Write_spec T w af.hf.Reset apdu.data
  have hn2 : ¬ apdu.Payload.length > 255 := by omega
  refine ⟨w0, n, err, evW, hW, htr, hr, fun h => (hok h).2, hsucc, ?_⟩
  cases err with
  | some e =>
    refine ⟨[], ?_, rfl, fun _ => rfl⟩
    unfold apduFramer.Exchange
    simp only [hn2, ↓reduceIte, hW, Outcome.wire, List.append_nil]
  | none =>
    have hnn : (none : Option Err) ≠ none → ∀ l : List IOEvent, l = [] := fun h => absurd rfl h
    obtain ⟨e1, h1, h2⟩ := ReadFull_trace T w0 af.hf.Reset 2
    cases hR : ReadFull T w0 af.hf.Reset 2 with
    | panics w1 m =>
      rw [hR] at h1
      refine ⟨e1, ?_, h2, fun h => hnn h _⟩
      unfold apduFramer.Exchange
      simp only [hn2, ↓reduceIte, hW, hR]
      exact h1
    | hang w1 =>
      rw [hR] at h1
      refine ⟨e1, ?_, h2, fun h => hnn h _⟩
      unfold apduFramer.Exchange
      simp only [hn2, ↓reduceIte, hW, hR]
      exact h1
    | ret w1 a =>
      obtain ⟨hf1, got, err1⟩ := a
      rw [hR] at h1
      simp only [Outcome.wire] at h1
      cases err1 with
      | some e =>
        refine ⟨e1, ?_, h2, fun h => hnn h _⟩
        unfold apduFramer.Exchange
        simp only [hn2, ↓reduceIte, hW, hR]
        exact h1
      | none =>
        obtain ⟨e2, h3, h4⟩ := ReadFull_trace T w1 hf1
          (uint16BE ((af.buf.copyFrom got).idx 0) ((af.buf.copyFrom got).idx 1))
        refine ⟨e1 ++ e2, ?_, by rw [writesOf_append, h2, h4]; rfl, fun h => hnn h _⟩
        unfold apduFramer.Exchange
        simp only [hn2, ↓reduceIte, hW, hR]
        cases hR2 : ReadFull T w1 hf1
            (uint16BE ((af.buf.copyFrom got).idx 0) ((af.buf.copyFrom got).idx 1)) with
        | panics w2 m => rw [hR2] at h3; simp only [Outcome.wire] at h3 ⊢; rw [h3, h1, List.append_assoc]
        | hang w2 => rw [hR2] at h3; simp only [Outcome.wire] at h3 ⊢; rw [h3, h1, List.append_assoc]
        | ret w2 a2 =>
          rw [hR2] at h3; simp only [Outcome.wire] at h3 ⊢; rw [h3, h1, List.append_assoc]

/-- How `apduFramer.Exchange` returns when the write and the two `io.ReadFull`
calls succeed. -/
theorem Exchange_ok {σ : Type} (T : ReadWriter σ) (w w0 w1 w2 : Wire σ) (af : apduFramer)
    (apdu : APDU) (n : Nat) (hf1 hf2 : hidFramer) (b0 b1 : Byte) (D : List Byte)
    (hn : apdu.Payload.length ≤ 255)
    (hW : hidFramer.Write T w af.hf.Reset apdu.data = .ret w0 (n, none))
    (h1 : ReadFull T w0 af.hf.Reset 2 = .ret w1 (hf1, [b0, b1], none))
    (h2 : ReadFull T w1 hf1 (uint16BE b0 b1) = .ret w2 (hf2, D, none))
    (hD : D.length = uint16BE b0 b1) :
    af.Exchange T w apdu
      = .ret w2 ({ hf := { hf2 with pos := 0 }, buf := ⟨[b0, b1], rfl⟩ }, D, none) := by
  have hn2 : ¬ apdu.Payload.length > 255 := by omega
  have hc : af.buf.copyFrom [b0, b1] = ⟨[b0, b1], rfl⟩ := by
    apply Subtype.ext
    have := af.buf.2
    simp [Arr.copyFrom, goCopy, this]
  have hi0 : Arr.idx (⟨[b0, b1], rfl⟩ : Arr 2) 0 = b0 := rfl
  have hi1 : Arr.idx (⟨[b0, b1], rfl⟩ : Arr 2) 1 = b1 := rfl
  have hg : goCopy (List.replicate (uint16BE b0 b1) 0) D = D := by
    simp [goCopy, hD]
  unfold apduFramer.Exchange
  simp only [hn2, ↓reduceIte, hW, h1, hc, hi0, hi1, h2, hg]

theorem readsOf_map_read (l : List (List Byte)) :
    readsOf (l.map (fun p => IOEvent.read p none)) = l := by
  induction l with
  | nil => rfl
  | cons p ps ih => simp [readsOf, ih]

theorem writesOf_map_read (l : List (List Byte)) :
    writesOf (l.map (fun p => IOEvent.read p none)) = [] := by
  induction l with
  | nil => rfl
  | cons p ps ih => simp [writesOf, ih]

/-- The read phase of `apduFramer.Exchange`: on a framer that was `Reset`, with
the device about to deliver correctly numbered packets whose payload bytes start
with the big-endian length `R` and `R` bytes `D`, reading 2 bytes and then `R`
bytes returns `D` and consumes exactly `ceil((R+2)/59)` packets. -/
theorem read_response {σ : Type} (T : ReadWriter σ) (w0 : Wire σ) (hf : hidFramer) (R : Nat)
    (D : List Byte) (pkts : List (List Byte)) (hR : R ≤ 65535) (hD : D.length = R)
    (hreads : ReadsYield T w0.st pkts) (hframed : Framed 0 pkts)
    (hstream : [byteOf (R / 256), byteOf R] ++ D <+: payloads pkts) :
    ∃ w1 w2 hf1 hf2,
      ReadFull T w0 hf.Reset 2 = .ret w1 (hf1, [byteOf (R / 256), byteOf R], none) ∧
      ReadFull T w1 hf1 R = .ret w2 (hf2, D, none) ∧
      w2.trace = w0.trace ++ (pkts.take ((R + 2 + 58) / 59)).map (fun p => IOEvent.read p none) ∧
      (pkts.take ((R + 2 + 58) / 59)).length = (R + 2 + 58) / 59 := by
  obtain ⟨t, ht⟩ := hstream
  have hpl := payloads_length pkts 0 hframed
  have htl := congrArg List.length ht
  simp only [List.length_append, List.length_cons, List.length_nil, hD] at htl
  have hK : (R + 2 + 58) / 59 ≤ pkts.length := by omega
  have hsp : pkts.take ((R + 2 + 58) / 59) ++ pkts.drop ((R + 2 + 58) / 59) = pkts :=
    List.take_append_drop _ _
  generalize hpk : pkts.take ((R + 2 + 58) / 59) = pk at hsp
  have hpkl : pk.length = (R + 2 + 58) / 59 := by
    rw [← hpk, List.length_take, Nat.min_eq_left hK]
  have hfr : Framed 0 pk := by
    have := hframed; rw [← hsp] at this
    exact (Framed_append _ _ _ this).1
  have hry : ReadsYield T w0.st pk := by
    have := hreads; rw [← hsp] at this
    exact ReadsYield_append T _ _ _ this
  have hS := payloads_length pk 0 hfr
  have hs : Synced T w0 hf.Reset pk := Synced_reset T w0 hf pk hry hfr (by omega)
  have hprefix : (payloads pk).take (R + 2) = [byteOf (R / 256), byteOf R] ++ D := by
    have h1 : (payloads pkts).take (R + 2) = [byteOf (R / 256), byteOf R] ++ D := by
      rw [← ht, List.take_append_of_le_length (by simp [hD]),
        List.take_of_length_le (by simp [hD])]
    rw [← h1, ← hsp, payloads_append, List.take_append_of_le_length (by omega)]
  obtain ⟨w1, hf1, used1, pkts1, hR1, hd1, hs1, hu1, ht1, hP1⟩ :=
    ReadFull_spec T 2 w0 hf.Reset pk hs (by rw [pending_reset, List.nil_append]; omega)
  rw [pending_reset, List.nil_append] at hR1 hd1
  have htake2 : (payloads pk).take 2 = [byteOf (R / 256), byteOf R] := by
    have := congrArg (List.take 2) hprefix
    rw [List.take_take, Nat.min_eq_left (by omega)] at this
    rw [this]; rfl
  rw [htake2] at hR1
  have hdrop2 : (hf1.pending ++ payloads pkts1).take R = D := by
    have := congrArg (List.drop 2) hprefix
    rw [List.drop_take] at this
    rw [← hd1]
    simpa using this
  have hlen1 : R ≤ (hf1.pending ++ payloads pkts1).length := by
    have := congrArg List.length hdrop2
    rw [List.length_take, hD] at this
    omega
  obtain ⟨w2, hf2, used2, pkts2, hR2, hd2, hs2, hu2, ht2, hP2⟩ :=
    ReadFull_spec T R w1 hf1 pkts1 hs1 hlen1
  rw [hdrop2] at hR2
  obtain ⟨hp58, _⟩ := hP2 (Or.inl (hP1 (Or.inr (by omega))))
  have hfr2 : Framed hf2.seq pkts2 := hs2.2.2.1
  have hS2 := payloads_length pkts2 hf2.seq hfr2
  have hl1 := congrArg List.length hd1
  have hl2 := congrArg List.length hd2
  have hlu := congrArg List.length hu1
  have hlu2 := congrArg List.length hu2
  simp only [List.length_append, List.length_drop] at hl1 hl2 hlu hlu2
  have hp2 : pkts2.length = 0 := by omega
  have hp2n : pkts2 = [] := List.length_eq_zero.mp hp2
  refine ⟨w1, w2, hf1, hf2, hR1, hR2, ?_, hpkl⟩
  rw [ht2, ht1, hu1, hu2, hp2n, List.append_nil, List.map_append, List.append_assoc]

/-- The only panics of `hidFramer.Read`. -/
theorem Read_panics {σ : Type} (T : ReadWriter σ) (w w1 : Wire σ) (hf : hidFramer) (plen : Nat)
    (m : String) (h : hidFramer.Read T w hf plen = .panics w1 m) :
    m = "slice bounds out of range" ∨ m = "read less than 64 bytes from HID" := by
  unfold hidFramer.Read at h
  split_ifs at h
  · cases h; exact Or.inl rfl
  · simp only at h
    split at h
    · cases h
    · split_ifs at h
      · cases h; exact Or.inr rfl

/-- The only panics of `io.ReadFull` on the framer are those of `hidFramer.Read`. -/
theorem readFullLoop_panics {σ : Type} (T : ReadWriter σ) (len : Nat) :
    ∀ (fuel : Nat) (w w1 : Wire σ) (hf : hidFramer) (acc : List Byte) (err : Option Err)
      (m : String), readFullLoop T len fuel w hf acc err = .panics w1 m →
      m = "slice bounds out of range" ∨ m = "read less than 64 bytes from HID" := by
  intro fuel
  induction fuel with
  | zero =>
    intro w w1 hf acc err m h
    rw [readFullLoop] at h
    split_ifs at h
  | succ fuel ih =>
    intro w w1 hf acc err m h
    rw [readFullLoop] at h
    split_ifs at h
    cases hR : hidFramer.Read T w hf (len - acc.length) with
    | panics w2 m2 =>
      rw [hR] at h
      cases h
      exact Read_panics T w w1 hf _ m hR
    | hang w2 => rw [hR] at h; cases h
    | ret w2 a =>
      obtain ⟨hf1, out, err1⟩ := a
      rw [hR] at h
      exact ih _ _ _ _ _ _ h

theorem Write_no_panic {σ : Type} (T : ReadWriter σ) (w w1 : Wire σ) (hf : hidFramer)
    (p : List Byte) (m : String) : hidFramer.Write T w hf p ≠ .panics w1 m := by
  obtain ⟨w0, n, err, evs, hW, _⟩ := Write_spec T w hf p
  rw [hW]
  intro h
  cases h

/-- The only panics of `apduFramer.Exchange` on a payload of at most 255 bytes are
those of `hidFramer.Read`. -/
theorem Exchange_panics {σ : Type} (T : ReadWriter σ) (w w1 : Wire σ) (af : apduFramer)
    (apdu : APDU) (m : String) (hn : apdu.Payload.length ≤ 255)
    (h : af.Exchange T w apdu = .panics w1 m) :
    m = "slice bounds out of range" ∨ m = "read less than 64 bytes from HID" := by
  have hn2 : ¬ apdu.Payload.length > 255 := by omega
  obtain ⟨w0, n, err, evs, hW, _⟩ := Write_spec T w af.hf.Reset apdu.data
  unfold apduFramer.Exchange at h
  simp only [hn2, ↓reduceIte, hW] at h
  cases err with
  | some e => cases h
  | none =>
    simp only at h
    cases hR : ReadFull T w0 af.hf.Reset 2 with
    | panics w2 m2 =>
      rw [hR] at h
      cases h
      exact readFullLoop_panics T 2 _ _ _ _ _ _ _ hR
    | hang w2 => rw [hR] at h; cases h
    | ret w2 a =>
      obtain ⟨hf1, got, err1⟩ := a
      rw [hR] at h
      cases err1 with
      | some e => cases h
      | none =>
        simp only at h
        cases hR2 : ReadFull T w2 hf1
            (uint16BE ((af.buf.copyFrom got).idx 0) ((af.buf.copyFrom got).idx 1)) with
        | panics w3 m3 =>
          rw [hR2] at h
          cases h
          exact readFullLoop_panics T _ _ _ _ _ _ _ _ hR2
        | hang w3 => rw [hR2] at h; cases h
        | ret w3 a3 => rw [hR2] at h; cases h

/-- The whole of `apduFramer.Exchange` on a device that answers: when the request has been written without error and the device then
supplies 64-byte packets with channel id `0x0101`, tag `0x05` and sequence
numbers `0, 1, 2, ...` whose payload bytes start with `R ≤ 65535` as a big-endian
16-bit number followed by `R` bytes `D`, `apduFramer.Exchange` returns exactly `D`
with a `nil` error, the read calls it makes are exactly those of the first
`ceil((R+2)/59)` packets, and the read position is left at 0. -/
theorem Exchange_answer {σ : Type} (T : ReadWriter σ) (w w0 : Wire σ) (af : apduFramer)
    (apdu : APDU) (n R : Nat) (D : List Byte) (pkts : List (List Byte))
    (hn : apdu.Payload.length ≤ 255)
    (hW : hidFramer.Write T w af.hf.Reset apdu.data = .ret w0 (n, none))
    (hR : R ≤ 65535) (hD : D.length = R)
    (hreads : ReadsYield T w0.st pkts) (hframed : Framed 0 pkts)
    (hstream : [byteOf (R / 256), byteOf R] ++ D <+: payloads pkts) :
    ∃ w2 af2, af.Exchange T w apdu = .ret w2 (af2, D, none) ∧
      w2.since w0 = (pkts.take ((R + 2 + 58) / 59)).map (fun p => IOEvent.read p none) ∧
      readsOf (w2.since w) = pkts.take ((R + 2 + 58) / 59) ∧
      (readsOf (w2.since w)).length = (R + 2 + 58) / 59 ∧
      af2.hf.pos = 0 := by
  obtain ⟨w1, w2, hf1, hf2, h1, h2, htr, hlen⟩ :=
    read_response T w0 af.hf R D pkts hR hD hreads hframed hstream
  have hu : uint16BE (byteOf (R / 256)) (byteOf R) = R := uint16BE_byteOf R (by omega)
  have hex := Exchange_ok T w w0 w1 w2 af apdu n hf1 hf2 (byteOf (R / 256)) (byteOf R) D hn hW h1
    (by rw [hu]; exact h2) (by rw [hu]; exact hD)
  obtain ⟨w0', n', err, evW, hW', htrW, hrW, _⟩ := Write_spec T w af.hf.Reset apdu.data
  rw [hW] at hW'
  cases hW'
  have hall : readsOf (w2.since w) = pkts.take ((R + 2 + 58) / 59) := by
    rw [since_append w w2 (evW ++ (pkts.take ((R + 2 + 58) / 59)).map
      (fun p => IOEvent.read p none)) (by rw [htr, htrW, List.append_assoc]),
      readsOf_append, hrW, readsOf_map_read]
    rfl
  exact ⟨w2, _, hex, since_append w0 w2 _ htr, hall, by rw [hall, hlen], rfl⟩


/-! ## `NanoS.Exchange` -/

theorem getD_append_two_fst (body : List Byte) (s0 s1 : Byte) :
    (body ++ [s0, s1]).getD body.length 0 = s0 := by
  induction body with
  | nil => rfl
  | cons b bs ih => simpa using ih

theorem getD_append_two_snd (body : List Byte) (s0 s1 : Byte) :
    (body ++ [s0, s1]).getD (body.length + 1) 0 = s1 := by
  induction body with
  | nil => rfl
  | cons b bs ih => simpa using ih

/-- The error `NanoS.Exchange` returns for the 16-bit status `code`. -/
theorem NanoS_Exchange_status {σ : Type} (T : ReadWriter σ) (w w1 : Wire σ) (n : NanoS)
    (cmd p1 p2 : Byte) (data : List Byte) (af1 : apduFramer) (body : List Byte) (s0 s1 : Byte)
    (hE : n.device.Exchange T w { CLA := 0xe0, INS := cmd, P1 := p1, P2 := p2, Payload := data }
      = .ret w1 (af1, body ++ [s0, s1], none)) :
    NanoS.Exchange T w n cmd p1 p2 data
      = .ret w1 (⟨af1⟩, ⟨body ++ [s0, s1], body.length⟩,
          if uint16BE s0 s1 = 0x9000 then none
          else if uint16BE s0 s1 = 0x6985 then some .errUserRejected
          else if uint16BE s0 s1 = 0x6b01 then some .errInvalidParam
          else some (.ErrCode (uint16BE s0 s1))) := by
  have hl : ¬ (body ++ [s0, s1]).length < 2 := by simp
  have h2 : (body ++ [s0, s1]).length - 2 = body.length := by simp
  have h3 : (body ++ [s0, s1]).length - 1 = body.length + 1 := by simp
  unfold NanoS.Exchange
  simp only [hE, hl, ↓reduceIte, h2, h3, getD_append_two_fst, getD_append_two_snd]
  split_ifs <;> rfl

theorem uint16BE_eq_iff (s0 s1 : Byte) (a b : Nat) (hb : b < 256) :
    uint16BE s0 s1 = a * 256 + b ↔ s0.val = a ∧ s1.val = b := by
  have h0 := s0.isLt
  have h1 := s1.isLt
  simp only [uint16BE]
  omega

theorem uint16BE_lt (s0 s1 : Byte) : uint16BE s0 s1 < 65536 := by
  have h0 := s0.isLt
  have h1 := s1.isLt
  simp only [uint16BE]
  omega

theorem split_last_two (resp : List Byte) (h : 2 ≤ resp.length) :
    ∃ body s0 s1, resp = body ++ [s0, s1] := by
  refine ⟨resp.take (resp.length - 2), resp.getD (resp.length - 2) 0,
    resp.getD (resp.length - 1) 0, ?_⟩
  apply List.ext_getElem
  · simp; omega
  · intro i h1 h2
    by_cases hi : i < resp.length - 2
    · rw [List.getElem_append_left (by simp; omega)]
      simp
    · rw [List.getElem_append_right (by simp; omega)]
      simp only [List.length_take]
      have hm : min (resp.length - 2) resp.length = resp.length - 2 := by omega
      rcases Nat.lt_or_ge i (resp.length - 1) with h3 | h3
      · have e : i = resp.length - 2 := by omega
        subst e
        simp [hm, List.getD_eq_getElem?_getD, List.getElem?_eq_getElem h1]
      · have e : i = resp.length - 1 := by omega
        subst e
        have e2 : resp.length - 1 - (resp.length - 2) = 1 := by omega
        simp [hm, e2, List.getD_eq_getElem?_getD, List.getElem?_eq_getElem h1]

/-- What `NanoS.Exchange` returns for a response too short to hold a status. -/
theorem NanoS_Exchange_short {σ : Type} (T : ReadWriter σ) (w w1 : Wire σ) (n : NanoS)
    (cmd p1 p2 : Byte) (data : List Byte) (af1 : apduFramer) (resp : List Byte)
    (hE : n.device.Exchange T w { CLA := 0xe0, INS := cmd, P1 := p1, P2 := p2, Payload := data }
      = .ret w1 (af1, resp, none)) (hl : resp.length < 2) :
    NanoS.Exchange T w n cmd p1 p2 data
      = .ret w1 (⟨af1⟩, Slice.nil, some .missingStatusCode) := by
  unfold NanoS.Exchange
  simp only [hE, hl, ↓reduceIte]

theorem Slice_bytes_body (body : List Byte) (s0 s1 : Byte) :
    Slice.bytes ⟨body ++ [s0, s1], body.length⟩ = body := by
  simp [Slice.bytes]

theorem copyFrom_full (a : Arr 64) (p : List Byte) (hl : p.length = 64) :
    a.copyFrom p = ⟨p, hl⟩ := by
  apply Subtype.ext
  have := a.2
  simp [Arr.copyFrom, goCopy, hl, this, List.take_of_length_le, List.drop_of_length_le]

/-- What `hidFramer.Read` does with a 64-byte packet it reads from the device. -/
theorem Read_packet_cases {σ : Type} (T : ReadWriter σ) (w : Wire σ) (hf : hidFramer)
    (plen : Nat) (p : List Byte) (hgo : ¬ (hf.seq > 0 ∧ hf.pos ≠ 64))
    (hr : (T.Read w.st 64).2 = (p, none)) (hl : p.length = 64) :
    hidFramer.Read T w hf plen
      = .ret ⟨(T.Read w.st 64).1, w.trace ++ [IOEvent.read p none]⟩
          (if uint16BE (p.getD 0 0) (p.getD 1 0) ≠ 0x0101 then
            ({ hf with buf := ⟨p, hl⟩ }, [],
              some (.badChannelID (uint16BE (p.getD 0 0) (p.getD 1 0))))
          else if (p.getD 2 0).val ≠ 0x05 then
            ({ hf with buf := ⟨p, hl⟩ }, [], some (.badCommandTag (p.getD 2 0).val))
          else if uint16BE (p.getD 3 0) (p.getD 4 0) ≠ hf.seq then
            ({ hf with buf := ⟨p, hl⟩ }, [],
              some (.badSequenceNumber (uint16BE (p.getD 3 0) (p.getD 4 0)) hf.seq))
          else
            ({ seq := (hf.seq + 1) % 65536, buf := ⟨p, hl⟩,
               pos := 5 + ((p.drop 5).take plen).length }, (p.drop 5).take plen, none)) := by
  have hd : (T.Read w.st 64).2.1 = p := by rw [hr]
  have he : (T.Read w.st 64).2.2 = none := by rw [hr]
  have hc := copyFrom_full hf.buf p hl
  simp only [hidFramer.Read, hgo, ↓reduceIte, Wire.Read, hd, he, hc, Arr.idx, hl, ne_eq,
    not_true_eq_false]
  split_ifs <;> rfl

/-! ## The claims -/

/-- C1: when `hidFramer.Write` has handed a message of at most 10000 bytes to a
device without error, and a device delivers the records back one per read, each
padded to 64 bytes, then on a framer that was `Reset` any sequence of
`io.ReadFull` calls whose buffer lengths add up to `L + 2` succeeds and returns,
piece by piece, the big-endian length `L` followed by the message; in particular
reading 2 bytes and then `L` bytes returns the length prefix and the message. -/
theorem Write_Read_roundtrip {σ τ : Type} (T : ReadWriter σ) (w w1 : Wire σ) (hf : hidFramer)
    (msg : List Byte) (n : Nat) (hL : msg.length ≤ 10000)
    (hW : hidFramer.Write T w hf msg = .ret w1 (n, none))
    (R : ReadWriter τ) (v : Wire τ) (hr : hidFramer) (pkts : List (List Byte))
    (hpad : Padded (writesOf (w1.since w)) pkts) (hreads : ReadsYield R v.st pkts) :
    (∀ sizes : List Nat, sizes.sum = msg.length + 2 →
      ∃ v1 hr1 outs, readFulls R v hr.Reset sizes = .ret v1 (hr1, outs, none) ∧
        outs.flatten = [byteOf (msg.length / 256), byteOf msg.length] ++ msg ∧
        outs.map List.length = sizes) ∧
    (∃ v1 hr1, readFulls R v hr.Reset [2, msg.length]
      = .ret v1 (hr1, [[byteOf (msg.length / 256), byteOf msg.length], msg], none)) ∧
    uint16BE (byteOf (msg.length / 256)) (byteOf msg.length) = msg.length := by
  obtain ⟨w1', n', err, evs, hW', htr, _, _, hok, _⟩ := Write_spec T w hf msg
  rw [hW] at hW'
  cases hW'
  obtain ⟨_, hfr⟩ := hok rfl
  rw [since_append w w1 evs htr, hfr] at hpad
  obtain ⟨hF, hT, hK⟩ := Padded_frames _ 0 _ pkts (Nat.le_refl _)
    (by rw [prefixed_length]; omega) hpad
  rw [prefixed_length] at hT hK
  rw [prefixed_small msg (by omega)] at hT
  have hs : Synced R v hr.Reset pkts := Synced_reset R v hr pkts hreads hF (by omega)
  have hlen : msg.length + 2 ≤ (payloads pkts).length := by
    have := congrArg List.length hT
    simp only [List.length_take, List.length_append, List.length_cons, List.length_nil] at this
    omega
  have main : ∀ sizes : List Nat, sizes.sum = msg.length + 2 →
      ∃ v1 hr1 outs, readFulls R v hr.Reset sizes = .ret v1 (hr1, outs, none) ∧
        outs.flatten = [byteOf (msg.length / 256), byteOf msg.length] ++ msg ∧
        outs.map List.length = sizes := by
    intro sizes hsz
    obtain ⟨v1, hr1, outs, _, _, hR, hfl, hl, _⟩ := readFulls_spec R sizes v hr.Reset pkts hs
      (by rw [pending_reset, List.nil_append, hsz]; exact hlen)
    refine ⟨v1, hr1, outs, hR, ?_, hl⟩
    rw [hfl, pending_reset, List.nil_append, hsz, hT]
  refine ⟨main, ?_, uint16BE_byteOf _ (by omega)⟩
  obtain ⟨v1, hr1, outs, hR, hfl, hl⟩ := main [2, msg.length] (by simp; omega)
  refine ⟨v1, hr1, ?_⟩
  rw [hR]
  have h2 : outs.length = 2 := by simpa using congrArg List.length hl
  obtain ⟨o1, o2, rfl⟩ := List.length_eq_two.mp h2
  simp only [List.map_cons, List.map_nil, List.cons.injEq, and_true] at hl
  have hfl2 : o1 ++ o2 = [byteOf (msg.length / 256), byteOf msg.length] ++ msg := by
    simpa using hfl
  obtain ⟨e1, e2⟩ := List.append_inj hfl2 (by simp [hl.1])
  rw [e1, e2]

set_option maxRecDepth 100000 in
/-- C1, on an example: a 60-byte message, framed into two records and handed
back by the loop-back device, is read back as `00 3c` and the 60 bytes. -/
theorem Write_Read_roundtrip_witness :
    ∃ v1 hr1, readFulls loopback
        (hidFramer.Write loopback ⟨[], []⟩ hidFramer.fresh (List.replicate 60 7)).wire
        hidFramer.fresh.Reset [2, 60]
      = .ret v1 (hr1, [[0, 60], List.replicate 60 7], none) :=
  (Write_Read_roundtrip loopback ⟨[], []⟩
    (hidFramer.Write loopback ⟨[], []⟩ hidFramer.fresh (List.replicate 60 7)).wire
    hidFramer.fresh (List.replicate 60 7) 60 (by decide) rfl loopback
    (hidFramer.Write loopback ⟨[], []⟩ hidFramer.fresh (List.replicate 60 7)).wire
    hidFramer.fresh
    (hidFramer.Write loopback ⟨[], []⟩ hidFramer.fresh (List.replicate 60 7)).wire.st
    (by decide) (by decide)).2.1

/-- C2: for a message of at most 65535 bytes and a device whose writes all
succeed, `hidFramer.Write` returns `(len(p), nil)` after exactly
`K = ceil((L+2)/59)` device calls, all of them writes, and the record number `i`
is `01 01 05`, then `i` as a big-endian 16-bit number, then the bytes
`59*i .. 59*i+58` of the length-prefixed message. -/
theorem Write_sequence_numbers {σ : Type} (T : ReadWriter σ) (w : Wire σ) (hf : hidFramer)
    (p : List Byte) (hL : p.length ≤ 65535) (hT : WritesSucceed T) :
    ∃ w1, hidFramer.Write T w hf p = .ret w1 (p.length, none) ∧
      (w1.since w).length = (p.length + 2 + 58) / 59 ∧
      (writesOf (w1.since w)).length = (p.length + 2 + 58) / 59 ∧
      ∀ i, i < (p.length + 2 + 58) / 59 →
        (writesOf (w1.since w))[i]? =
            some ([0x01, 0x01, 0x05, byteOf (i / 256), byteOf i]
              ++ ((prefixed p).drop (59 * i)).take 59) ∧
          uint16BE (byteOf (i / 256)) (byteOf i) = i := by
  obtain ⟨w1, n, err, evs, hW, htr, _, hlen, hok, hsucc⟩ := Write_spec T w hf p
  have he : err = none := hsucc hT
  obtain ⟨hn, hfr⟩ := hok he
  subst he hn
  have hs := since_append w w1 evs htr
  have hfl : (frames (prefixed p).length 0 (prefixed p)).length = (p.length + 2 + 58) / 59 := by
    rw [frames_length _ 0 (prefixed p) (Nat.le_refl _), prefixed_length]
  refine ⟨w1, hW, ?_, ?_, ?_⟩
  · rw [hs, hlen, hfr, hfl]
  · rw [hs, hfr, hfl]
  · intro i hi
    refine ⟨?_, uint16BE_byteOf i (by omega)⟩
    have := frames_getElem (prefixed p).length 0 (prefixed p) i (Nat.le_refl _) (by omega)
      (by rw [prefixed_length]; exact hi)
    rw [hs, hfr, this, Nat.zero_add]
    rfl

/-- C2, on an example: a 3-byte message goes out in one record numbered 0. -/
theorem Write_sequence_numbers_witness :
    ∃ w1, hidFramer.Write scripted ⟨[], []⟩ hidFramer.fresh [1, 2, 3] = .ret w1 (3, none) ∧
      writesOf (w1.since ⟨[], []⟩) = [[0x01, 0x01, 0x05, 0, 0, 0, 3, 1, 2, 3]] := by
  obtain ⟨w1, h, _, _, _⟩ := Write_sequence_numbers scripted ⟨[], []⟩ hidFramer.fresh [1, 2, 3]
    (by decide) (fun _ _ => rfl)
  refine ⟨w1, h, ?_⟩
  have h2 : hidFramer.Write scripted ⟨[], []⟩ hidFramer.fresh [1, 2, 3]
      = .ret ⟨[], [IOEvent.write [0x01, 0x01, 0x05, 0, 0, 0, 3, 1, 2, 3] 10 none]⟩ (3, none) := by
    rfl
  rw [h2] at h
  cases h
  rfl
/-- C3: for a command with a payload of `n ≤ 255` bytes and a device whose writes
succeed, the calls `apduFramer.Exchange` makes on the device are write calls
followed by read calls only, and the bytes after the 5-byte headers of the records
written, concatenated, are the big-endian 16-bit value `5 + n` followed by
`CLA, INS, P1, P2, n` and the payload. -/
theorem Exchange_request_bytes {σ : Type} (T : ReadWriter σ) (w : Wire σ) (af : apduFramer)
    (apdu : APDU) (hn : apdu.Payload.length ≤ 255) (hT : WritesSucceed T) :
    ∃ evW evR, (af.Exchange T w apdu).wire.since w = evW ++ evR ∧
      readsOf evW = [] ∧ writesOf evR = [] ∧
      payloads (writesOf evW)
        = [byteOf ((5 + apdu.Payload.length) / 256), byteOf (5 + apdu.Payload.length)]
          ++ [apdu.CLA, apdu.INS, apdu.P1, apdu.P2, byteOf apdu.Payload.length]
          ++ apdu.Payload ∧
      (byteOf apdu.Payload.length).val = apdu.Payload.length ∧
      uint16BE (byteOf ((5 + apdu.Payload.length) / 256)) (byteOf (5 + apdu.Payload.length))
        = 5 + apdu.Payload.length := by
  obtain ⟨w0, n, err, evW, _, htr, hr, hok, hsucc, evR, hex, hwr, _⟩ :=
    Exchange_trace T w af apdu hn
  have hfr := hok (hsucc hT)
  have hdl : apdu.data.length = 5 + apdu.Payload.length := by
    simp [APDU.data]; omega
  refine ⟨evW, evR, ?_, hr, hwr, ?_, ?_, uint16BE_byteOf _ (by omega)⟩
  · apply since_append
    rw [hex, htr, List.append_assoc]
  · rw [hfr, payloads_frames _ _ _ (Nat.le_refl _), prefixed_small _ (by omega), hdl]
    rfl
  · simp only [byteOf]
    omega

/-- C3, on an example: the command `E0 02 00 00` with payload `01 02 03 04` goes
out as the single record `01 01 05 00 00 | 00 09 | E0 02 00 00 04 | 01 02 03 04`. -/
theorem Exchange_request_bytes_witness :
    ∃ evW evR,
      (apduFramer.fresh.Exchange scripted ⟨[], []⟩
        { CLA := 0xe0, INS := 2, P1 := 0, P2 := 0, Payload := [1, 2, 3, 4] }).wire.since ⟨[], []⟩
        = evW ++ evR ∧
      readsOf evW = [] ∧ writesOf evR = [] ∧
      payloads (writesOf evW) = [0, 9, 0xe0, 2, 0, 0, 4, 1, 2, 3, 4] := by
  obtain ⟨evW, evR, h1, h2, h3, h4, _⟩ := Exchange_request_bytes scripted ⟨[], []⟩
    apduFramer.fresh { CLA := 0xe0, INS := 2, P1 := 0, P2 := 0, Payload := [1, 2, 3, 4] }
    (by decide) (fun _ _ => rfl)
  exact ⟨evW, evR, h1, h2, h3, h4⟩

/-- C4: when the request has been written without error and the device then
supplies 64-byte packets with channel id `0x0101`, tag `0x05` and sequence
numbers `0, 1, 2, ...` whose payload bytes start with `R ≤ 65535` as a big-endian
16-bit number followed by `R` bytes `D`, `apduFramer.Exchange` returns exactly `D`
with a `nil` error, the read calls it makes are exactly those of the first
`ceil((R+2)/59)` packets, and the read position is left at 0. -/
theorem Exchange_response {σ : Type} (T : ReadWriter σ) (w w0 : Wire σ) (af : apduFramer)
    (apdu : APDU) (n R : Nat) (D : List Byte) (pkts : List (List Byte))
    (hn : apdu.Payload.length ≤ 255)
    (hW : hidFramer.Write T w af.hf.Reset apdu.data = .ret w0 (n, none))
    (hR : R ≤ 65535) (hD : D.length = R)
    (hreads : ReadsYield T w0.st pkts) (hframed : Framed 0 pkts)
    (hstream : [byteOf (R / 256), byteOf R] ++ D <+: payloads pkts) :
    ∃ w2 af2, af.Exchange T w apdu = .ret w2 (af2, D, none) ∧
      w2.since w0 = (pkts.take ((R + 2 + 58) / 59)).map (fun p => IOEvent.read p none) ∧
      readsOf (w2.since w) = pkts.take ((R + 2 + 58) / 59) ∧
      (readsOf (w2.since w)).length = (R + 2 + 58) / 59 ∧
      af2.hf.pos = 0 :=
  Exchange_answer T w w0 af apdu n R D pkts hn hW hR hD hreads hframed hstream

set_option maxRecDepth 100000 in
/-- C4, on an example: the device answers the command `E0 02 00 00 | 01 02 03 04`
with one packet carrying the length `00 03` and the bytes `AA BB CC`. -/
theorem Exchange_response_witness :
    ∃ w2 af2,
      apduFramer.fresh.Exchange scripted ⟨[packet 0 [0, 3, 0xAA, 0xBB, 0xCC]], []⟩
          { CLA := 0xe0, INS := 2, P1 := 0, P2 := 0, Payload := [1, 2, 3, 4] }
        = .ret w2 (af2, [0xAA, 0xBB, 0xCC], none) ∧
      readsOf (w2.since ⟨[packet 0 [0, 3, 0xAA, 0xBB, 0xCC]], []⟩)
        = [packet 0 [0, 3, 0xAA, 0xBB, 0xCC]] := by
  obtain ⟨w2, af2, h1, _, h3, _⟩ := Exchange_response scripted
    ⟨[packet 0 [0, 3, 0xAA, 0xBB, 0xCC]], []⟩
    (hidFramer.Write scripted ⟨[packet 0 [0, 3, 0xAA, 0xBB, 0xCC]], []⟩ hidFramer.fresh
      [0xe0, 2, 0, 0, 4, 1, 2, 3, 4]).wire
    apduFramer.fresh { CLA := 0xe0, INS := 2, P1 := 0, P2 := 0, Payload := [1, 2, 3, 4] }
    9 3 [0xAA, 0xBB, 0xCC] [packet 0 [0, 3, 0xAA, 0xBB, 0xCC]]
    (by decide) rfl (by decide) rfl (by decide) (by decide) (by decide)
  exact ⟨w2, af2, h1, h3⟩

/-- C5: a command whose payload is longer than 255 bytes makes
`apduFramer.Exchange` panic with the device untouched (no call was made on it),
and a payload of at most 255 bytes never leads to this panic. -/
theorem Exchange_rejects_long_payload {σ : Type} (T : ReadWriter σ) (w : Wire σ)
    (af : apduFramer) (apdu : APDU) :
    (255 < apdu.Payload.length →
      af.Exchange T w apdu = .panics w "APDU payload cannot exceed 255 bytes" ∧
      (af.Exchange T w apdu).wire.since w = []) ∧
    (apdu.Payload.length ≤ 255 →
      ∀ w1, af.Exchange T w apdu ≠ .panics w1 "APDU payload cannot exceed 255 bytes") := by
  refine ⟨fun h => ?_, fun h w1 hp => ?_⟩
  · have he : af.Exchange T w apdu = .panics w "APDU payload cannot exceed 255 bytes" := by
      unfold apduFramer.Exchange
      simp only [gt_iff_lt, h, ↓reduceIte]
    exact ⟨he, by rw [he]; simp [Outcome.wire, Wire.since]⟩
  · rcases Exchange_panics T w w1 af apdu _ h hp with h1 | h1
    · exact absurd h1 (by decide)
    · exact absurd h1 (by decide)

/-- C5, on an example: a 256-byte payload is rejected with no call on the device. -/
theorem Exchange_rejects_long_payload_witness :
    apduFramer.fresh.Exchange scripted ⟨[], []⟩
        { CLA := 0xe0, INS := 2, P1 := 0, P2 := 0, Payload := List.replicate 256 0 }
      = .panics ⟨[], []⟩ "APDU payload cannot exceed 255 bytes" ∧
    (apduFramer.fresh.Exchange scripted ⟨[], []⟩
        { CLA := 0xe0, INS := 2, P1 := 0, P2 := 0, Payload := List.replicate 256 0 }).wire.since
      ⟨[], []⟩ = [] :=
  (Exchange_rejects_long_payload scripted ⟨[], []⟩ apduFramer.fresh
    { CLA := 0xe0, INS := 2, P1 := 0, P2 := 0, Payload := List.replicate 256 0 }).1
    (by rw [List.length_replicate]; decide)
/-- C6: when the APDU exchange returns a response that ends with `90 00`,
`NanoS.Exchange` returns a `nil` error and the response without its last two bytes
(as a slice of the response); and whenever `NanoS.Exchange` returns a `nil`
error, the response is the returned body followed by `90 00`. -/
theorem NanoS_Exchange_success {σ : Type} (T : ReadWriter σ) (w w1 : Wire σ) (n : NanoS)
    (cmd p1 p2 : Byte) (data : List Byte) (af1 : apduFramer) (resp : List Byte)
    (hE : n.device.Exchange T w { CLA := 0xe0, INS := cmd, P1 := p1, P2 := p2, Payload := data }
      = .ret w1 (af1, resp, none)) :
    (∀ body, resp = body ++ [0x90, 0x00] →
      NanoS.Exchange T w n cmd p1 p2 data = .ret w1 (⟨af1⟩, ⟨resp, resp.length - 2⟩, none) ∧
      Slice.bytes ⟨resp, resp.length - 2⟩ = body) ∧
    (∀ w2 n2 s, NanoS.Exchange T w n cmd p1 p2 data = .ret w2 (n2, s, none) →
      2 ≤ resp.length ∧ resp = s.bytes ++ [0x90, 0x00]) := by
  constructor
  · intro body hb
    subst hb
    have h2 : (body ++ [(0x90 : Byte), 0x00]).length - 2 = body.length := by simp
    rw [h2, NanoS_Exchange_status T w w1 n cmd p1 p2 data af1 body 0x90 0x00 hE]
    exact ⟨rfl, Slice_bytes_body body _ _⟩
  · intro w2 n2 s hs
    rcases Nat.lt_or_ge resp.length 2 with hl | hl
    · rw [NanoS_Exchange_short T w w1 n cmd p1 p2 data af1 resp hE hl] at hs
      cases hs
    · obtain ⟨body, s0, s1, rfl⟩ := split_last_two resp hl
      rw [NanoS_Exchange_status T w w1 n cmd p1 p2 data af1 body s0 s1 hE] at hs
      refine ⟨hl, ?_⟩
      by_cases hc : uint16BE s0 s1 = 0x9000
      · rw [if_pos hc] at hs
        cases hs
        have := (uint16BE_eq_iff s0 s1 0x90 0 (by decide)).mp hc
        have e0 : s0 = 0x90 := Fin.ext this.1
        have e1 : s1 = 0x00 := Fin.ext this.2
        rw [Slice_bytes_body, e0, e1]
      · rw [if_neg hc] at hs
        split_ifs at hs <;> cases hs

/-- C6, on an example: the response `AA BB 90 00` gives the body `AA BB`. -/
theorem NanoS_Exchange_success_witness :
    ∃ w1 n1, NanoS.Exchange scripted ⟨[packet 0 [0, 4, 0xAA, 0xBB, 0x90, 0x00]], []⟩
        ⟨apduFramer.fresh⟩ 2 0 0 [1, 2, 3, 4]
      = .ret w1 (n1, ⟨[0xAA, 0xBB, 0x90, 0x00], 2⟩, none) ∧
      Slice.bytes ⟨[0xAA, 0xBB, 0x90, 0x00], 2⟩ = [0xAA, 0xBB] := by
  have hE : ∃ w1 af1, apduFramer.fresh.Exchange scripted
      ⟨[packet 0 [0, 4, 0xAA, 0xBB, 0x90, 0x00]], []⟩
      { CLA := 0xe0, INS := 2, P1 := 0, P2 := 0, Payload := [1, 2, 3, 4] }
      = .ret w1 (af1, [0xAA, 0xBB, 0x90, 0x00], none) := ⟨_, _, rfl⟩
  obtain ⟨w1, af1, hE⟩ := hE
  exact ⟨w1, ⟨af1⟩, (NanoS_Exchange_success scripted _ w1 ⟨apduFramer.fresh⟩ 2 0 0 [1, 2, 3, 4]
    af1 _ hE).1 [0xAA, 0xBB] rfl⟩

/-- C7: for a response of at least two bytes, `NanoS.Exchange` returns the
response without its last two bytes and an error that is a function of the last
two bytes read as a big-endian status only: `69 85` gives the user-declined error
whatever the body, `6b 01` the invalid-parameter error, and every status other
than `0x9000`, `0x6985`, `0x6b01` gives `ErrCode` of that 16-bit status (`6a 80`
gives `ErrCode 0x6a80`); the three errors are pairwise different. -/
theorem NanoS_Exchange_errors {σ : Type} (T : ReadWriter σ) (w w1 : Wire σ) (n : NanoS)
    (cmd p1 p2 : Byte) (data : List Byte) (af1 : apduFramer) (body : List Byte) (s0 s1 : Byte)
    (hE : n.device.Exchange T w { CLA := 0xe0, INS := cmd, P1 := p1, P2 := p2, Payload := data }
      = .ret w1 (af1, body ++ [s0, s1], none)) :
    ∃ err, NanoS.Exchange T w n cmd p1 p2 data
        = .ret w1 (⟨af1⟩, ⟨body ++ [s0, s1], body.length⟩, err) ∧
      (err = if uint16BE s0 s1 = 0x9000 then none
        else if uint16BE s0 s1 = 0x6985 then some Err.errUserRejected
        else if uint16BE s0 s1 = 0x6b01 then some Err.errInvalidParam
        else some (Err.ErrCode (uint16BE s0 s1))) ∧
      (s0 = 0x69 ∧ s1 = 0x85 → err = some Err.errUserRejected) ∧
      (s0 = 0x6b ∧ s1 = 0x01 → err = some Err.errInvalidParam) ∧
      (s0 = 0x6a ∧ s1 = 0x80 → err = some (Err.ErrCode 0x6a80)) ∧
      (uint16BE s0 s1 ≠ 0x9000 → uint16BE s0 s1 ≠ 0x6985 → uint16BE s0 s1 ≠ 0x6b01 →
        err = some (Err.ErrCode (uint16BE s0 s1))) ∧
      uint16BE s0 s1 < 65536 ∧
      Err.errUserRejected ≠ Err.errInvalidParam ∧
      (∀ c, Err.ErrCode c ≠ Err.errUserRejected) ∧ (∀ c, Err.ErrCode c ≠ Err.errInvalidParam) := by
  refine ⟨_, NanoS_Exchange_status T w w1 n cmd p1 p2 data af1 body s0 s1 hE, rfl, ?_, ?_, ?_, ?_,
    uint16BE_lt s0 s1, by decide, fun c h => (by cases h), fun c h => (by cases h)⟩
  · rintro ⟨rfl, rfl⟩; rfl
  · rintro ⟨rfl, rfl⟩; rfl
  · rintro ⟨rfl, rfl⟩; rfl
  · intro h1 h2 h3
    rw [if_neg h1, if_neg h2, if_neg h3]

/-- C7, on an example: the response `AA BB 69 85` gives the user-declined error. -/
theorem NanoS_Exchange_errors_witness :
    ∃ w1 n1 s, NanoS.Exchange scripted ⟨[packet 0 [0, 4, 0xAA, 0xBB, 0x69, 0x85]], []⟩
        ⟨apduFramer.fresh⟩ 2 0 0 [1, 2, 3, 4]
      = .ret w1 (n1, s, some Err.errUserRejected) := by
  have hE : ∃ w1 af1, apduFramer.fresh.Exchange scripted
      ⟨[packet 0 [0, 4, 0xAA, 0xBB, 0x69, 0x85]], []⟩
      { CLA := 0xe0, INS := 2, P1 := 0, P2 := 0, Payload := [1, 2, 3, 4] }
      = .ret w1 (af1, [0xAA, 0xBB] ++ [0x69, 0x85], none) := ⟨_, _, rfl⟩
  obtain ⟨w1, af1, hE⟩ := hE
  obtain ⟨err, h1, _, h2, _⟩ := NanoS_Exchange_errors scripted _ w1 ⟨apduFramer.fresh⟩ 2 0 0
    [1, 2, 3, 4] af1 [0xAA, 0xBB] 0x69 0x85 hE
  rw [h2 ⟨rfl, rfl⟩] at h1
  exact ⟨w1, _, _, h1⟩

/-- C8: when the APDU exchange returns a response of fewer than 2 bytes,
`NanoS.Exchange` returns (it does not panic) the error "APDU response missing
status code" and the `nil` slice; for a response of 2 bytes or more it never
returns this error. -/
theorem NanoS_Exchange_missing_status {σ : Type} (T : ReadWriter σ) (w w1 : Wire σ) (n : NanoS)
    (cmd p1 p2 : Byte) (data : List Byte) (af1 : apduFramer) (resp : List Byte)
    (hE : n.device.Exchange T w { CLA := 0xe0, INS := cmd, P1 := p1, P2 := p2, Payload := data }
      = .ret w1 (af1, resp, none)) :
    (resp.length < 2 →
      NanoS.Exchange T w n cmd p1 p2 data
        = .ret w1 (⟨af1⟩, Slice.nil, some Err.missingStatusCode) ∧
      Slice.nil.bytes = []) ∧
    (2 ≤ resp.length → ∀ w2 n2 s err,
      NanoS.Exchange T w n cmd p1 p2 data = .ret w2 (n2, s, err) →
        err ≠ some Err.missingStatusCode) := by
  constructor
  · intro hl
    exact ⟨NanoS_Exchange_short T w w1 n cmd p1 p2 data af1 resp hE hl, rfl⟩
  · intro hl w2 n2 s err hs
    obtain ⟨body, s0, s1, rfl⟩ := split_last_two resp hl
    rw [NanoS_Exchange_status T w w1 n cmd p1 p2 data af1 body s0 s1 hE] at hs
    cases hs
    split_ifs <;> simp

/-- C8, on an example: the one-byte response `90` gives the missing-status error. -/
theorem NanoS_Exchange_missing_status_witness :
    ∃ w1 n1, NanoS.Exchange scripted ⟨[packet 0 [0, 1, 0x90]], []⟩
        ⟨apduFramer.fresh⟩ 2 0 0 [1, 2, 3, 4]
      = .ret w1 (n1, Slice.nil, some Err.missingStatusCode) := by
  have hE : ∃ w1 af1, apduFramer.fresh.Exchange scripted
      ⟨[packet 0 [0, 1, 0x90]], []⟩
      { CLA := 0xe0, INS := 2, P1 := 0, P2 := 0, Payload := [1, 2, 3, 4] }
      = .ret w1 (af1, [0x90], none) := ⟨_, _, rfl⟩
  obtain ⟨w1, af1, hE⟩ := hE
  exact ⟨w1, ⟨af1⟩, ((NanoS_Exchange_missing_status scripted _ w1 ⟨apduFramer.fresh⟩ 2 0 0
    [1, 2, 3, 4] af1 _ hE).1 (by decide)).1⟩

/-- C9: `NanoS.Exchange` sends the command with class byte `E0`, and when the
request has been written without error and the device then answers with correctly
framed packets whose payload bytes are the length prefix followed by the request's
payload and the status `90 00`, it returns a `nil` error and exactly the payload
bytes, without the status bytes. -/
theorem NanoS_Exchange_roundtrip {σ : Type} (T : ReadWriter σ) (w w0 : Wire σ) (n : NanoS)
    (cmd p1 p2 : Byte) (data : List Byte) (k : Nat) (pkts : List (List Byte))
    (hn : data.length ≤ 255)
    (hW : hidFramer.Write T w n.device.hf.Reset
      (APDU.data { CLA := 0xe0, INS := cmd, P1 := p1, P2 := p2, Payload := data })
      = .ret w0 (k, none))
    (hreads : ReadsYield T w0.st pkts) (hframed : Framed 0 pkts)
    (hstream : [byteOf ((data.length + 2) / 256), byteOf (data.length + 2)]
      ++ (data ++ [0x90, 0x00]) <+: payloads pkts) :
    ∃ w2 n2 body, NanoS.Exchange T w n cmd p1 p2 data = .ret w2 (n2, body, none) ∧
      body.bytes = data ∧
      payloads (writesOf (w2.since w))
        = [byteOf ((5 + data.length) / 256), byteOf (5 + data.length),
            0xe0, cmd, p1, p2, byteOf data.length] ++ data := by
  obtain ⟨w2, af2, hex, _, _, _, _⟩ := Exchange_answer T w w0 n.device
    { CLA := 0xe0, INS := cmd, P1 := p1, P2 := p2, Payload := data } k (data.length + 2)
    (data ++ [0x90, 0x00]) pkts hn hW (by omega) (by simp) hreads hframed hstream
  have hst := NanoS_Exchange_status T w w2 n cmd p1 p2 data af2 data 0x90 0x00 hex
  refine ⟨w2, ⟨af2⟩, ⟨data ++ [0x90, 0x00], data.length⟩, hst, Slice_bytes_body data _ _, ?_⟩
  obtain ⟨w0', k', err, evW, hW', htr, _, hok, _, evR, hex2, hwr, _⟩ :=
    Exchange_trace T w n.device
      { CLA := 0xe0, INS := cmd, P1 := p1, P2 := p2, Payload := data } hn
  rw [hW] at hW'
  cases hW'
  rw [hex] at hex2
  simp only [Outcome.wire] at hex2
  have hdl : (APDU.data { CLA := 0xe0, INS := cmd, P1 := p1, P2 := p2, Payload := data }).length
      = 5 + data.length := by
    simp [APDU.data]; omega
  rw [since_append w w2 (evW ++ evR) (by rw [hex2, htr, List.append_assoc]), writesOf_append,
    hwr, List.append_nil, hok rfl, payloads_frames _ _ _ (Nat.le_refl _),
    prefixed_small _ (by omega), hdl]
  rfl

set_option maxRecDepth 100000 in
/-- C9, on the example of the specification: instruction `02`, `p1 = p2 = 0` and
the payload `01 02 03 04`, echoed by the device with the status `90 00`. -/
theorem NanoS_Exchange_roundtrip_witness :
    ∃ w2 n2 body,
      NanoS.Exchange scripted ⟨[packet 0 [0, 6, 1, 2, 3, 4, 0x90, 0x00]], []⟩
          ⟨apduFramer.fresh⟩ 2 0 0 [1, 2, 3, 4]
        = .ret w2 (n2, body, none) ∧
      body.bytes = [1, 2, 3, 4] := by
  obtain ⟨w2, n2, body, h1, h2, _⟩ := NanoS_Exchange_roundtrip scripted
    ⟨[packet 0 [0, 6, 1, 2, 3, 4, 0x90, 0x00]], []⟩
    (hidFramer.Write scripted ⟨[packet 0 [0, 6, 1, 2, 3, 4, 0x90, 0x00]], []⟩ hidFramer.fresh
      [0xe0, 2, 0, 0, 4, 1, 2, 3, 4]).wire
    ⟨apduFramer.fresh⟩ 2 0 0 [1, 2, 3, 4] 9 [packet 0 [0, 6, 1, 2, 3, 4, 0x90, 0x00]]
    (by decide) rfl (by decide) (by decide) (by decide)
  exact ⟨w2, n2, body, h1, h2⟩

/-- C10: when `hidFramer.Read` reads a 64-byte packet from the device, it returns
a `nil` error if and only if the channel id of the packet is `0x0101`, its command
tag `0x05` and its sequence number the expected one; otherwise it returns no bytes
and the first applicable of the channel, command-tag and sequence-number errors,
three errors that differ from one another, and leaves the expected sequence number
as it was. -/
theorem Read_header_checks {σ : Type} (T : ReadWriter σ) (w : Wire σ) (hf : hidFramer)
    (plen : Nat) (p : List Byte) (hgo : ¬ (hf.seq > 0 ∧ hf.pos ≠ 64))
    (hr : (T.Read w.st 64).2 = (p, none)) (hl : p.length = 64) :
    ∃ hf1 out err,
      hidFramer.Read T w hf plen
        = .ret ⟨(T.Read w.st 64).1, w.trace ++ [IOEvent.read p none]⟩ (hf1, out, err) ∧
      (err = none ↔ channelIDOf p = 0x0101 ∧ commandTagOf p = 0x05 ∧ seqOf p = hf.seq) ∧
      (channelIDOf p ≠ 0x0101 → err = some (Err.badChannelID (channelIDOf p))) ∧
      (channelIDOf p = 0x0101 → commandTagOf p ≠ 0x05 →
        err = some (Err.badCommandTag (commandTagOf p))) ∧
      (channelIDOf p = 0x0101 → commandTagOf p = 0x05 → seqOf p ≠ hf.seq →
        err = some (Err.badSequenceNumber (seqOf p) hf.seq)) ∧
      (err ≠ none → out = [] ∧ hf1.seq = hf.seq) ∧
      (err = none → out = (p.drop 5).take plen ∧ hf1.seq = (hf.seq + 1) % 65536) ∧
      (∀ a b, Err.badChannelID a ≠ Err.badCommandTag b) ∧
      (∀ a b c, Err.badChannelID a ≠ Err.badSequenceNumber b c) ∧
      (∀ a b c, Err.badCommandTag a ≠ Err.badSequenceNumber b c) := by
  have h := Read_packet_cases T w hf plen p hgo hr hl
  have d1 : ∀ a b, Err.badChannelID a ≠ Err.badCommandTag b := fun a b h => (by cases h)
  have d2 : ∀ a b c, Err.badChannelID a ≠ Err.badSequenceNumber b c := fun a b c h => (by cases h)
  have d3 : ∀ a b c, Err.badCommandTag a ≠ Err.badSequenceNumber b c := fun a b c h => (by cases h)
  simp only [channelIDOf, commandTagOf, seqOf]
  generalize uint16BE (p.getD 0 0) (p.getD 1 0) = c at h ⊢
  generalize (p.getD 2 0).val = t at h ⊢
  generalize uint16BE (p.getD 3 0) (p.getD 4 0) = s at h ⊢
  by_cases h1 : c = 0x0101
  · by_cases h2 : t = 0x05
    · by_cases h3 : s = hf.seq
      · rw [if_neg (not_not.mpr h1), if_neg (not_not.mpr h2), if_neg (not_not.mpr h3)] at h
        exact ⟨_, _, _, h, by simp [h1, h2, h3], by simp [h1], by simp [h2], by simp [h3],
          by simp, by simp, d1, d2, d3⟩
      · rw [if_neg (not_not.mpr h1), if_neg (not_not.mpr h2), if_pos h3] at h
        exact ⟨_, _, _, h, by simp [h1, h2, h3], by simp [h1], by simp [h2], by simp [h3],
          by simp, by simp, d1, d2, d3⟩
    · rw [if_neg (not_not.mpr h1), if_pos h2] at h
      exact ⟨_, _, _, h, by simp [h1, h2], by simp [h1], by simp [h2], by simp [h2],
        by simp, by simp, d1, d2, d3⟩
  · rw [if_pos h1] at h
    exact ⟨_, _, _, h, by simp [h1], by simp [h1], by simp [h1], by simp [h1],
      by simp, by simp, d1, d2, d3⟩

set_option maxRecDepth 100000 in
/-- C10, on the example of the specification: a framer expecting packet 2 that
receives packet 3 returns the sequence-number error and still expects packet 2. -/
theorem Read_header_checks_witness :
    ∃ w1 hf1, hidFramer.Read scripted ⟨[packet 3 []], []⟩ ⟨2, Arr.zero 64, 64⟩ 10
        = .ret w1 (hf1, [], some (Err.badSequenceNumber 3 2)) ∧ hf1.seq = 2 := by
  obtain ⟨hf1, out, err, h1, _, _, _, h5, h6, _⟩ := Read_header_checks scripted
    ⟨[packet 3 []], []⟩ ⟨2, Arr.zero 64, 64⟩ 10 (packet 3 []) (by decide) rfl (by decide)
  have he := h5 (by decide) (by decide) (by decide)
  have e3 : seqOf (packet 3 []) = 3 := by decide
  rw [e3] at he
  subst he
  obtain ⟨rfl, h7⟩ := h6 (by simp)
  exact ⟨_, hf1, h1, h7⟩

/-! ## Record lengths and write errors -/

theorem frames_getElem_shape : ∀ (fuel seq : Nat) (buf : List Byte) (i : Nat) (r : List Byte),
    buf.length ≤ fuel → (frames fuel seq buf)[i]? = some r →
    ∃ s, r = header s ++ (buf.drop (59 * i)).take 59 ∧ 59 * i < buf.length := by
  intro fuel
  induction fuel with
  | zero =>
    intro seq buf i r _ h
    simp [frames] at h
  | succ fuel ih =>
    intro seq buf i r hb h
    by_cases h0 : buf.length > 0
    · have hd : (buf.drop 59).length ≤ fuel := by
        simp only [List.length_drop]; omega
      simp only [frames, h0, ↓reduceIte] at h
      cases i with
      | zero =>
        simp only [List.getElem?_cons_zero, Option.some.injEq] at h
        exact ⟨seq, by rw [← h]; simp, by omega⟩
      | succ i =>
        rw [List.getElem?_cons_succ] at h
        obtain ⟨s, hr, hlt⟩ := ih _ _ i r hd h
        refine ⟨s, ?_, ?_⟩
        · rw [hr, List.drop_drop]
          have e : 59 + 59 * i = 59 * (i + 1) := by omega
          rw [e]
        · simp only [List.length_drop] at hlt
          omega
    · simp [frames, h0] at h

theorem last_is_only_error {α : Type} (P : α → Prop) :
    ∀ (pre0 : List α) (l : α) (pre post : List α) (x : α),
      (∀ y ∈ pre0, ¬ P y) → pre0 ++ [l] = pre ++ x :: post → P x →
      post = [] ∧ x = l ∧ pre = pre0 := by
  intro pre0
  induction pre0 with
  | nil =>
    intro l pre post x _ h hx
    cases pre with
    | nil =>
      simp only [List.nil_append, List.cons.injEq] at h
      exact ⟨h.2.symm, h.1.symm, rfl⟩
    | cons b bs =>
      simp only [List.nil_append, List.cons_append, List.cons.injEq] at h
      have := congrArg List.length h.2
      simp at this
      omega
  | cons a as ih =>
    intro l pre post x hpre h hx
    cases pre with
    | nil =>
      simp only [List.cons_append, List.nil_append, List.cons.injEq] at h
      exact absurd (h.1 ▸ hx) (hpre a (List.mem_cons_self _ _))
    | cons b bs =>
      simp only [List.cons_append, List.cons.injEq] at h
      obtain ⟨h1, h2, h3⟩ := ih l bs post x (fun y hy => hpre y (List.mem_cons_of_mem _ hy)) h.2 hx
      exact ⟨h1, h2, by rw [h.1, h3]⟩

theorem no_error_in_clean {α : Type} (P : α → Prop) (l pre post : List α) (x : α)
    (hl : ∀ y ∈ l, ¬ P y) (h : l = pre ++ x :: post) : ¬ P x := by
  apply hl
  rw [h]
  simp

/-- The write calls `sendAll` makes: the records in order, each once, up to and
including the first one for which the device returns an error. -/
theorem sendAll_events {σ : Type} (T : ReadWriter σ) (plen : Nat) :
    ∀ (recs : List (List Byte)) (w : Wire σ),
      ∃ w1 n err evs, sendAll T plen w recs = .ret w1 (n, err) ∧ w1.trace = w.trace ++ evs ∧
        readsOf evs = [] ∧ evs.length = (writesOf evs).length ∧
        (∃ k, writesOf evs = recs.take k) ∧
        (err = none → ∀ x ∈ evs, x.err = none) ∧
        (∀ e, err = some e → ∃ pre r, evs = pre ++ [IOEvent.write r n (some e)] ∧
          ∀ x ∈ pre, x.err = none) := by
  intro recs
  induction recs with
  | nil =>
    intro w
    exact ⟨w, plen, none, [], rfl, by simp, rfl, rfl, ⟨0, rfl⟩, fun _ x hx => (by simp at hx),
      fun e h => (by cases h)⟩
  | cons r rs ih =>
    intro w
    cases hw : (w.Write T r).2.2 with
    | some e =>
      have hw2 : (T.Write w.st r).2.2 = some e := hw
      refine ⟨(w.Write T r).1, (w.Write T r).2.1, some e,
        [IOEvent.write r (T.Write w.st r).2.1 (T.Write w.st r).2.2], ?_, rfl, rfl, rfl,
        ⟨1, rfl⟩, fun h => (by cases h), ?_⟩
      · simp only [sendAll, hw]
      · intro e' he'
        cases he'
        exact ⟨[], r, by rw [hw2]; rfl, fun x hx => by simp at hx⟩
    | none =>
      have hw2 : (T.Write w.st r).2.2 = none := hw
      obtain ⟨w1, n, err, evs, h1, h2, h3, h4, ⟨k, h5⟩, h6, h7⟩ := ih (w.Write T r).1
      refine ⟨w1, n, err, IOEvent.write r (T.Write w.st r).2.1 (T.Write w.st r).2.2 :: evs,
        ?_, ?_, ?_, ?_, ⟨k + 1, ?_⟩, ?_, ?_⟩
      · simp only [sendAll, hw, h1]
      · rw [h2]; simp [Wire.Write]
      · simpa [readsOf] using h3
      · simp [writesOf, h4]
      · simp [writesOf, h5]
      · intro he x hx
        rcases List.mem_cons.mp hx with rfl | hx
        · exact hw2
        · exact h6 he x hx
      · intro e he
        obtain ⟨pre, r', hp, hc⟩ := h7 e he
        refine ⟨IOEvent.write r (T.Write w.st r).2.1 (T.Write w.st r).2.2 :: pre, r', ?_, ?_⟩
        · rw [hp]; rfl
        · intro x hx
          rcases List.mem_cons.mp hx with rfl | hx
          · exact hw2
          · exact hc x hx

theorem getElem_of_take_some {α : Type} (l : List α) (k i : Nat) (r : α)
    (h : (l.take k)[i]? = some r) : l[i]? = some r := by
  rw [List.getElem?_take] at h
  split at h
  · exact h
  · cases h

/-- The records `hidFramer.Write` hands over, whether it ends with an error or
not: header and chunk, nothing more. -/
theorem Write_records_shape_any {σ : Type} (T : ReadWriter σ) (w : Wire σ) (hf : hidFramer)
    (p : List Byte) (i : Nat) (r : List Byte)
    (hr : (writesOf ((hidFramer.Write T w hf p).wire.since w))[i]? = some r) :
    (∃ s, r = header s ++ ((prefixed p).drop (59 * i)).take 59) ∧ 59 * i < p.length + 2 := by
  rw [Write_eq_sendAll] at hr
  obtain ⟨w1, n, err, evs, hS, htr, _, _, ⟨k, hk⟩, _⟩ :=
    sendAll_events T p.length (frames (prefixed p).length 0 (prefixed p)) w
  rw [hS] at hr
  have hs : (Outcome.ret w1 (n, err) : Outcome σ (Nat × Option Err)).wire.since w = evs :=
    since_append w w1 evs htr
  rw [hs, hk] at hr
  obtain ⟨s, h1, h2⟩ := frames_getElem_shape _ 0 _ i r (Nat.le_refl _)
    (getElem_of_take_some _ _ _ _ hr)
  rw [prefixed_length] at h2
  exact ⟨⟨s, h1⟩, h2⟩

/-! ## Errors of the device and of the framing during an exchange -/

theorem readCount_append (a b : List IOEvent) : readCount (a ++ b) = readCount a + readCount b := by
  simp [readCount, readsOf_append]

theorem Fine_append : ∀ (a b : List IOEvent) (k : Nat),
    Fine k (a ++ b) ↔ Fine k a ∧ Fine (k + readCount a) b := by
  intro a
  induction a with
  | nil => intro b k; simp [Fine, readCount, readsOf]
  | cons x xs ih =>
    intro b k
    have e : readCount (x :: xs) = readCount [x] + readCount xs := by
      have := readCount_append [x] xs
      simpa using this
    have hi := ih b (k + readCount [x])
    rw [Nat.add_assoc] at hi
    show x.fault k = none ∧ Fine (k + readCount [x]) (xs ++ b) ↔
      (x.fault k = none ∧ Fine (k + readCount [x]) xs) ∧ Fine (k + readCount (x :: xs)) b
    rw [e, hi, and_assoc]

theorem Fine_no_fault (k : Nat) (evs pre post : List IOEvent) (x : IOEvent)
    (hf : Fine k evs) (h : evs = pre ++ x :: post) : x.fault (k + readCount pre) = none := by
  subst h
  exact ((Fine_append pre (x :: post) k).mp hf).2.1

theorem fault_is_last (k : Nat) (pre0 pre post : List IOEvent) (x0 x : IOEvent) (e : Err)
    (hf : Fine k pre0) (h : pre0 ++ [x0] = pre ++ x :: post)
    (hx : x.fault (k + readCount pre) = some e) : post = [] ∧ x = x0 ∧ pre = pre0 := by
  induction pre0 generalizing k pre with
  | nil =>
    cases pre with
    | nil =>
      simp only [List.nil_append, List.cons.injEq] at h
      exact ⟨h.2.symm, h.1.symm, rfl⟩
    | cons b bs =>
      simp only [List.nil_append, List.cons_append, List.cons.injEq] at h
      have := congrArg List.length h.2
      simp at this
      omega
  | cons a as ih =>
    cases pre with
    | nil =>
      simp only [List.cons_append, List.nil_append, List.cons.injEq] at h
      obtain ⟨h1, _⟩ := h
      subst h1
      have : readCount ([] : List IOEvent) = 0 := rfl
      rw [this, Nat.add_zero, hf.1] at hx
      cases hx
    | cons b bs =>
      simp only [List.cons_append, List.cons.injEq] at h
      obtain ⟨h1, h2⟩ := h
      subst h1
      have e2 : readCount (a :: bs) = readCount [a] + readCount bs := by
        have := readCount_append [a] bs
        simpa using this
      rw [e2, ← Nat.add_assoc] at hx
      obtain ⟨r1, r2, r3⟩ := ih (k + readCount [a]) bs hf.2 h2 hx
      exact ⟨r1, r2, by rw [r3]⟩

/-- What a run that fits its outcome says about any call that gives rise to an
error: it is the last call, and its error is the one returned. -/
theorem Run_fault {σ α β : Type} (k : Nat) (evs : List IOEvent)
    (o : Outcome σ (α × β × Option Err)) (hr : Run k evs o) (pre post : List IOEvent)
    (x : IOEvent) (e : Err) (h : evs = pre ++ x :: post)
    (hx : x.fault (k + readCount pre) = some e) :
    post = [] ∧ o.errOf = some (asReturned (k + readCount pre) e) := by
  rcases hr with ⟨hf, _⟩ | ⟨pre0, x0, e0, h0, hf, hx0, ho⟩
  · rw [Fine_no_fault k evs pre post x hf h] at hx
    cases hx
  · rw [h0] at h
    obtain ⟨r1, r2, r3⟩ := fault_is_last k pre0 pre post x0 x e hf h hx
    subst r2 r3
    rw [hx0] at hx
    cases hx
    exact ⟨r1, ho⟩

/-- Conversely, an error returned stems from the last call. -/
theorem Run_error {σ α β : Type} (k : Nat) (evs : List IOEvent)
    (o : Outcome σ (α × β × Option Err)) (hr : Run k evs o) (e1 : Err)
    (h : o.errOf = some e1) :
    ∃ pre x e, evs = pre ++ [x] ∧ x.fault (k + readCount pre) = some e ∧
      e1 = asReturned (k + readCount pre) e := by
  rcases hr with ⟨_, hn⟩ | ⟨pre0, x0, e0, h0, _, hx0, ho⟩
  · rw [hn] at h; cases h
  · rw [ho] at h
    cases h
    exact ⟨pre0, x0, e0, h0, hx0, rfl⟩

theorem Read_drain_panics {σ : Type} (T : ReadWriter σ) (w : Wire σ) (hf : hidFramer) (plen : Nat)
    (h0 : hf.seq > 0) (h64 : hf.pos > 64) :
    hidFramer.Read T w hf plen = .panics w "slice bounds out of range" := by
  have h1 : hf.pos ≠ 64 := by omega
  simp only [hidFramer.Read, h0, h1, h64, ne_eq, not_false_eq_true, and_self, ↓reduceIte]

theorem Read_transport_err {σ : Type} (T : ReadWriter σ) (w : Wire σ) (hf : hidFramer)
    (plen : Nat) (e : Err) (hgo : ¬ (hf.seq > 0 ∧ hf.pos ≠ 64))
    (he : (T.Read w.st 64).2.2 = some e) :
    hidFramer.Read T w hf plen
      = .ret ⟨(T.Read w.st 64).1, w.trace ++ [IOEvent.read (T.Read w.st 64).2.1 (some e)]⟩
          ({ hf with buf := hf.buf.copyFrom (T.Read w.st 64).2.1 }, [], some e) := by
  simp only [hidFramer.Read, hgo, ↓reduceIte, Wire.Read, he]

theorem Read_transport_short {σ : Type} (T : ReadWriter σ) (w : Wire σ) (hf : hidFramer)
    (plen : Nat) (hgo : ¬ (hf.seq > 0 ∧ hf.pos ≠ 64))
    (he : (T.Read w.st 64).2.2 = none) (hl : (T.Read w.st 64).2.1.length ≠ 64) :
    hidFramer.Read T w hf plen
      = .panics ⟨(T.Read w.st 64).1, w.trace ++ [IOEvent.read (T.Read w.st 64).2.1 none]⟩
          "read less than 64 bytes from HID" := by
  simp only [hidFramer.Read, hgo, ↓reduceIte, Wire.Read, he, hl, ne_eq, not_false_eq_true]

/-- The loop of `io.ReadFull` once it holds an error: it stops. -/
theorem readFullLoop_err {σ : Type} (T : ReadWriter σ) (len fuel : Nat) (w : Wire σ)
    (hf : hidFramer) (acc : List Byte) (e : Err) (hlt : acc.length < len) :
    readFullLoop T len fuel w hf acc (some e)
      = .ret w (hf, acc, some (if 0 < acc.length ∧ e = .eof then .unexpectedEOF else e)) := by
  have h1 : ¬ acc.length ≥ len := by omega
  have key : readFullLoop T len fuel w hf acc (some e)
      = if acc.length ≥ len then .ret w (hf, acc, none)
        else if acc.length > 0 ∧ some e = some .eof then .ret w (hf, acc, some .unexpectedEOF)
        else .ret w (hf, acc, some e) := by
    cases fuel <;> (rw [readFullLoop]; simp)
  rw [key, if_neg h1]
  by_cases hc : 0 < acc.length ∧ e = .eof
  · obtain ⟨hc1, hc2⟩ := hc
    subst hc2
    simp [hc1]
  · have hc' : ¬ (acc.length > 0 ∧ some e = some Err.eof) := by
      rintro ⟨a, b⟩
      exact hc ⟨a, by cases b; rfl⟩
    rw [if_neg hc', if_neg hc]

/-- The three ways `hidFramer.Read` ends when it reads from the device: with the
error `readErr` describes, with a panic on a short read, or with the payload
bytes of a good packet. -/
theorem Read_classify {σ : Type} (T : ReadWriter σ) (w : Wire σ) (hf : hidFramer)
    (plen : Nat) (hgo : ¬ (hf.seq > 0 ∧ hf.pos ≠ 64)) :
    (∃ e hf1, readErr hf.seq (T.Read w.st 64).2.1 (T.Read w.st 64).2.2 = some e ∧
      hidFramer.Read T w hf plen = .ret (w.Read T 64).1 (hf1, [], some e)) ∨
    (readErr hf.seq (T.Read w.st 64).2.1 (T.Read w.st 64).2.2 = none ∧
      hidFramer.Read T w hf plen
        = .panics (w.Read T 64).1 "read less than 64 bytes from HID") ∨
    (readErr hf.seq (T.Read w.st 64).2.1 (T.Read w.st 64).2.2 = none ∧
      ∃ hf1 out, hidFramer.Read T w hf plen = .ret (w.Read T 64).1 (hf1, out, none) ∧
        hf1.seq = (hf.seq + 1) % 65536 ∧ out.length = min plen 59 ∧
        hf1.pos = 5 + out.length) := by
  have hw : (w.Read T 64).1
      = ⟨(T.Read w.st 64).1,
          w.trace ++ [IOEvent.read (T.Read w.st 64).2.1 (T.Read w.st 64).2.2]⟩ := rfl
  cases he : (T.Read w.st 64).2.2 with
  | some e =>
    left
    refine ⟨e, { hf with buf := hf.buf.copyFrom (T.Read w.st 64).2.1 }, rfl, ?_⟩
    rw [hw, he]
    exact Read_transport_err T w hf plen e hgo he
  | none =>
    by_cases hl : (T.Read w.st 64).2.1.length = 64
    · have hr : (T.Read w.st 64).2 = ((T.Read w.st 64).2.1, none) := by
        rw [← he]
      have h := Read_packet_cases T w hf plen _ hgo hr hl
      rw [hw, he]
      simp only [readErr, hl, ne_eq, not_true_eq_false, ↓reduceIte, channelIDOf, commandTagOf,
        seqOf]
      generalize uint16BE ((T.Read w.st 64).2.1.getD 0 0) ((T.Read w.st 64).2.1.getD 1 0) = c
        at h ⊢
      generalize ((T.Read w.st 64).2.1.getD 2 0).val = t at h ⊢
      generalize uint16BE ((T.Read w.st 64).2.1.getD 3 0) ((T.Read w.st 64).2.1.getD 4 0) = s
        at h ⊢
      by_cases h1 : c = 0x0101
      · by_cases h2 : t = 0x05
        · by_cases h3 : s = hf.seq
          · rw [if_neg (not_not.mpr h1), if_neg (not_not.mpr h2), if_neg (not_not.mpr h3)] at h
            right; right
            refine ⟨by simp [h1, h2, h3], _, _, h, rfl, ?_, rfl⟩
            simp [hl]
          · rw [if_neg (not_not.mpr h1), if_neg (not_not.mpr h2), if_pos h3] at h
            left
            exact ⟨_, _, by simp [h1, h2, h3], h⟩
        · rw [if_neg (not_not.mpr h1), if_pos h2] at h
          left
          exact ⟨_, _, by simp [h1, h2], h⟩
      · rw [if_pos h1] at h
        left
        exact ⟨_, _, by simp [h1], h⟩
    · right; left
      refine ⟨by simp [readErr, hl], ?_⟩
      rw [hw, he]
      exact Read_transport_short T w hf plen hgo he hl

theorem readFullLoop_done {σ : Type} (T : ReadWriter σ) (len fuel : Nat) (w : Wire σ)
    (hf : hidFramer) (acc : List Byte) (h : ¬ acc.length < len) :
    readFullLoop T len fuel w hf acc none = .ret w (hf, acc, none) := by
  have h2 : acc.length ≥ len := by omega
  cases fuel <;> (rw [readFullLoop]; simp [h, h2])

theorem readFullLoop_zero {σ : Type} (T : ReadWriter σ) (len : Nat) (w : Wire σ)
    (hf : hidFramer) (acc : List Byte) (h : acc.length < len) :
    readFullLoop T len 0 w hf acc none = .hang w := by
  rw [readFullLoop]; simp [h]

theorem Run_nil {σ α β : Type} (k : Nat) (w : Wire σ) (o : Outcome σ (α × β × Option Err))
    (h1 : o.wire = w) (h2 : o.errOf = none) :
    ∃ evs, o.wire.trace = w.trace ++ evs ∧ writesOf evs = [] ∧ Run k evs o :=
  ⟨[], by simp [h1], rfl, Or.inl ⟨trivial, h2⟩⟩

theorem fault_read (k : Nat) (d : List Byte) (err : Option Err) :
    (IOEvent.read d err).fault k = readErr (k % 65536) d err := rfl

/-- The run of `io.ReadFull` for the body of the response: no call on the device
but the last gives rise to an error, and that error is returned, `io.EOF` as
`io.ErrUnexpectedEOF`. -/
theorem readFullLoop_run {σ : Type} (T : ReadWriter σ) (len : Nat) :
    ∀ (fuel : Nat) (w : Wire σ) (hf : hidFramer) (acc : List Byte) (k : Nat),
      hf.seq = k % 65536 → 0 < k → (0 < acc.length ∨ (hf.seq > 0 ∧ hf.pos < 64)) →
      ∃ evs, (readFullLoop T len fuel w hf acc none).wire.trace = w.trace ++ evs ∧
        writesOf evs = [] ∧ Run k evs (readFullLoop T len fuel w hf acc none) := by
  intro fuel
  induction fuel with
  | zero =>
    intro w hf acc k _ _ _
    by_cases hc : acc.length < len
    · rw [readFullLoop_zero T len w hf acc hc]
      exact Run_nil k w _ rfl rfl
    · rw [readFullLoop_done T len 0 w hf acc hc]
      exact Run_nil k w _ rfl rfl
  | succ fuel ih =>
    intro w hf acc k hseq hk hJ
    by_cases hc : acc.length < len
    · have hstep : readFullLoop T len (fuel + 1) w hf acc none
          = match hf.Read T w (len - acc.length) with
            | .panics w1 m => .panics w1 m
            | .hang w1 => .hang w1
            | .ret w1 (hf1, out, err1) => readFullLoop T len fuel w1 hf1 (acc ++ out) err1 := by
        rw [readFullLoop]
        simp [hc]
      rw [hstep]
      by_cases hgo : hf.seq > 0 ∧ hf.pos ≠ 64
      · by_cases h64 : hf.pos > 64
        · rw [Read_drain_panics T w hf _ hgo.1 h64]
          exact Run_nil k w _ rfl rfl
        · have hlt : hf.pos < 64 := by omega
          rw [Read_drain T w hf _ hgo.1 hlt]
          simp only
          refine ih w ⟨hf.seq, hf.buf, _⟩ _ k hseq hk (Or.inl ?_)
          have hb := hf.buf.2
          simp only [List.length_append, List.length_take, List.length_drop, hb]
          omega
      · have hacc : 0 < acc.length := by
          rcases hJ with h | ⟨h1, h2⟩
          · exact h
          · exact absurd ⟨h1, by omega⟩ hgo
        have hwr : (w.Read T 64).1.trace
            = w.trace ++ [IOEvent.read (T.Read w.st 64).2.1 (T.Read w.st 64).2.2] := rfl
        rcases Read_classify T w hf (len - acc.length) hgo with
          ⟨e, hf1, he, hR⟩ | ⟨he, hR⟩ | ⟨he, hf1, out, hR, hs1, hol, _⟩
        · rw [hR]
          simp only [List.append_nil]
          rw [readFullLoop_err T len fuel _ hf1 acc e hc]
          refine ⟨[IOEvent.read (T.Read w.st 64).2.1 (T.Read w.st 64).2.2], hwr, rfl, Or.inr ?_⟩
          refine ⟨[], _, e, rfl, trivial, ?_, ?_⟩
          · show readErr ((k + 0) % 65536) _ _ = _
            rw [Nat.add_zero, ← hseq]
            exact he
          · simp only [Outcome.errOf, asReturned, readCount, readsOf, List.length_nil,
              Nat.add_zero, hacc, hk, true_and, and_true]
        · rw [hR]
          refine ⟨[IOEvent.read (T.Read w.st 64).2.1 (T.Read w.st 64).2.2], hwr, rfl, Or.inl ?_⟩
          refine ⟨⟨?_, trivial⟩, rfl⟩
          rw [fault_read, ← hseq]
          exact he
        · rw [hR]
          simp only
          have hs2 : hf1.seq = (k + 1) % 65536 := by rw [hs1, hseq]; omega
          obtain ⟨evs, h1, h2, h3⟩ := ih (w.Read T 64).1 hf1 (acc ++ out) (k + 1) hs2 (by omega)
            (Or.inl (by simp only [List.length_append]; omega))
          have hx : (IOEvent.read (T.Read w.st 64).2.1 (T.Read w.st 64).2.2).fault k = none := by
            rw [fault_read, ← hseq]
            exact he
          refine ⟨IOEvent.read (T.Read w.st 64).2.1 (T.Read w.st 64).2.2 :: evs, ?_, ?_, ?_⟩
          · rw [h1, hwr, List.append_assoc]; rfl
          · simpa [writesOf] using h2
          · rcases h3 with ⟨hf3, ho⟩ | ⟨pre, x, e, hp, hf3, hx3, ho⟩
            · exact Or.inl ⟨⟨hx, hf3⟩, ho⟩
            · refine Or.inr ⟨IOEvent.read (T.Read w.st 64).2.1 (T.Read w.st 64).2.2 :: pre, x, e,
                by rw [hp]; rfl, ⟨hx, hf3⟩, ?_, ?_⟩
              · have e2 : k + readCount
                    (IOEvent.read (T.Read w.st 64).2.1 (T.Read w.st 64).2.2 :: pre)
                    = k + 1 + readCount pre := by
                  simp [readCount, readsOf]; omega
                rw [e2]; exact hx3
              · have e2 : k + readCount
                    (IOEvent.read (T.Read w.st 64).2.1 (T.Read w.st 64).2.2 :: pre)
                    = k + 1 + readCount pre := by
                  simp [readCount, readsOf]; omega
                rw [e2]; exact ho
    · rw [readFullLoop_done T len _ w hf acc hc]
      exact Run_nil k w _ rfl rfl

theorem readFullLoop_step {σ : Type} (T : ReadWriter σ) (len fuel : Nat) (w : Wire σ)
    (hf : hidFramer) (acc : List Byte) (hc : acc.length < len) :
    readFullLoop T len (fuel + 1) w hf acc none
      = match hf.Read T w (len - acc.length) with
        | .panics w1 m => .panics w1 m
        | .hang w1 => .hang w1
        | .ret w1 (hf1, out, err1) => readFullLoop T len fuel w1 hf1 (acc ++ out) err1 := by
  rw [readFullLoop]
  simp [hc]

/-- The first `io.ReadFull` of an exchange, for the 2-byte length, on a framer
that was `Reset`: it makes one read call on the device. -/
theorem ReadFull_first {σ : Type} (T : ReadWriter σ) (w : Wire σ) (hf : hidFramer)
    (h0 : hf.seq = 0) :
    (∃ e hf1, readErr 0 (T.Read w.st 64).2.1 (T.Read w.st 64).2.2 = some e ∧
      ReadFull T w hf 2 = .ret (w.Read T 64).1 (hf1, [], some e)) ∨
    (readErr 0 (T.Read w.st 64).2.1 (T.Read w.st 64).2.2 = none ∧
      ReadFull T w hf 2 = .panics (w.Read T 64).1 "read less than 64 bytes from HID") ∨
    (readErr 0 (T.Read w.st 64).2.1 (T.Read w.st 64).2.2 = none ∧
      ∃ hf1 out, ReadFull T w hf 2 = .ret (w.Read T 64).1 (hf1, out, none) ∧
        hf1.seq = 1 ∧ hf1.pos = 7 ∧ out.length = 2) := by
  have hgo : ¬ (hf.seq > 0 ∧ hf.pos ≠ 64) := by omega
  have hstep : ReadFull T w hf 2
      = match hf.Read T w 2 with
        | .panics w1 m => .panics w1 m
        | .hang w1 => .hang w1
        | .ret w1 (hf1, out, err1) => readFullLoop T 2 2 w1 hf1 ([] ++ out) err1 :=
    readFullLoop_step T 2 2 w hf [] (by simp)
  rw [hstep]
  rcases Read_classify T w hf 2 hgo with
    ⟨e, hf1, he, hR⟩ | ⟨he, hR⟩ | ⟨he, hf1, out, hR, hs1, hol, hpos⟩
  · left
    rw [h0] at he
    refine ⟨e, hf1, he, ?_⟩
    rw [hR]
    simp only [List.append_nil]
    rw [readFullLoop_err T 2 2 _ hf1 [] e (by simp)]
    simp
  · right; left
    rw [h0] at he
    refine ⟨he, ?_⟩
    rw [hR]
  · right; right
    rw [h0] at he
    have hol2 : out.length = 2 := by rw [hol]; rfl
    refine ⟨he, hf1, out, ?_, by rw [hs1, h0], by rw [hpos, hol2], hol2⟩
    rw [hR]
    simp only [List.nil_append]
    exact readFullLoop_done T 2 2 _ hf1 out (by omega)

theorem Fine_writes : ∀ (evs : List IOEvent) (k : Nat), (∀ x ∈ evs, x.err = none) →
    readsOf evs = [] → Fine k evs := by
  intro evs
  induction evs with
  | nil => intro _ _ _; trivial
  | cons x xs ih =>
    intro k he hr
    cases x with
    | write r n e =>
      have h1 : e = none := he _ (List.mem_cons_self _ _)
      exact ⟨h1, ih _ (fun y hy => he y (List.mem_cons_of_mem _ hy)) (by simpa [readsOf] using hr)⟩
    | read d e => simp [readsOf] at hr

theorem Run_prepend {σ α β : Type} (k : Nat) (P evs : List IOEvent)
    (o : Outcome σ (α × β × Option Err)) (hP : Fine k P)
    (hr : Run (k + readCount P) evs o) : Run k (P ++ evs) o := by
  rcases hr with ⟨hf, ho⟩ | ⟨pre, x, e, hp, hf, hx, ho⟩
  · exact Or.inl ⟨(Fine_append P evs k).mpr ⟨hP, hf⟩, ho⟩
  · refine Or.inr ⟨P ++ pre, x, e, by rw [hp, List.append_assoc],
      (Fine_append P pre k).mpr ⟨hP, hf⟩, ?_, ?_⟩
    · rw [readCount_append, ← Nat.add_assoc]; exact hx
    · rw [readCount_append, ← Nat.add_assoc]; exact ho

theorem Run_congr {σ α β α' β' : Type} (k : Nat) (evs : List IOEvent)
    (o : Outcome σ (α × β × Option Err)) (o' : Outcome σ (α' × β' × Option Err))
    (h : o'.errOf = o.errOf) (hr : Run k evs o) : Run k evs o' := by
  rcases hr with ⟨hf, ho⟩ | ⟨pre, x, e, hp, hf, hx, ho⟩
  · exact Or.inl ⟨hf, by rw [h, ho]⟩
  · exact Or.inr ⟨pre, x, e, hp, hf, hx, by rw [h, ho]⟩

/-- The calls `apduFramer.Exchange` makes on the device and what it returns fit
together: only the last call can give rise to a transport or framing error, and
that error is what is returned, `io.EOF` as `io.ErrUnexpectedEOF` once the length
prefix was read. -/
theorem Exchange_run {σ : Type} (T : ReadWriter σ) (w : Wire σ) (af : apduFramer)
    (apdu : APDU) (hn : apdu.Payload.length ≤ 255) :
    ∃ evs, (af.Exchange T w apdu).wire.trace = w.trace ++ evs ∧
      Run 0 evs (af.Exchange T w apdu) := by
  have hn2 : ¬ apdu.Payload.length > 255 := by omega
  obtain ⟨w0, n, err, evW, hS, htr, hr, _, _, hnone, hsome⟩ :=
    sendAll_events T apdu.data.length
      (frames (prefixed apdu.data).length 0 (prefixed apdu.data)) w
  have hW : hidFramer.Write T w af.hf.Reset apdu.data = .ret w0 (n, err) := by
    rw [Write_eq_sendAll]; exact hS
  have hrc : readCount evW = 0 := by simp [readCount, hr]
  cases err with
  | some e =>
    obtain ⟨pre, r, hp, hc⟩ := hsome e rfl
    have hrp : readsOf pre = [] := by
      have := hr
      rw [hp, readsOf_append] at this
      exact (List.append_eq_nil.mp this).1
    have hex : af.Exchange T w apdu = .ret w0 ({ af with hf := af.hf.Reset }, [], some e) := by
      unfold apduFramer.Exchange
      simp only [hn2, ↓reduceIte, hW]
    rw [hex]
    refine ⟨evW, htr, Or.inr ⟨pre, _, e, hp, Fine_writes pre 0 hc hrp, rfl, ?_⟩⟩
    simp [Outcome.errOf, asReturned, readCount, hrp]
  | none =>
    have hfW : Fine 0 evW := Fine_writes evW 0 (hnone rfl) hr
    have hwr : (w0.Read T 64).1.trace
        = w.trace ++ (evW ++ [IOEvent.read (T.Read w0.st 64).2.1 (T.Read w0.st 64).2.2]) := by
      rw [← List.append_assoc, ← htr]; rfl
    have hfx : ∀ v, readErr 0 (T.Read w0.st 64).2.1 (T.Read w0.st 64).2.2 = v →
        (IOEvent.read (T.Read w0.st 64).2.1 (T.Read w0.st 64).2.2).fault (0 + readCount evW)
          = v := by
      intro v hv
      rw [hrc, fault_read]
      exact hv
    rcases ReadFull_first T w0 af.hf.Reset rfl with
      ⟨e, hf1, he, hR⟩ | ⟨he, hR⟩ | ⟨he, hf1, out, hR, hs1, hpos, _⟩
    · have hex : af.Exchange T w apdu
          = .ret (w0.Read T 64).1 ({ hf := hf1, buf := af.buf.copyFrom [] }, [], some e) := by
        unfold apduFramer.Exchange
        simp only [hn2, ↓reduceIte, hW, hR]
      rw [hex]
      refine ⟨_, hwr, Or.inr ⟨evW, _, e, rfl, hfW, hfx _ he, ?_⟩⟩
      simp [Outcome.errOf, asReturned, hrc]
    · have hex : af.Exchange T w apdu
          = .panics (w0.Read T 64).1 "read less than 64 bytes from HID" := by
        unfold apduFramer.Exchange
        simp only [hn2, ↓reduceIte, hW, hR]
      rw [hex]
      exact ⟨_, hwr, Or.inl ⟨(Fine_append _ _ 0).mpr ⟨hfW, hfx _ he, trivial⟩, rfl⟩⟩
    · have hP : Fine 0 (evW ++ [IOEvent.read (T.Read w0.st 64).2.1 (T.Read w0.st 64).2.2]) :=
        (Fine_append _ _ 0).mpr ⟨hfW, hfx _ he, trivial⟩
      have hcP : 0 + readCount
          (evW ++ [IOEvent.read (T.Read w0.st 64).2.1 (T.Read w0.st 64).2.2]) = 1 := by
        rw [readCount_append, hrc]; rfl
      obtain ⟨evs2, h1, _, hrun⟩ := readFullLoop_run T
        (uint16BE ((af.buf.copyFrom out).idx 0) ((af.buf.copyFrom out).idx 1))
        (uint16BE ((af.buf.copyFrom out).idx 0) ((af.buf.copyFrom out).idx 1) + 1)
        (w0.Read T 64).1 hf1 [] 1 (by rw [hs1]) (by omega) (Or.inr ⟨by omega, by omega⟩)
      have hfold : readFullLoop T
          (uint16BE ((af.buf.copyFrom out).idx 0) ((af.buf.copyFrom out).idx 1))
          (uint16BE ((af.buf.copyFrom out).idx 0) ((af.buf.copyFrom out).idx 1) + 1)
          (w0.Read T 64).1 hf1 [] none
          = ReadFull T (w0.Read T 64).1 hf1
            (uint16BE ((af.buf.copyFrom out).idx 0) ((af.buf.copyFrom out).idx 1)) := rfl
      rw [hfold] at h1 hrun
      have hrun2 : Run (0 + readCount
          (evW ++ [IOEvent.read (T.Read w0.st 64).2.1 (T.Read w0.st 64).2.2])) evs2
          (ReadFull T (w0.Read T 64).1 hf1
            (uint16BE ((af.buf.copyFrom out).idx 0) ((af.buf.copyFrom out).idx 1))) := by
        rw [hcP]; exact hrun
      have hex : af.Exchange T w apdu
          = match ReadFull T (w0.Read T 64).1 hf1
              (uint16BE ((af.buf.copyFrom out).idx 0) ((af.buf.copyFrom out).idx 1)) with
            | .panics w3 m => .panics w3 m
            | .hang w3 => .hang w3
            | .ret w3 (hf2, got2, err) =>
              .ret w3 ({ hf := { hf2 with pos := 0 }, buf := af.buf.copyFrom out },
                goCopy (List.replicate
                  (uint16BE ((af.buf.copyFrom out).idx 0) ((af.buf.copyFrom out).idx 1)) 0) got2,
                err) := by
        unfold apduFramer.Exchange
        simp only [hn2, ↓reduceIte, hW, hR]
      rw [hex]
      refine ⟨(evW ++ [IOEvent.read (T.Read w0.st 64).2.1 (T.Read w0.st 64).2.2]) ++ evs2,
        ?_, ?_⟩
      · cases hR2 : ReadFull T (w0.Read T 64).1 hf1
            (uint16BE ((af.buf.copyFrom out).idx 0) ((af.buf.copyFrom out).idx 1)) with
        | panics w3 m =>
          rw [hR2] at h1
          simp only [Outcome.wire] at h1 ⊢
          rw [h1, hwr, List.append_assoc]
        | hang w3 =>
          rw [hR2] at h1
          simp only [Outcome.wire] at h1 ⊢
          rw [h1, hwr, List.append_assoc]
        | ret w3 a =>
          rw [hR2] at h1
          simp only [Outcome.wire] at h1 ⊢
          rw [h1, hwr, List.append_assoc]
      · apply Run_prepend 0 _ evs2 _ hP
        refine Run_congr _ _ _ _ ?_ hrun2
        cases ReadFull T (w0.Read T 64).1 hf1
            (uint16BE ((af.buf.copyFrom out).idx 0) ((af.buf.copyFrom out).idx 1)) <;> rfl

theorem NanoS_Exchange_err {σ : Type} (T : ReadWriter σ) (w w1 : Wire σ) (n : NanoS)
    (cmd p1 p2 : Byte) (data : List Byte) (af1 : apduFramer) (resp : List Byte) (e : Err)
    (hE : n.device.Exchange T w { CLA := 0xe0, INS := cmd, P1 := p1, P2 := p2, Payload := data }
      = .ret w1 (af1, resp, some e)) :
    NanoS.Exchange T w n cmd p1 p2 data = .ret w1 (⟨af1⟩, Slice.nil, some e) := by
  unfold NanoS.Exchange
  simp only [hE]

theorem errOf_some {σ α β : Type} (o : Outcome σ (α × β × Option Err)) (e : Err)
    (h : o.errOf = some e) : ∃ a b, o = .ret o.wire (a, b, some e) := by
  cases o with
  | ret w1 r =>
    obtain ⟨a, b, c⟩ := r
    simp only [Outcome.errOf] at h
    subst h
    exact ⟨a, b, rfl⟩
  | panics w1 m => cases h
  | hang w1 => cases h


/-! ## Signatures, addresses and the commands -/

theorem copyFrom_exact {n : Nat} (a : Arr n) (src : List Byte) (h : src.length = n) :
    (a.copyFrom src).1 = src := by
  have := a.2
  simp [Arr.copyFrom, goCopy, h, this, List.take_of_length_le, List.drop_of_length_le]

theorem hexEncode_append (a b : List Byte) : hexEncode (a ++ b) = hexEncode a ++ hexEncode b := by
  simp [hexEncode]

theorem hexEncode_length (a : List Byte) : (hexEncode a).length = 2 * a.length := by
  induction a with
  | nil => rfl
  | cons x xs ih =>
    have : hexEncode (x :: xs) = hexEncode [x] ++ hexEncode xs := hexEncode_append [x] xs
    rw [this, List.length_append, ih]
    simp [hexEncode]
    omega

theorem getD_last_of_length (l : List Byte) (n : Nat) (h : l.length = n + 1) :
    l.drop n = [l.getD n 0] := by
  apply List.ext_getElem
  · simp [h]
  · intro i h1 h2
    have hi : i = 0 := by simpa using h2
    subst hi
    simp [List.getD_eq_getElem?_getD, List.getElem?_eq_getElem (show n < l.length by omega)]

/-- `NanoS.Exchange` on a response that ends with the success status. -/
theorem NanoS_Exchange_ok {σ : Type} (T : ReadWriter σ) (w w1 : Wire σ) (n : NanoS)
    (cmd p1 p2 : Byte) (data : List Byte) (af1 : apduFramer) (body : List Byte)
    (hE : n.device.Exchange T w { CLA := 0xe0, INS := cmd, P1 := p1, P2 := p2, Payload := data }
      = .ret w1 (af1, body ++ [0x90, 0x00], none)) :
    NanoS.Exchange T w n cmd p1 p2 data
      = .ret w1 (⟨af1⟩, ⟨body ++ [0x90, 0x00], body.length⟩, none) := by
  rw [NanoS_Exchange_status T w w1 n cmd p1 p2 data af1 body 0x90 0x00 hE]
  rfl

theorem NanoS_Exchange_wire {σ : Type} (T : ReadWriter σ) (w : Wire σ) (n : NanoS)
    (cmd p1 p2 : Byte) (data : List Byte) :
    (NanoS.Exchange T w n cmd p1 p2 data).wire
      = (n.device.Exchange T w
          { CLA := 0xe0, INS := cmd, P1 := p1, P2 := p2, Payload := data }).wire := by
  unfold NanoS.Exchange
  cases n.device.Exchange T w { CLA := 0xe0, INS := cmd, P1 := p1, P2 := p2, Payload := data } with
  | panics w1 m => rfl
  | hang w1 => rfl
  | ret w1 a =>
    obtain ⟨af1, resp, err⟩ := a
    cases err with
    | some e => rfl
    | none =>
      simp only
      split_ifs <;> rfl

/-- The bytes `apduFramer.Exchange` writes to a device whose writes succeed. -/
theorem Exchange_written {σ : Type} (T : ReadWriter σ) (w : Wire σ) (af : apduFramer)
    (apdu : APDU) (hn : apdu.Payload.length ≤ 255) (hT : WritesSucceed T) :
    payloads (writesOf ((af.Exchange T w apdu).wire.since w)) = prefixed apdu.data := by
  obtain ⟨w0, n, err, evW, _, htr, _, hok, hsucc, evR, hex, hwr, _⟩ :=
    Exchange_trace T w af apdu hn
  rw [since_append w _ (evW ++ evR) (by rw [hex, htr, List.append_assoc]), writesOf_append, hwr,
    List.append_nil, hok (hsucc hT), payloads_frames _ _ _ (Nat.le_refl _)]

theorem GetAddress_wire {σ : Type} (T : ReadWriter σ) (w : Wire σ) (n : NanoS)
    (deriveIndex : Nat) (silent : Bool) :
    (NanoS.GetAddress T w n deriveIndex silent).wire
      = (n.device.Exchange T w
          { CLA := 0xe0, INS := 0x02, P1 := if silent then 1 else 0, P2 := 0,
            Payload := le32 deriveIndex }).wire := by
  rw [← NanoS_Exchange_wire]
  unfold NanoS.GetAddress
  simp only
  cases NanoS.Exchange T w n 0x02 (if silent then 1 else 0) 0 (le32 deriveIndex) with
  | panics w1 m => rfl
  | hang w1 => rfl
  | ret w1 a =>
    obtain ⟨n1, resp, err⟩ := a
    cases err with
    | some e => rfl
    | none =>
      simp only
      split_ifs <;> rfl

theorem SignHash_wire {σ : Type} (T : ReadWriter σ) (w : Wire σ) (n : NanoS)
    (hash : Arr 32) (deriveIndex : Nat) (silent : Bool) :
    (NanoS.SignHash T w n hash deriveIndex silent).wire
      = (n.device.Exchange T w
          { CLA := 0xe0, INS := 0x04, P1 := if silent then 1 else 0, P2 := 0,
            Payload := le32 deriveIndex ++ hash.1 }).wire := by
  rw [← NanoS_Exchange_wire]
  unfold NanoS.SignHash
  simp only
  cases NanoS.Exchange T w n 0x04 (if silent then 1 else 0) 0 (le32 deriveIndex ++ hash.1) with
  | panics w1 m => rfl
  | hang w1 => rfl
  | ret w1 a =>
    obtain ⟨n1, resp, err⟩ := a
    cases err with
    | some e => rfl
    | none =>
      simp only
      split <;> rfl

/-! ## Exchanges do not depend on the state of the framer -/

theorem Write_indep {σ : Type} (T : ReadWriter σ) (w : Wire σ) (hf hf' : hidFramer)
    (p : List Byte) : hidFramer.Write T w hf p = hidFramer.Write T w hf' p := rfl

theorem copyFrom_indep {n : Nat} (a a' : Arr n) (src : List Byte) (h : n ≤ src.length) :
    a.copyFrom src = a'.copyFrom src := by
  apply Subtype.ext
  have h1 := a.2
  have h2 := a'.2
  simp [Arr.copyFrom, goCopy, h1, h2, Nat.min_eq_left h, List.drop_of_length_le]

/-- A `hidFramer.Read` on a framer that was `Reset` ends in the same way whatever
the buffer and the read position of the framer. -/
theorem Read_indep {σ : Type} (T : ReadWriter σ) (w : Wire σ) (hf hf' : hidFramer)
    (plen : Nat) (h0 : hf.seq = 0) (h0' : hf'.seq = 0) :
    (∃ w1 hf1 out, hidFramer.Read T w hf plen = .ret w1 (hf1, out, none) ∧
      hidFramer.Read T w hf' plen = .ret w1 (hf1, out, none) ∧ out.length = min plen 59) ∨
    (∃ w1 e hfa hfb, hidFramer.Read T w hf plen = .ret w1 (hfa, [], some e) ∧
      hidFramer.Read T w hf' plen = .ret w1 (hfb, [], some e)) ∨
    (∃ w1 m, hidFramer.Read T w hf plen = .panics w1 m ∧
      hidFramer.Read T w hf' plen = .panics w1 m) := by
  have hgo : ¬ (hf.seq > 0 ∧ hf.pos ≠ 64) := by omega
  have hgo' : ¬ (hf'.seq > 0 ∧ hf'.pos ≠ 64) := by omega
  cases he : (T.Read w.st 64).2.2 with
  | some e =>
    right; left
    exact ⟨_, e, _, _, Read_transport_err T w hf plen e hgo he,
      Read_transport_err T w hf' plen e hgo' he⟩
  | none =>
    by_cases hl : (T.Read w.st 64).2.1.length = 64
    · have hr : (T.Read w.st 64).2 = ((T.Read w.st 64).2.1, none) := by rw [← he]
      have h := Read_packet_cases T w hf plen _ hgo hr hl
      have h' := Read_packet_cases T w hf' plen _ hgo' hr hl
      rw [h0] at h
      rw [h0'] at h'
      generalize uint16BE ((T.Read w.st 64).2.1.getD 0 0) ((T.Read w.st 64).2.1.getD 1 0) = c
        at h h'
      generalize ((T.Read w.st 64).2.1.getD 2 0).val = t at h h'
      generalize uint16BE ((T.Read w.st 64).2.1.getD 3 0) ((T.Read w.st 64).2.1.getD 4 0) = s
        at h h'
      by_cases h1 : c ≠ 0x0101
      · rw [if_pos h1] at h h'
        right; left
        exact ⟨_, _, _, _, h, h'⟩
      · rw [if_neg h1] at h h'
        by_cases h2 : t ≠ 0x05
        · rw [if_pos h2] at h h'
          right; left
          exact ⟨_, _, _, _, h, h'⟩
        · rw [if_neg h2] at h h'
          by_cases h3 : s ≠ 0
          · rw [if_pos h3] at h h'
            right; left
            exact ⟨_, _, _, _, h, h'⟩
          · rw [if_neg h3] at h h'
            left
            exact ⟨_, _, _, h, h', by simp [hl]⟩
    · right; right
      exact ⟨_, _, Read_transport_short T w hf plen hgo he hl,
        Read_transport_short T w hf' plen hgo' he hl⟩

/-- The first `io.ReadFull` of an exchange ends in the same way whatever the
state of the framer before `Reset`. -/
theorem ReadFull_first_indep {σ : Type} (T : ReadWriter σ) (w : Wire σ) (hf hf' : hidFramer)
    (h0 : hf.seq = 0) (h0' : hf'.seq = 0) :
    (∃ w1 hf1 out, ReadFull T w hf 2 = .ret w1 (hf1, out, none) ∧
      ReadFull T w hf' 2 = .ret w1 (hf1, out, none) ∧ out.length = 2) ∨
    (∃ w1 e hfa hfb, ReadFull T w hf 2 = .ret w1 (hfa, [], some e) ∧
      ReadFull T w hf' 2 = .ret w1 (hfb, [], some e)) ∨
    (∃ w1 m, ReadFull T w hf 2 = .panics w1 m ∧ ReadFull T w hf' 2 = .panics w1 m) := by
  have hstep : ∀ g : hidFramer, ReadFull T w g 2
      = match g.Read T w 2 with
        | .panics w1 m => .panics w1 m
        | .hang w1 => .hang w1
        | .ret w1 (hf1, out, err1) => readFullLoop T 2 2 w1 hf1 ([] ++ out) err1 :=
    fun g => readFullLoop_step T 2 2 w g [] (by simp)
  rw [hstep hf, hstep hf']
  rcases Read_indep T w hf hf' 2 h0 h0' with
    ⟨w1, hf1, out, h, h', hol⟩ | ⟨w1, e, hfa, hfb, h, h'⟩ | ⟨w1, m, h, h'⟩
  · left
    have hol2 : out.length = 2 := by rw [hol]; rfl
    rw [h, h']
    simp only [List.nil_append]
    rw [readFullLoop_done T 2 2 w1 hf1 out (by omega)]
    exact ⟨w1, hf1, out, rfl, rfl, hol2⟩
  · right; left
    rw [h, h']
    simp only [List.append_nil]
    rw [readFullLoop_err T 2 2 w1 hfa [] e (by simp), readFullLoop_err T 2 2 w1 hfb [] e (by simp)]
    exact ⟨w1, e, hfa, hfb, by simp, by simp⟩
  · right; right
    rw [h, h']
    exact ⟨w1, m, rfl, rfl⟩

/-- `apduFramer.Exchange` returns the same, and leaves the device in the same
state, whatever the state of the framer before the call. -/
theorem Exchange_indep {σ : Type} (T : ReadWriter σ) (w : Wire σ) (af af' : apduFramer)
    (apdu : APDU) :
    (af.Exchange T w apdu).result = (af'.Exchange T w apdu).result ∧
    ∀ w1 af1 resp, af.Exchange T w apdu = .ret w1 (af1, resp, none) →
      af1.hf.pos = 0 ∧ af'.Exchange T w apdu = .ret w1 (af1, resp, none) := by
  by_cases hn : apdu.Payload.length > 255
  · have h1 : ∀ a : apduFramer, a.Exchange T w apdu
        = .panics w "APDU payload cannot exceed 255 bytes" := by
      intro a
      unfold apduFramer.Exchange
      simp only [hn, ↓reduceIte]
    rw [h1 af, h1 af']
    exact ⟨rfl, fun w1 af1 resp h => by cases h⟩
  · obtain ⟨w0, n, err, evs, hW, _⟩ := Write_spec T w af.hf.Reset apdu.data
    have hW' : hidFramer.Write T w af'.hf.Reset apdu.data = .ret w0 (n, err) := hW
    cases err with
    | some e =>
      have h1 : af.Exchange T w apdu = .ret w0 ({ af with hf := af.hf.Reset }, [], some e) := by
        unfold apduFramer.Exchange
        simp only [hn, ↓reduceIte, hW]
      have h2 : af'.Exchange T w apdu
          = .ret w0 ({ af' with hf := af'.hf.Reset }, [], some e) := by
        unfold apduFramer.Exchange
        simp only [hn, ↓reduceIte, hW']
      rw [h1, h2]
      exact ⟨rfl, fun w1 af1 resp h => by cases h⟩
    | none =>
      rcases ReadFull_first_indep T w0 af.hf.Reset af'.hf.Reset rfl rfl with
        ⟨w1, hf1, out, h, h', hol⟩ | ⟨w1, e, hfa, hfb, h, h'⟩ | ⟨w1, m, h, h'⟩
      · have hc : af.buf.copyFrom out = af'.buf.copyFrom out :=
          copyFrom_indep _ _ out (by omega)
        have heq : af.Exchange T w apdu = af'.Exchange T w apdu := by
          unfold apduFramer.Exchange
          simp only [hn, ↓reduceIte, hW, hW', h, h', hc]
        rw [heq]
        refine ⟨rfl, fun w2 af1 resp hret => ⟨?_, hret⟩⟩
        rw [← heq] at hret
        unfold apduFramer.Exchange at hret
        simp only [hn, ↓reduceIte, hW, h] at hret
        split at hret
        · cases hret
        · cases hret
        · cases hret
          rfl
      · have h1 : af.Exchange T w apdu
            = .ret w1 ({ hf := hfa, buf := af.buf.copyFrom [] }, [], some e) := by
          unfold apduFramer.Exchange
          simp only [hn, ↓reduceIte, hW, h]
        have h2 : af'.Exchange T w apdu
            = .ret w1 ({ hf := hfb, buf := af'.buf.copyFrom [] }, [], some e) := by
          unfold apduFramer.Exchange
          simp only [hn, ↓reduceIte, hW', h']
        rw [h1, h2]
        exact ⟨rfl, fun w1 af1 resp h => by cases h⟩
      · have h1 : af.Exchange T w apdu = .panics w1 m := by
          unfold apduFramer.Exchange
          simp only [hn, ↓reduceIte, hW, h]
        have h2 : af'.Exchange T w apdu = .panics w1 m := by
          unfold apduFramer.Exchange
          simp only [hn, ↓reduceIte, hW', h']
        rw [h1, h2]
        exact ⟨rfl, fun w1 af1 resp h => by cases h⟩

theorem result_wire {σ α β γ : Type} (o : Outcome σ (α × β × γ)) : o.result.wire = o.wire := by
  cases o <;> rfl

/-! ## The claims on records, errors, commands and isolation -/

/-- C11, as stated, fails: `hidFramer.Write` hands the 3-byte message `01 02 03`
to the device as one record of 10 bytes (5 header bytes, the 2-byte length prefix
and the message), not as a 64-byte record. -/
theorem Write_record_not_padded :
    writesOf ((hidFramer.Write scripted ⟨[], []⟩ hidFramer.fresh [1, 2, 3]).wire.since ⟨[], []⟩)
        = [[0x01, 0x01, 0x05, 0, 0, 0, 3, 1, 2, 3]] ∧
    ¬ ∀ r ∈ writesOf
        ((hidFramer.Write scripted ⟨[], []⟩ hidFramer.fresh [1, 2, 3]).wire.since ⟨[], []⟩),
      r.length = 64 := by
  have h : writesOf
      ((hidFramer.Write scripted ⟨[], []⟩ hidFramer.fresh [1, 2, 3]).wire.since ⟨[], []⟩)
      = [[0x01, 0x01, 0x05, 0, 0, 0, 3, 1, 2, 3]] := by rfl
  refine ⟨h, ?_⟩
  rw [h]
  intro hall
  have := hall _ (List.mem_singleton.mpr rfl)
  simp at this

/-- C11, amended: the record number `i` that `hidFramer.Write` hands to the device
is the 5 header bytes followed by the chunk, the bytes `59*i .. 59*i+58` of the
length-prefixed message, with no padding: it has `5 + min 59 (L + 2 - 59*i)`
bytes, between 6 and 64, so every record but the last has 64 bytes and the last
one has 64 bytes only when its chunk is full. -/
theorem Write_record_lengths {σ : Type} (T : ReadWriter σ) (w : Wire σ) (hf : hidFramer)
    (p : List Byte) (i : Nat) (r : List Byte)
    (hr : (writesOf ((hidFramer.Write T w hf p).wire.since w))[i]? = some r) :
    r.take 5 = [0x01, 0x01, 0x05, r.getD 3 0, r.getD 4 0] ∧
      r.drop 5 = ((prefixed p).drop (59 * i)).take 59 ∧
      r.length = 5 + min 59 (p.length + 2 - 59 * i) ∧ 6 ≤ r.length ∧ r.length ≤ 64 ∧
      (i + 1 < (p.length + 2 + 58) / 59 → r.length = 64) ∧
      (r.length = 64 ↔ 59 * (i + 1) ≤ p.length + 2) := by
  obtain ⟨⟨s, hs⟩, hlt⟩ := Write_records_shape_any T w hf p i r hr
  have hlen : r.length = 5 + min 59 (p.length + 2 - 59 * i) := by
    rw [hs]
    simp only [header, List.length_append, List.length_cons, List.length_nil, List.length_take,
      List.length_drop, prefixed_length]
  refine ⟨?_, ?_, hlen, by omega, by omega, fun h => by omega, by omega⟩
  · rw [hs]; rfl
  · rw [hs]; rfl

/-- C11 amended, on an example: the only record of the message `01 02 03` has
10 bytes. -/
theorem Write_record_lengths_witness :
    ([0x01, 0x01, 0x05, 0, 0, 0, 3, 1, 2, 3] : List Byte).length = 5 + min 59 (3 + 2 - 59 * 0) :=
  (Write_record_lengths scripted ⟨[], []⟩ hidFramer.fresh [1, 2, 3] 0
    [0x01, 0x01, 0x05, 0, 0, 0, 3, 1, 2, 3] rfl).2.2.1

/-- C12, as stated, fails: a device that accepts only 3 bytes of the 10-byte
record and reports no error makes a short write, yet `hidFramer.Write` returns
`(len(p), nil)`. -/
theorem Write_ignores_short_write :
    hidFramer.Write shortWriter ⟨(), []⟩ hidFramer.fresh [1, 2, 3]
        = .ret ⟨(), [IOEvent.write [0x01, 0x01, 0x05, 0, 0, 0, 3, 1, 2, 3] 3 none]⟩ (3, none) ∧
    (IOEvent.write [0x01, 0x01, 0x05, 0, 0, 0, 3, 1, 2, 3] 3 none).isShortWrite = true :=
  ⟨rfl, rfl⟩

/-- C12, amended: `hidFramer.Write` always returns, makes write calls only, and
returns an error if and only if some write call on the device returned a non-nil
error; the count returned with a write is not examined, so a short write is
noticed only through its error (as the contract of `io.Writer` demands).  The
erroring call is the last call made, its error and count are what
`hidFramer.Write` returns, and the records written are an initial part of the
records of the message, in order, each written once. -/
theorem Write_error_iff {σ : Type} (T : ReadWriter σ) (w : Wire σ) (hf : hidFramer)
    (p : List Byte) :
    ∃ w1 n err, hidFramer.Write T w hf p = .ret w1 (n, err) ∧
      readsOf (w1.since w) = [] ∧ (w1.since w).length = (writesOf (w1.since w)).length ∧
      (err ≠ none ↔ ∃ x ∈ w1.since w, x.err ≠ none) ∧
      (∀ pre x post, w1.since w = pre ++ x :: post → x.err ≠ none →
        post = [] ∧ err = x.err ∧ n = x.count) ∧
      (∃ k, writesOf (w1.since w) = (frames (prefixed p).length 0 (prefixed p)).take k) ∧
      ((∀ x ∈ w1.since w, x.isShortWrite = true → x.err ≠ none) →
        (err ≠ none ↔ ∃ x ∈ w1.since w, x.err ≠ none ∨ x.isShortWrite = true)) := by
  rw [Write_eq_sendAll]
  obtain ⟨w1, n, err, evs, hS, htr, hr, hlen, hk, hnone, hsome⟩ :=
    sendAll_events T p.length (frames (prefixed p).length 0 (prefixed p)) w
  have hs := since_append w w1 evs htr
  have hiff : err ≠ none ↔ ∃ x ∈ evs, x.err ≠ none := by
    constructor
    · intro he
      cases err with
      | none => exact absurd rfl he
      | some e =>
        obtain ⟨pre, r, hp, _⟩ := hsome e rfl
        exact ⟨IOEvent.write r n (some e), by rw [hp]; simp, by simp [IOEvent.err]⟩
    · rintro ⟨x, hx, hxe⟩ he
      exact hxe (hnone he x hx)
  refine ⟨w1, n, err, hS, ?_, ?_, ?_, ?_, ?_, ?_⟩
  · rw [hs]; exact hr
  · rw [hs]; exact hlen
  · rw [hs]; exact hiff
  · rw [hs]
    intro pre x post hd hx
    cases err with
    | none => exact absurd (hnone rfl x (by rw [hd]; simp)) hx
    | some e =>
      obtain ⟨pre0, r, hp, hc⟩ := hsome e rfl
      rw [hp] at hd
      obtain ⟨h1, h2, _⟩ := last_is_only_error (fun y : IOEvent => y.err ≠ none) pre0 _ pre post x
        (fun y hy => by simpa using hc y hy) hd hx
      subst h2
      exact ⟨h1, rfl, rfl⟩
  · rw [hs]; exact hk
  · rw [hs]
    intro hcontract
    rw [hiff]
    constructor
    · rintro ⟨x, hx, hxe⟩
      exact ⟨x, hx, Or.inl hxe⟩
    · rintro ⟨x, hx, hxe | hxs⟩
      · exact ⟨x, hx, hxe⟩
      · exact ⟨x, hx, hcontract x hx hxs⟩

/-- C12 amended, on an example: on a device that accepts every record the 3-byte
message is sent with write calls only and no error is returned. -/
theorem Write_error_iff_witness :
    ∃ w1 n, hidFramer.Write scripted ⟨[], []⟩ hidFramer.fresh [1, 2, 3] = .ret w1 (n, none) ∧
      readsOf (w1.since ⟨[], []⟩) = [] := by
  obtain ⟨w1, n, err, h1, h2, _⟩ :=
    Write_error_iff scripted ⟨[], []⟩ hidFramer.fresh [1, 2, 3]
  have h3 : hidFramer.Write scripted ⟨[], []⟩ hidFramer.fresh [1, 2, 3]
      = .ret ⟨[], [IOEvent.write [0x01, 0x01, 0x05, 0, 0, 0, 3, 1, 2, 3] 10 none]⟩ (3, none) := rfl
  rw [h3] at h1
  cases h1
  exact ⟨_, _, rfl, h2⟩

set_option maxRecDepth 100000 in
/-- C13, as stated, fails: the device delivers one packet announcing a response
of 100 bytes and then returns `io.EOF`; `apduFramer.Exchange` and
`NanoS.Exchange` return `io.ErrUnexpectedEOF`, not the error of the device. -/
theorem Exchange_changes_eof :
    ∃ w1 af1 resp,
      apduFramer.fresh.Exchange scripted ⟨[packet 0 [0, 100]], []⟩
          { CLA := 0xe0, INS := 2, P1 := 0, P2 := 0, Payload := [1, 2, 3, 4] }
        = .ret w1 (af1, resp, some Err.unexpectedEOF) ∧
      w1.trace.getLast? = some (IOEvent.read [] (some Err.eof)) ∧
      NanoS.Exchange scripted ⟨[packet 0 [0, 100]], []⟩ ⟨apduFramer.fresh⟩ 2 0 0 [1, 2, 3, 4]
        = .ret w1 (⟨af1⟩, Slice.nil, some Err.unexpectedEOF) ∧
      Err.unexpectedEOF ≠ Err.eof :=
  ⟨_, _, _, rfl, rfl, rfl, by decide⟩

/-- C13, amended: during `apduFramer.Exchange` a call on the device that gives
rise to an error (a write or a read for which the device returns an error, or a
read of a 64-byte packet that fails the header checks of `hidFramer.Read`) is the
last call made on the device, and its error is returned by
`apduFramer.Exchange` and, with the `nil` slice, by `NanoS.Exchange`: as the very
same value, except that `io.EOF` returned by a read after the first one (the
length prefix was already read) is returned as `io.ErrUnexpectedEOF`. -/
theorem Exchange_error_propagation {σ : Type} (T : ReadWriter σ) (w : Wire σ)
    (af : apduFramer) (apdu : APDU) (hn : apdu.Payload.length ≤ 255)
    (pre post : List IOEvent) (x : IOEvent) (e : Err)
    (hev : (af.Exchange T w apdu).wire.since w = pre ++ x :: post)
    (hx : x.fault (readCount pre) = some e) :
    post = [] ∧
    (∃ af1 resp,
      af.Exchange T w apdu
        = .ret (af.Exchange T w apdu).wire (af1, resp, some (asReturned (readCount pre) e)) ∧
      ∀ (n : NanoS) (cmd p1 p2 : Byte) (data : List Byte), n.device = af →
        apdu = { CLA := 0xe0, INS := cmd, P1 := p1, P2 := p2, Payload := data } →
        NanoS.Exchange T w n cmd p1 p2 data
          = .ret (af.Exchange T w apdu).wire
              (⟨af1⟩, Slice.nil, some (asReturned (readCount pre) e))) ∧
    (e ≠ Err.eof ∨ readCount pre = 0 → asReturned (readCount pre) e = e) ∧
    (e = Err.eof → 0 < readCount pre → asReturned (readCount pre) e = Err.unexpectedEOF) := by
  obtain ⟨evs, htr, hrun⟩ := Exchange_run T w af apdu hn
  rw [since_append w _ evs htr] at hev
  have hx0 : x.fault (0 + readCount pre) = some e := by rw [Nat.zero_add]; exact hx
  obtain ⟨hpost, herr⟩ := Run_fault 0 evs _ hrun pre post x e hev hx0
  rw [Nat.zero_add] at herr
  obtain ⟨af1, resp, hret⟩ := errOf_some _ _ herr
  refine ⟨hpost, ⟨af1, resp, hret, ?_⟩, ?_, ?_⟩
  · intro n cmd p1 p2 data hdev hap
    subst hdev hap
    exact NanoS_Exchange_err T w _ n cmd p1 p2 data af1 resp _ hret
  · intro h
    unfold asReturned
    rcases h with h | h
    · simp [h]
    · simp [h]
  · intro h1 h2
    simp [asReturned, h1, h2]

set_option maxRecDepth 100000 in
/-- C13 amended, on an example: the device returns `io.EOF` on the second read,
after the packet that announces 100 bytes; this is the last call made, and
`apduFramer.Exchange` returns what `asReturned` makes of the error. -/
theorem Exchange_error_propagation_witness :
    ∃ af1 resp,
      apduFramer.fresh.Exchange scripted ⟨[packet 0 [0, 100]], []⟩
          { CLA := 0xe0, INS := 2, P1 := 0, P2 := 0, Payload := [1, 2, 3, 4] }
        = .ret (apduFramer.fresh.Exchange scripted ⟨[packet 0 [0, 100]], []⟩
            { CLA := 0xe0, INS := 2, P1 := 0, P2 := 0, Payload := [1, 2, 3, 4] }).wire
          (af1, resp, some (asReturned 1 Err.eof)) := by
  obtain ⟨_, ⟨af1, resp, h, _⟩, _⟩ := Exchange_error_propagation scripted
    ⟨[packet 0 [0, 100]], []⟩ apduFramer.fresh
    { CLA := 0xe0, INS := 2, P1 := 0, P2 := 0, Payload := [1, 2, 3, 4] } (by decide)
    [IOEvent.write [0x01, 0x01, 0x05, 0, 0, 0, 9, 0xe0, 2, 0, 0, 4, 1, 2, 3, 4] 16 none,
      IOEvent.read (packet 0 [0, 100]) none] [] (IOEvent.read [] (some Err.eof)) Err.eof
    rfl rfl
  exact ⟨af1, resp, h⟩

/-- C14: `NewSignature` returns a signature and a `nil` error if and only if the
response has exactly 65 bytes; then `r` is bytes 0..31, `s` bytes 32..63 and `v`
byte 64 of the response, `r`, `s`, `v` together are the response, and `ToString`
is the hexadecimal encoding of the response, 130 characters long.  For any other
length it returns the error and no signature. -/
theorem NewSignature_spec (response : List Byte) :
    ((NewSignature response).2 = none ↔ response.length = 65) ∧
    ((NewSignature response).1.isSome ↔ response.length = 65) ∧
    (response.length ≠ 65 →
      NewSignature response = (none, some Err.invalidSignatureLength)) ∧
    (response.length = 65 →
      ∃ sig, NewSignature response = (some sig, none) ∧
        sig.r.1 = response.take 32 ∧ sig.s.1 = (response.drop 32).take 32 ∧
        sig.v.1 = [response.getD 64 0] ∧
        sig.r.1 ++ sig.s.1 ++ sig.v.1 = response ∧
        sig.ToString = hexEncode response ∧ sig.ToString.length = 130) := by
  by_cases h : response.length = 65
  · have hn : ¬ response.length ≠ 65 := not_not.mpr h
    have hr : ((Arr.zero 32).copyFrom (response.take 32)).1 = response.take 32 :=
      copyFrom_exact _ _ (by simp [h])
    have hs : ((Arr.zero 32).copyFrom ((response.drop 32).take 32)).1
        = (response.drop 32).take 32 := copyFrom_exact _ _ (by simp [h])
    have hv : ((Arr.zero 1).copyFrom [response.getD 64 0]).1 = [response.getD 64 0] :=
      copyFrom_exact _ _ rfl
    have hall : response.take 32 ++ (response.drop 32).take 32 ++ [response.getD 64 0]
        = response := by
      rw [← getD_last_of_length response 64 h]
      have e : response.drop 64 = (response.drop 32).drop 32 := by rw [List.drop_drop]
      rw [e, List.append_assoc, List.take_append_drop, List.take_append_drop]
    have hN : NewSignature response
        = (some { r := (Arr.zero 32).copyFrom (response.take 32),
                  s := (Arr.zero 32).copyFrom ((response.drop 32).take 32),
                  v := (Arr.zero 1).copyFrom [response.getD 64 0] }, none) := by
      simp only [NewSignature, hn, ↓reduceIte]
    have hT : hexEncode (response.take 32) ++ hexEncode ((response.drop 32).take 32)
        ++ hexEncode [response.getD 64 0] = hexEncode response := by
      rw [← hexEncode_append, ← hexEncode_append, hall]
    refine ⟨by simp [hN, h], by simp [hN, h], fun h' => absurd h h', fun _ => ?_⟩
    refine ⟨_, hN, hr, hs, hv, ?_, ?_, ?_⟩
    · rw [hr, hs, hv, hall]
    · simp only [MinterSignature.ToString, hr, hs, hv, hT]
    · simp only [MinterSignature.ToString, hr, hs, hv, hT, hexEncode_length, h]
  · have hN : NewSignature response = (none, some Err.invalidSignatureLength) := by
      simp only [NewSignature, ne_eq, h, not_false_eq_true, ↓reduceIte]
    exact ⟨by simp [hN, h], by simp [hN, h], fun _ => hN, fun h' => absurd h' h⟩

/-- C14, on an example: a 65-byte response is split into `r`, `s` and `v`. -/
theorem NewSignature_spec_witness :
    ∃ sig, NewSignature (List.replicate 32 1 ++ List.replicate 32 2 ++ [3]) = (some sig, none) ∧
      sig.r.1 ++ sig.s.1 ++ sig.v.1 = List.replicate 32 1 ++ List.replicate 32 2 ++ [3] := by
  obtain ⟨sig, h1, _, _, _, h2, _⟩ :=
    (NewSignature_spec (List.replicate 32 1 ++ List.replicate 32 2 ++ [3])).2.2.2 (by decide)
  exact ⟨sig, h1, h2⟩

set_option maxRecDepth 100000 in
/-- C15, the code at the failing inputs: answered with the success status and a
body of 18 bytes `07`, `NanoS.GetAddress` returns a `nil` error and an address
whose last two bytes are the status bytes `90 00`; answered with a body of 3
bytes, it panics. -/
theorem GetAddress_short_body :
    (∃ w1 n1 addr,
      NanoS.GetAddress scripted
          ⟨[packet 0 ([0, 20] ++ List.replicate 18 7 ++ [0x90, 0x00])], []⟩
          ⟨apduFramer.fresh⟩ 0 true
        = .ret w1 (n1, addr, none) ∧
      addr.buf.1 = List.replicate 18 7 ++ [0x90, 0x00]) ∧
    (∃ w1,
      NanoS.GetAddress scripted ⟨[packet 0 [0, 5, 1, 2, 3, 0x90, 0x00]], []⟩
          ⟨apduFramer.fresh⟩ 0 true
        = .panics w1 "slice bounds out of range") :=
  ⟨⟨_, _, _, rfl, rfl⟩, ⟨_, rfl⟩⟩

/-- C16: when the device answers the get-version request with the success status,
`NanoS.GetVersion` returns a version with a `nil` error if and only if the body of
the response has exactly 3 bytes, and the version is then `v`, the first byte in
decimal, a dot, the second byte, a dot and the third byte; for any other length
of the body it returns the empty string and the error "version has wrong
length". -/
theorem GetVersion_spec {σ : Type} (T : ReadWriter σ) (w w1 : Wire σ) (n : NanoS)
    (af1 : apduFramer) (body : List Byte)
    (hE : n.device.Exchange T w { CLA := 0xe0, INS := 0x01, P1 := 0, P2 := 0, Payload := [] }
      = .ret w1 (af1, body ++ [0x90, 0x00], none)) :
    ((∃ n1 v, NanoS.GetVersion T w n = .ret w1 (n1, v, none)) ↔ body.length = 3) ∧
    (∀ a b c : Byte, body = [a, b, c] →
      NanoS.GetVersion T w n
        = .ret w1 (⟨af1⟩,
            ascii ("v" ++ Nat.repr a.val ++ "." ++ Nat.repr b.val ++ "." ++ Nat.repr c.val),
            none)) ∧
    (body.length ≠ 3 →
      NanoS.GetVersion T w n = .ret w1 (⟨af1⟩, [], some Err.versionWrongLength)) := by
  have hX := NanoS_Exchange_ok T w w1 n 0x01 0 0 [] af1 body hE
  have hbad : body.length ≠ 3 →
      NanoS.GetVersion T w n = .ret w1 (⟨af1⟩, [], some Err.versionWrongLength) := by
    intro h
    unfold NanoS.GetVersion
    simp only [hX, ne_eq, h, not_false_eq_true, ↓reduceIte]
  have hgood : ∀ a b c : Byte, body = [a, b, c] →
      NanoS.GetVersion T w n
        = .ret w1 (⟨af1⟩,
            ascii ("v" ++ Nat.repr a.val ++ "." ++ Nat.repr b.val ++ "." ++ Nat.repr c.val),
            none) := by
    intro a b c h
    subst h
    unfold NanoS.GetVersion
    simp only [hX]
    rfl
  refine ⟨⟨?_, ?_⟩, hgood, hbad⟩
  · rintro ⟨n1, v, hv⟩
    by_contra h
    rw [hbad h] at hv
    cases hv
  · intro h
    obtain ⟨a, b, c, rfl⟩ := List.length_eq_three.mp h
    exact ⟨_, _, hgood a b c rfl⟩

set_option maxRecDepth 100000 in
/-- C16, on an example: the body `01 02 03` gives the version `v1.2.3`. -/
theorem GetVersion_spec_witness :
    ∃ w1 n1, NanoS.GetVersion scripted ⟨[packet 0 [0, 5, 1, 2, 3, 0x90, 0x00]], []⟩
        ⟨apduFramer.fresh⟩ = .ret w1 (n1, ascii "v1.2.3", none) := by
  have hE : ∃ w1 af1, apduFramer.fresh.Exchange scripted
      ⟨[packet 0 [0, 5, 1, 2, 3, 0x90, 0x00]], []⟩
      { CLA := 0xe0, INS := 0x01, P1 := 0, P2 := 0, Payload := [] }
      = .ret w1 (af1, [1, 2, 3] ++ [0x90, 0x00], none) := ⟨_, _, rfl⟩
  obtain ⟨w1, af1, hE⟩ := hE
  have h := (GetVersion_spec scripted _ w1 ⟨apduFramer.fresh⟩ af1 [1, 2, 3] hE).2.1 1 2 3 rfl
  exact ⟨w1, _, h⟩

/-- C17: on a device whose writes succeed, `NanoS.GetAddress` sends the class byte
`E0`, the instruction `02`, the silent flag as `P1` (1 when silent, 0 otherwise),
`P2 = 0` and a payload of exactly the 4 bytes of the derivation index, lowest byte
first; `NanoS.SignHash` sends the instruction `04`, the same `P1` and `P2`, and a
36-byte payload: those 4 bytes followed by the 32 bytes of the hash. -/
theorem command_requests {σ : Type} (T : ReadWriter σ) (w : Wire σ) (n : NanoS)
    (hash : Arr 32) (deriveIndex : Nat) (silent : Bool) (hT : WritesSucceed T) :
    payloads (writesOf ((NanoS.GetAddress T w n deriveIndex silent).wire.since w))
      = [0, 9, 0xe0, 0x02, if silent then 1 else 0, 0x00, 4] ++ le32 deriveIndex ∧
    payloads (writesOf ((NanoS.SignHash T w n hash deriveIndex silent).wire.since w))
      = [0, 41, 0xe0, 0x04, if silent then 1 else 0, 0x00, 36] ++ (le32 deriveIndex ++ hash.1) ∧
    (le32 deriveIndex).length = 4 ∧ (le32 deriveIndex ++ hash.1).length = 36 ∧
    ((le32 deriveIndex).getD 0 0).val + 256 * ((le32 deriveIndex).getD 1 0).val
        + 65536 * ((le32 deriveIndex).getD 2 0).val
        + 16777216 * ((le32 deriveIndex).getD 3 0).val
      = deriveIndex % 4294967296 := by
  have hh := hash.2
  refine ⟨?_, ?_, rfl, by simp [le32, hh], ?_⟩
  · have hl : ∀ p1 : Byte, (APDU.data ⟨0xe0, 0x02, p1, 0, le32 deriveIndex⟩).length = 9 :=
      fun _ => rfl
    rw [GetAddress_wire, Exchange_written T w n.device _ (by simp [le32]) hT,
      prefixed_small _ (by rw [hl]; decide), hl]
    rfl
  · have hl : ∀ p1 : Byte,
        (APDU.data ⟨0xe0, 0x04, p1, 0, le32 deriveIndex ++ hash.1⟩).length = 41 := by
      intro p1
      simp [APDU.data, le32, hh]
    have hp : (le32 deriveIndex ++ hash.1).length = 36 := by simp [le32, hh]
    rw [SignHash_wire, Exchange_written T w n.device _ (by simp [le32, hh]) hT,
      prefixed_small _ (by rw [hl]; decide), hl]
    simp only [APDU.data, hp]
    rfl
  · show deriveIndex % 256 + 256 * (deriveIndex / 256 % 256)
        + 65536 * (deriveIndex / 65536 % 256) + 16777216 * (deriveIndex / 16777216 % 256)
      = deriveIndex % 4294967296
    omega

/-- C17, on an example: the request for the address number `0x01020304`, silent,
carries the payload `04 03 02 01`. -/
theorem command_requests_witness :
    payloads (writesOf ((NanoS.GetAddress scripted ⟨[], []⟩ ⟨apduFramer.fresh⟩
        0x01020304 true).wire.since ⟨[], []⟩))
      = [0, 9, 0xe0, 0x02, 1, 0x00, 4, 4, 3, 2, 1] :=
  (command_requests scripted ⟨[], []⟩ ⟨apduFramer.fresh⟩ (Arr.zero 32) 0x01020304 true
    (fun _ _ => rfl)).1

/-- C18, the code: `MinterAddress.LoadString` returns the error "invalid address
hex string length" for every string and leaves the address as it was, also for a
string of 40 hexadecimal digits and for the 42 characters `ToString` produces. -/
theorem LoadString_always_rejects :
    (∀ (ref : MinterAddress) (s : GoString),
      ref.LoadString s = (ref, some Err.invalidAddressLength)) ∧
    (ascii "0102030405060708090a0b0c0d0e0f1011121314").length = 40 ∧
    MinterAddress.LoadString ⟨Arr.zero 20⟩ (ascii "0102030405060708090a0b0c0d0e0f1011121314")
      = (⟨Arr.zero 20⟩, some Err.invalidAddressLength) ∧
    (∀ ref : MinterAddress, ref.ToString.length = 42 ∧
      ref.LoadString ref.ToString = (ref, some Err.invalidAddressLength)) := by
  have h : ∀ (ref : MinterAddress) (s : GoString),
      ref.LoadString s = (ref, some Err.invalidAddressLength) := by
    intro ref s
    have hc : s.length ≠ 40 ∨ s.length ≠ 42 := by omega
    simp only [MinterAddress.LoadString, hc, ↓reduceIte]
  refine ⟨h, by decide, h _ _, fun ref => ⟨?_, h _ _⟩⟩
  have := ref.buf.2
  simp [MinterAddress.ToString, hexEncode_length, this, ascii]

set_option maxRecDepth 100000 in
/-- C19, as stated, fails: after a `Read` of 10 bytes (read position 15, 49 bytes
of the packet unread) and a `Reset`, the next `Read` does not copy from the
buffer: it makes a read call on the device, delivers the first bytes of the new
packet, moves the expected sequence number from 0 to 1 and leaves the read
position at 15. -/
theorem Read_after_Reset_reads_device :
    ∃ w1 hf1 w2 hf2,
      Reachable scripted ⟨[packet 0 (List.replicate 59 1), packet 0 (List.replicate 59 2)], []⟩
        w1 hf1 ∧
      hf1.seq = 0 ∧ hf1.pos = 15 ∧ (hf1.buf.1.drop hf1.pos).take 10 = List.replicate 10 1 ∧
      hidFramer.Read scripted w1 hf1 10 = .ret w2 (hf2, List.replicate 10 2, none) ∧
      w2.since w1 = [IOEvent.read (packet 0 (List.replicate 59 2)) none] ∧
      hf2.seq = 1 ∧ hf2.pos = 15 :=
  ⟨_, _, _, _, Reachable.reset (Reachable.read 10 Reachable.fresh rfl), rfl, rfl, rfl, rfl, rfl,
    rfl, rfl⟩

/-- C19, amended: in a framer state with read position between 5 and 63,
`hidFramer.Read` with a buffer of `plen` bytes copies
`min plen (64 - position)` bytes from the read position on, advances the position
by that count and returns without a call on the device and without changing the
expected sequence number, provided the expected sequence number is greater than
0; when it is 0, as after `Reset`, `hidFramer.Read` makes a read call on the
device instead. -/
theorem Read_drains_buffer {σ : Type} (T : ReadWriter σ) (w : Wire σ) (hf : hidFramer)
    (plen : Nat) (h5 : 5 ≤ hf.pos) (h63 : hf.pos ≤ 63) :
    (0 < hf.seq →
      hidFramer.Read T w hf plen
        = .ret w ({ hf with pos := hf.pos + min plen (64 - hf.pos) },
            (hf.buf.1.drop hf.pos).take plen, none) ∧
      ((hf.buf.1.drop hf.pos).take plen).length = min plen (64 - hf.pos)) ∧
    (hf.seq = 0 →
      (hidFramer.Read T w hf plen).wire.since w
        = [IOEvent.read (T.Read w.st 64).2.1 (T.Read w.st 64).2.2]) := by
  have hb := hf.buf.2
  have hol : ((hf.buf.1.drop hf.pos).take plen).length = min plen (64 - hf.pos) := by
    simp [hb]
  constructor
  · intro hs
    refine ⟨?_, hol⟩
    rw [Read_drain T w hf plen hs (by omega), hol]
  · intro hs
    have hgo : ¬ (hf.seq > 0 ∧ hf.pos ≠ 64) := by omega
    apply since_append
    have hwr : (w.Read T 64).1.trace
        = w.trace ++ [IOEvent.read (T.Read w.st 64).2.1 (T.Read w.st 64).2.2] := rfl
    rcases Read_classify T w hf plen hgo with
      ⟨e, hf1, _, hR⟩ | ⟨_, hR⟩ | ⟨_, hf1, out, hR, _⟩
    · rw [hR]; exact hwr
    · rw [hR]; exact hwr
    · rw [hR]; exact hwr

/-- C19 amended, on an example: with expected sequence number 1 and read position
15, a `Read` into a buffer of 10 bytes copies 10 bytes and moves the position to
25. -/
theorem Read_drains_buffer_witness :
    hidFramer.Read scripted ⟨[], []⟩ ⟨1, Arr.zero 64, 15⟩ 10
      = .ret ⟨[], []⟩ (⟨1, Arr.zero 64, 25⟩, List.replicate 10 0, none) :=
  ((Read_drains_buffer scripted ⟨[], []⟩ ⟨1, Arr.zero 64, 15⟩ 10 (by decide) (by decide)).1
    (by decide)).1

/-- C20: for every command (in particular for every payload of at most 255
bytes) and every device, `apduFramer.Exchange` returns the same response and
error, or panics in the same way, makes the same calls on the device and writes
the same records, whatever the state of the framer before the call (expected
sequence number, buffered packet, read position, length buffer); so bytes left
unread from an earlier response are never delivered.  After an `Exchange` that
returns a `nil` error the read position is 0, and the framer is left in the same
state too. -/
theorem Exchange_isolation {σ : Type} (T : ReadWriter σ) (w : Wire σ) (af af' : apduFramer)
    (apdu : APDU) :
    (af.Exchange T w apdu).result = (af'.Exchange T w apdu).result ∧
    (af.Exchange T w apdu).wire = (af'.Exchange T w apdu).wire ∧
    writesOf ((af.Exchange T w apdu).wire.since w)
      = writesOf ((af'.Exchange T w apdu).wire.since w) ∧
    ∀ w1 af1 resp, af.Exchange T w apdu = .ret w1 (af1, resp, none) →
      af1.hf.pos = 0 ∧ af'.Exchange T w apdu = .ret w1 (af1, resp, none) := by
  obtain ⟨h1, h2⟩ := Exchange_indep T w af af' apdu
  have hw : (af.Exchange T w apdu).wire = (af'.Exchange T w apdu).wire := by
    rw [← result_wire, ← result_wire (af'.Exchange T w apdu), h1]
  exact ⟨h1, hw, by rw [hw], h2⟩

set_option maxRecDepth 100000 in
/-- C20, on an example: a framer left with expected sequence number 5, a buffer
full of `FF` and read position 20 by an earlier exchange returns the response
`AA BB CC` of the device, as a fresh framer does. -/
theorem Exchange_isolation_witness :
    ∃ w1,
      (apduFramer.Exchange scripted ⟨[packet 0 [0, 3, 0xAA, 0xBB, 0xCC]], []⟩
          ⟨⟨5, ⟨List.replicate 64 0xFF, by simp⟩, 20⟩, Arr.zero 2⟩
          { CLA := 0xe0, INS := 2, P1 := 0, P2 := 0, Payload := [1, 2, 3, 4] }).result
        = .ret w1 ([0xAA, 0xBB, 0xCC], none) ∧
      (apduFramer.fresh.Exchange scripted ⟨[packet 0 [0, 3, 0xAA, 0xBB, 0xCC]], []⟩
          { CLA := 0xe0, INS := 2, P1 := 0, P2 := 0, Payload := [1, 2, 3, 4] }).result
        = .ret w1 ([0xAA, 0xBB, 0xCC], none) := by
  have h := (Exchange_isolation scripted ⟨[packet 0 [0, 3, 0xAA, 0xBB, 0xCC]], []⟩
    ⟨⟨5, ⟨List.replicate 64 0xFF, by simp⟩, 20⟩, Arr.zero 2⟩ apduFramer.fresh
    { CLA := 0xe0, INS := 2, P1 := 0, P2 := 0, Payload := [1, 2, 3, 4] }).1
  rw [h]
  exact ⟨_, rfl, rfl⟩

end MinterLedger
